import Mathlib

/-!
floppymount: sector addressing, chain traversal and content decoding.

A shallow embedding of the two disk-image engines of the repository
(`dos68/DiskImage.go`, `flex2/DiskImage.go`) together with the shared
declarations of `DiskImage.go`.

Conventions of the embedding

* A byte is a natural number (`Byte`); every theorem below holds for all
  natural numbers and hence for all values below 256.
* Go `int` values (64 bit) are unbounded integers.  All arithmetic done by
  the embedded functions happens after the bounds checks of the source, or on
  values derived from bytes, so no 64-bit overflow is reachable there; the
  one exception, a huge `Track` handed to the flex2 `getSector`, is outside
  every statement below.
* A Go function can return, fault (a run-time error such as "slice bounds out
  of range") or loop for ever.  `Run` records the three outcomes; loops whose
  trip count is not bounded by the source take a fuel argument and yield
  `Run.outOfFuel` when it is used up.
* `reads` fields are ghost logs of the sectors a function fetched; they are
  not part of the Go state.
-/

namespace Floppymount

/-- One byte of image data. -/
abbrev Byte := Nat

/-- The struct `SectorAddress` of `DiskImage.go`. -/
structure SectorAddress where
  Track : Int
  Sector : Int
deriving DecidableEq, Repr

/-- The error values that occur: `ErrInvalidAddress` of `DiskImage.go` and the
`io.EOF` that `ReadAt` yields on a short read. -/
inductive GoError where
  | ErrInvalidAddress
  | EOF
deriving DecidableEq, Repr

/-- Outcome of running a Go function. -/
inductive Run (α : Type) where
  | ret (a : α)
  | fault
  | outOfFuel
deriving DecidableEq, Repr

/-- Sequencing of outcomes. -/
def Run.bind {α β : Type} (x : Run α) (f : α → Run β) : Run β :=
  match x with
  | .ret a => f a
  | .fault => .fault
  | .outOfFuel => .outOfFuel

instance : Monad Run where
  pure := Run.ret
  bind := Run.bind

/-- A Go byte slice: `data` holds the elements below `len`, `spare` the
elements of the backing array from `len` up to `cap`. -/
structure Slice where
  data : List Byte
  spare : List Byte
deriving DecidableEq, Repr

namespace Slice

/-- The nil slice. -/
def nil : Slice := ⟨[], []⟩

/-- Go `len(s)`. -/
def len (s : Slice) : Nat := s.data.length

/-- Go `cap(s)`. -/
def cap (s : Slice) : Nat := s.data.length + s.spare.length

/-- Go `s[lo:hi]`: faults unless `0 ≤ lo ≤ hi ≤ cap(s)`. -/
def slice (s : Slice) (lo hi : Int) : Run Slice :=
  if 0 ≤ lo ∧ lo ≤ hi ∧ hi ≤ (s.cap : Int) then
    .ret ⟨((s.data ++ s.spare).drop lo.toNat).take (hi - lo).toNat,
          (s.data ++ s.spare).drop hi.toNat⟩
  else .fault

/-- Go `s[lo:]`, that is `s[lo:len(s)]`. -/
def sliceFrom (s : Slice) (lo : Int) : Run Slice :=
  s.slice lo (s.len : Int)

/-- Go `s[k]`: faults unless `0 ≤ k < len(s)`. -/
def index (s : Slice) (k : Int) : Run Byte :=
  if 0 ≤ k then
    match s.data[k.toNat]? with
    | some b => .ret b
    | none => .fault
  else .fault

end Slice

/-- Go `strings.TrimRight` for a one byte cutset (`trimRightByte`). -/
def trimRightByte (s : List Byte) (c : Byte) : List Byte :=
  s.rdropWhile (fun b => b == c)

/-- Go `strings.TrimLeft` for a one byte cutset (`trimLeftByte`). -/
def trimLeftByte (s : List Byte) (c : Byte) : List Byte :=
  s.dropWhile (fun b => b == c)

/-- Go `[]byte(strings.Trim(string(s), "\x00"))`: for a cutset of one ASCII
byte `strings.Trim` is `trimLeftByte(trimRightByte(s, c), c)`; the conversions
between `[]byte` and `string` keep every byte. -/
def TrimNul (s : List Byte) : List Byte :=
  trimLeftByte (trimRightByte s 0x00) 0x00

/-- The test `sector[0] == 0x00 && sector[1] == 0x00` with Go's short-circuit
evaluation. -/
def zeroLink (sector : Slice) : Run Bool := do
  let b0 ← sector.index 0
  if b0 = 0x00 then
    let b1 ← sector.index 1
    pure (decide (b1 = 0x00))
  else pure false

/-- Bytes 0 and 1 of a sector are both zero. -/
def linkIsZero (d : List Byte) : Bool :=
  d.getD 0 0 == 0x00 && d.getD 1 0 == 0x00

/-! ## dos68 -/

namespace dos68

def sectorsPerTrack : Int := 18

def bytesPerSector : Int := 128

def filetypeText : Byte := 0x01

def filetypeBinary : Byte := 0x02

/-- The struct `DiskImage`; `data` is the slice `io.ReadAll` returned. -/
structure DiskImage where
  data : Slice
deriving DecidableEq, Repr

/-- The struct `fib` without its inode and image pointer. -/
structure fib where
  filename : List Byte
  extension : List Byte
  fileType : Byte
  fileStatus : Byte
  begin : SectorAddress
  end_ : SectorAddress
  length : Int
deriving DecidableEq, Repr

/-- The struct `directoryBlock`. -/
structure directoryBlock where
  fileInformationBlocks : List fib
  next : SectorAddress
deriving DecidableEq, Repr

def DiskImage.Tracks (_i : DiskImage) : Int := 35

/-- The offset expression of `GetSector`. -/
def sectorOffset (a : SectorAddress) : Int :=
  a.Track * sectorsPerTrack * bytesPerSector + a.Sector * bytesPerSector

/-- Method `GetSector`: the returned slice aliases the image. -/
def DiskImage.GetSector (i : DiskImage) (a : SectorAddress) : Run (Slice × Option GoError) :=
  if a.Track ≥ i.Tracks ∨ a.Sector ≥ sectorsPerTrack ∨ a.Track < 0 ∨ a.Sector < 0 then
    .ret (Slice.nil, some GoError.ErrInvalidAddress)
  else
    let offset := sectorOffset a
    (i.data.slice offset (offset + bytesPerSector)).bind fun s => .ret (s, none)

/-- The address `{Track: int(s[0] & 0x7F), Sector: int(s[1] & 0x3F)}`. -/
def maskedLink (s : Slice) : Run SectorAddress := do
  let b0 ← s.index 0
  let b1 ← s.index 1
  pure ⟨((b0 &&& 0x7F : Nat) : Int), ((b1 &&& 0x3F : Nat) : Int)⟩

/-- What `GetFileContents` returns, with the log of the sectors it fetched. -/
structure Contents where
  data : List Byte
  err : Option GoError
  reads : List SectorAddress
deriving DecidableEq, Repr

/-- The `for i := 0; i < fib.length; i++` loop of `GetFileContents`; the first
argument is the number of iterations left.  An `err` in the result is the
early `return data, err`. -/
def contentsLoop (image : DiskImage) : Nat → Slice → List Byte → List SectorAddress → Run Contents
  | 0, _, data, reads => .ret ⟨data, none, reads⟩
  | n + 1, sector, data, reads => do
    let payload ← sector.sliceFrom 4
    let data := data ++ payload.data
    let stop ← zeroLink sector
    if stop then .ret ⟨data, none, reads⟩
    else
      let a ← maskedLink sector
      let r ← image.GetSector a
      match r.2 with
      | some e => .ret ⟨data, some e, reads⟩
      | none => contentsLoop image n r.1 data (reads ++ [a])

/-- Method `GetFileContents`. -/
def DiskImage.GetFileContents (image : DiskImage) (f : fib) : Run Contents := do
  let r ← image.GetSector f.begin
  match r.2 with
  | some e => .ret ⟨[], some e, []⟩
  | none =>
    let c ← contentsLoop image f.length.toNat r.1 [] [f.begin]
    match c.err with
    | some e => .ret ⟨c.data, some e, c.reads⟩
    | none =>
      if f.fileType = filetypeText then .ret ⟨TrimNul c.data, none, c.reads⟩
      else .ret ⟨c.data, none, c.reads⟩

/-- The composite literal that builds one `fib` from its 25 byte window. -/
def parseFib (fibData : Slice) : Run fib := do
  let name ← fibData.slice 0 6
  let ext ← fibData.slice 6 9
  let fileType ← fibData.index 9
  let fileStatus ← fibData.index 10
  let b11 ← fibData.index 11
  let b12 ← fibData.index 12
  let b13 ← fibData.index 13
  let b14 ← fibData.index 14
  let b15 ← fibData.index 15
  let b16 ← fibData.index 16
  pure {
    filename := TrimNul name.data
    extension := TrimNul ext.data
    fileType := fileType
    fileStatus := fileStatus
    begin := ⟨((b11 &&& 0x7F : Nat) : Int), ((b12 &&& 0x3F : Nat) : Int)⟩
    end_ := ⟨((b13 &&& 0x7F : Nat) : Int), ((b14 &&& 0x3F : Nat) : Int)⟩
    length := (((b15 <<< 8) ||| b16 : Nat) : Int) }

/-- The `for ; i < 5; i++` loop of `parseDirectoryBlock`, with the number of
iterations left as first argument. -/
def parseSlots (data : Slice) : Nat → Int → List fib → Run (List fib)
  | 0, _, fibs => .ret fibs
  | n + 1, i, fibs => do
    let fibData ← data.slice (8 + i * 24) (8 + i * 24 + 25)
    let newFib ← parseFib fibData
    if newFib.fileType > 0 then parseSlots data n (i + 1) (fibs ++ [newFib])
    else parseSlots data n (i + 1) fibs

/-- Function `parseDirectoryBlock`; its error result is always nil. -/
def parseDirectoryBlock (data : Slice) : Run directoryBlock := do
  let b8 ← data.index 8
  let i : Nat := if b8 = 0xFF then 1 else 0
  let fibs ← parseSlots data (5 - i) (i : Int) []
  let next ← maskedLink data
  pure ⟨fibs, next⟩

/-- Method `hasNext`. -/
def directoryBlock.hasNext (d : directoryBlock) : Bool :=
  !(d.next.Track == 0 && d.next.Sector == 0)

/-- What `GetFiles` returns, with the log of the sectors it fetched. -/
structure Listing where
  files : List fib
  err : Option GoError
  reads : List SectorAddress
deriving DecidableEq, Repr

/-- The unbounded `for` loop of `GetFiles` that reads the subsequent directory
blocks. -/
def getFilesLoop (i : DiskImage) : Nat → directoryBlock → List fib → List SectorAddress → Run Listing
  | 0, _, _, _ => .outOfFuel
  | fuel + 1, dib, fibs, reads => do
    let r ← i.GetSector dib.next
    match r.2 with
    | some e => .ret ⟨[], some e, reads⟩
    | none =>
      let dib2 ← parseDirectoryBlock r.1
      let fibs := fibs ++ dib2.fileInformationBlocks
      if !dib2.hasNext then .ret ⟨fibs, none, reads ++ [dib.next]⟩
      else getFilesLoop i fuel dib2 fibs (reads ++ [dib.next])

/-- Method `GetFiles`. -/
def DiskImage.GetFiles (i : DiskImage) (fuel : Nat) : Run Listing := do
  let r ← i.GetSector ⟨0, 1⟩
  match r.2 with
  | some e => .ret ⟨[], some e, []⟩
  | none =>
    let dib ← parseDirectoryBlock r.1
    let fibs := [] ++ dib.fileInformationBlocks
    if !dib.hasNext then .ret ⟨fibs, none, [⟨0, 1⟩]⟩
    else getFilesLoop i fuel dib fibs [⟨0, 1⟩]

/-- The addresses inside the geometry: `0 ≤ track < 35`, `0 ≤ sector < 18`. -/
def ValidAddress (a : SectorAddress) : Prop :=
  0 ≤ a.Track ∧ a.Track < 35 ∧ 0 ≤ a.Sector ∧ a.Sector < 18

instance (a : SectorAddress) : Decidable (ValidAddress a) := by
  unfold ValidAddress
  infer_instance

/-- The 128 bytes of the image that start at the offset of address `a`. -/
def sectorData (i : DiskImage) (a : SectorAddress) : List Byte :=
  (i.data.data.drop (sectorOffset a).toNat).take 128

/-- The slice over `sectorData i a`, with the rest of the backing array as
spare capacity. -/
def sectorSlice (i : DiskImage) (a : SectorAddress) : Slice :=
  ⟨sectorData i a, (i.data.data ++ i.data.spare).drop ((sectorOffset a).toNat + 128)⟩

/-- The link of a sector, decoded as (byte 0 & 0x7F, byte 1 & 0x3F). -/
def linkAddr (d : List Byte) : SectorAddress :=
  ⟨((d.getD 0 0 &&& 0x7F : Nat) : Int), ((d.getD 1 0 &&& 0x3F : Nat) : Int)⟩

/-- Bytes [4, 128) of the sector at address `a`. -/
def payload (i : DiskImage) (a : SectorAddress) : List Byte :=
  (sectorData i a).drop 4

/-- The addresses form a sector chain of the image: every address is valid,
and every sector but the last has link bytes that are not both zero and decode
to the next address. -/
def IsChain (i : DiskImage) : List SectorAddress → Prop
  | [] => True
  | [a] => ValidAddress a
  | a :: b :: rest =>
    ValidAddress a ∧ linkIsZero (sectorData i a) = false ∧
      linkAddr (sectorData i a) = b ∧ IsChain i (b :: rest)

/-- The addresses form a chain of directory blocks of the image: every address
is valid, and every block but the last has a masked link other than {0,0} that
is the next address. -/
def IsDirChain (i : DiskImage) : List SectorAddress → Prop
  | [] => True
  | [a] => ValidAddress a
  | a :: b :: rest =>
    ValidAddress a ∧ linkAddr (sectorData i a) ≠ ⟨0, 0⟩ ∧
      linkAddr (sectorData i a) = b ∧ IsDirChain i (b :: rest)

/-- A full-size sample image (35 * 18 * 128 bytes) whose byte at position `k`
is `k % 251`, with one spare byte of capacity. -/
def sampleImage : DiskImage :=
  ⟨⟨(List.range 80640).map (fun k => k % 251), [0]⟩⟩

/-- Sector with link bytes (0x01, 0x01), that is a link to {1,1}, and 124
payload bytes `A`. -/
def secA : List Byte := [0x01, 0x01, 0x00, 0x00] ++ List.replicate 124 0x41

/-- Sector with a zero link and 124 payload bytes `B`. -/
def secB : List Byte := [0x00, 0x00, 0x00, 0x00] ++ List.replicate 124 0x42

/-- Sector with link bytes (0x7F, 0x00), which decode to track 127, and 124
payload bytes `C`. -/
def secC : List Byte := [0x7F, 0x00, 0x00, 0x00] ++ List.replicate 124 0x43

/-- Sector with a zero link and the payload 0x00 'A' 0x00 'B' followed by
zeros. -/
def secD : List Byte :=
  [0x00, 0x00, 0x00, 0x00, 0x00, 0x41, 0x00, 0x42] ++ List.replicate 120 0x00

/-- A full-size image (80640 bytes, one spare byte of capacity): track 0 is
zero, sectors {1,0}, {1,1}, {1,2}, {1,3} are `secA`, `secB`, `secC`, `secD`,
the rest is zero. -/
def chainImage : DiskImage :=
  ⟨⟨List.replicate 2304 0x00 ++ (secA ++ (secB ++ (secC ++ (secD ++ List.replicate 77824 0x00)))),
    [0x00]⟩⟩

/-- Directory sector whose link bytes (0x00, 0x01) name sector {0,1}. -/
def secLoop : List Byte := [0x00, 0x01] ++ List.replicate 126 0x00

/-- A full-size image (80640 bytes, one spare byte of capacity) whose directory
block {0,1} links to itself. -/
def dirLoopImage : DiskImage :=
  ⟨⟨List.replicate 128 0x00 ++ (secLoop ++ List.replicate 80384 0x00), [0x00]⟩⟩

/-- A binary record with the given begin address and declared length. -/
def binFib (begin : SectorAddress) (length : Int) : fib :=
  { filename := [0x41], extension := [0x42, 0x49, 0x4E], fileType := filetypeBinary,
    fileStatus := 0x00, begin := begin, end_ := begin, length := length }

/-- A text record of one sector that begins at {1,3}. -/
def textFib : fib :=
  { filename := [0x41], extension := [0x54, 0x58, 0x54], fileType := filetypeText,
    fileStatus := 0x00, begin := ⟨1, 3⟩, end_ := ⟨1, 3⟩, length := 1 }

/-- A file of 100 bytes `A` read into a buffer of capacity 512: length 100, the
412 spare elements are zero. -/
def shortImage : DiskImage :=
  ⟨⟨List.replicate 100 0x41, List.replicate 412 0x00⟩⟩

/-- The entry of slot `k` of a directory sector `d`, decoded at the fixed
offsets within the 24 bytes that start at `8 + 24 * k`: name bytes 0-5 and
extension bytes 6-8 (each with the 0x00 bytes at either end removed), type 9,
status 10, begin (byte 11 & 0x7F, byte 12 & 0x3F), end (byte 13 & 0x7F,
byte 14 & 0x3F), length byte 15 * 256 + byte 16. -/
def slotEntry (d : List Byte) (k : Nat) : fib :=
  { filename := TrimNul ((d.drop (8 + 24 * k)).take 6)
    extension := TrimNul ((d.drop (8 + 24 * k + 6)).take 3)
    fileType := d.getD (8 + 24 * k + 9) 0
    fileStatus := d.getD (8 + 24 * k + 10) 0
    begin := ⟨((d.getD (8 + 24 * k + 11) 0 &&& 0x7F : Nat) : Int),
      ((d.getD (8 + 24 * k + 12) 0 &&& 0x3F : Nat) : Int)⟩
    end_ := ⟨((d.getD (8 + 24 * k + 13) 0 &&& 0x7F : Nat) : Int),
      ((d.getD (8 + 24 * k + 14) 0 &&& 0x3F : Nat) : Int)⟩
    length := ((d.getD (8 + 24 * k + 15) 0 * 256 + d.getD (8 + 24 * k + 16) 0 : Nat) : Int) }

/-- The first slot that is read: 1 for a head block (byte 8 is 0xFF), else 0. -/
def firstSlot (d : List Byte) : Nat :=
  if d.getD 8 0 = 0xFF then 1 else 0

/-- The entries of a directory sector: those of the slots from `firstSlot` to
4, in increasing order, whose type byte is not zero. -/
def dirEntries (d : List Byte) : List fib :=
  ((List.range' (firstSlot d) (5 - firstSlot d)).filter
    (fun k => decide (d.getD (8 + 24 * k + 9) 0 ≠ 0))).map (slotEntry d)

/-- The blocks (address, sector slice, parse result) are the parsed directory
chain that starts at address `a`: each block is fetched without error from its
address and parsed, the first address is `a`, each block but the last has a
masked next pointer other than {0,0}, which is the address of the block after
it, and the last block has the masked next pointer {0,0}. -/
def IsParsedChain (i : DiskImage) :
    SectorAddress → List (SectorAddress × Slice × directoryBlock) → Prop
  | _, [] => False
  | a, [b] =>
    b.1 = a ∧ i.GetSector a = .ret (b.2.1, none) ∧ parseDirectoryBlock b.2.1 = .ret b.2.2 ∧
      b.2.2.next = ⟨0, 0⟩
  | a, b :: c :: rest =>
    b.1 = a ∧ i.GetSector a = .ret (b.2.1, none) ∧ parseDirectoryBlock b.2.1 = .ret b.2.2 ∧
      b.2.2.next ≠ ⟨0, 0⟩ ∧ IsParsedChain i b.2.2.next (c :: rest)

/-- A head directory block: link to {0,2}, byte 8 is 0xFF; slot 0 carries a
type byte 0x02 and is skipped, slot 1 is `AB.TXT` (type 0x01, begin {1,3},
length 1), slot 2 is unused, slot 3 is `C.BIN` (type 0x02, begin bytes 0x81,
0x40, end {1,1}, length 2), slot 4 is unused. -/
def dirHead : List Byte :=
  [0x00, 0x02, 0x00, 0x00, 0x00, 0x00, 0x00, 0x00] ++
  ([0xFF, 0x00, 0x00, 0x00, 0x00, 0x00, 0x00, 0x00, 0x00, 0x02] ++ List.replicate 14 0x00) ++
  ([0x41, 0x42, 0x00, 0x00, 0x00, 0x00, 0x54, 0x58, 0x54, 0x01, 0x00, 0x01, 0x03, 0x01, 0x03,
    0x00, 0x01] ++ List.replicate 7 0x00) ++
  List.replicate 24 0x00 ++
  ([0x43, 0x00, 0x00, 0x00, 0x00, 0x00, 0x42, 0x49, 0x4E, 0x02, 0x00, 0x81, 0x40, 0x01, 0x01,
    0x00, 0x02] ++ List.replicate 7 0x00) ++
  List.replicate 24 0x00

/-- A directory block without successor whose slot 0 is `D.DAT` (type 0x04,
begin {1,2}, length 0x0100). -/
def dirNext : List Byte :=
  [0x00, 0x00, 0x00, 0x00, 0x00, 0x00, 0x00, 0x00] ++
  ([0x44, 0x00, 0x00, 0x00, 0x00, 0x00, 0x44, 0x41, 0x54, 0x04, 0x00, 0x01, 0x02, 0x01, 0x02,
    0x01, 0x00] ++ List.replicate 7 0x00) ++
  List.replicate 96 0x00

/-- A full-size image (80640 bytes, one spare byte of capacity) whose directory
is `dirHead` at {0,1} followed by `dirNext` at {0,2}. -/
def dirImage : DiskImage :=
  ⟨⟨List.replicate 128 0x00 ++ (dirHead ++ (dirNext ++ List.replicate 80256 0x00)), [0x00]⟩⟩

/-- The entry `AB.TXT` of `dirHead`. -/
def entryAB : fib :=
  { filename := [0x41, 0x42], extension := [0x54, 0x58, 0x54], fileType := 0x01,
    fileStatus := 0x00, begin := ⟨1, 3⟩, end_ := ⟨1, 3⟩, length := 1 }

/-- The entry `C.BIN` of `dirHead`. -/
def entryC : fib :=
  { filename := [0x43], extension := [0x42, 0x49, 0x4E], fileType := 0x02,
    fileStatus := 0x00, begin := ⟨1, 0⟩, end_ := ⟨1, 1⟩, length := 2 }

/-- The entry `D.DAT` of `dirNext`. -/
def entryD : fib :=
  { filename := [0x44], extension := [0x44, 0x41, 0x54], fileType := 0x04,
    fileStatus := 0x00, begin := ⟨1, 2⟩, end_ := ⟨1, 2⟩, length := 256 }

/-- The block of a valid address of a full-size image with spare capacity. -/
def blockAt (i : DiskImage) (a : SectorAddress) : SectorAddress × Slice × directoryBlock :=
  (a, sectorSlice i a, ⟨dirEntries (sectorData i a), linkAddr (sectorData i a)⟩)


/-- The entry list `parseDirectoryBlock` yields for a sector slice; empty when
it yields none. -/
def parsedEntries (s : Slice) : List fib :=
  match parseDirectoryBlock s with
  | .ret d => d.fileInformationBlocks
  | _ => []

/-- The block of a valid address of a full-size image, with the entry list
`parseDirectoryBlock` yields for its sector. -/
def parsedBlockAt (i : DiskImage) (a : SectorAddress) : SectorAddress × Slice × directoryBlock :=
  (a, sectorSlice i a, ⟨parsedEntries (sectorSlice i a), linkAddr (sectorData i a)⟩)

/-- Directory sector whose link bytes (0x00, 0x03) name sector {0,3}; no slot
is used. -/
def secThird : List Byte := [0x00, 0x03] ++ List.replicate 126 0x00

/-- A file of 400 bytes read into a buffer of capacity 512: sector {0,0} is
zero, sector {0,1} is `secThird`, the 144 bytes after it are zero; the 112
spare elements are zero. -/
def shortDirImage : DiskImage :=
  ⟨⟨List.replicate 128 0x00 ++ (secThird ++ List.replicate 144 0x00), List.replicate 112 0x00⟩⟩

/-- Directory sector whose link bytes (0x22, 0x11) name sector {34,17}; no slot
is used. -/
def secLast : List Byte := [0x22, 0x11] ++ List.replicate 126 0x00

/-- An image of 80640 bytes in a slice of capacity 80640: sector {0,1} is
`secLast`, the last sector {34,17} is `dirNext`, the rest is zero. -/
def tightDirImage : DiskImage :=
  ⟨⟨List.replicate 128 0x00 ++ (secLast ++ (List.replicate 80256 0x00 ++ dirNext)), []⟩⟩

/-- The blocks (address, sector slice, parse result) are fetched without error
and parsed along the links from address `a`, each with a masked next pointer
other than {0,0}, and the next pointer of the last of them is `b` (`a` itself
when there is no block). -/
def IsParsedPrefix (i : DiskImage) :
    SectorAddress → List (SectorAddress × Slice × directoryBlock) → SectorAddress → Prop
  | a, [], b => a = b
  | a, x :: rest, b =>
    x.1 = a ∧ i.GetSector a = .ret (x.2.1, none) ∧ parseDirectoryBlock x.2.1 = .ret x.2.2 ∧
      x.2.2.next ≠ ⟨0, 0⟩ ∧ IsParsedPrefix i x.2.2.next rest b

end dos68

/-! ## flex2 -/

namespace flex2

def sectorsPerTrack : Int := 10

def bytesPerSector : Int := 256

/-- The struct `DiskImage`; `file` is the content of the opened image file. -/
structure DiskImage where
  file : List Byte
deriving DecidableEq, Repr

/-- The struct `fcb` without its inode and image pointer; `creation` keeps the
year, month and day handed to `time.Date`. -/
structure fcb where
  index : Int
  filename : List Byte
  extension : List Byte
  attributes : Byte
  begin : SectorAddress
  end_ : SectorAddress
  length : Int
  sectorMapIndicator : Byte
  creation : Int × Int × Int
  deleted : Bool
  allocated : Bool
deriving DecidableEq, Repr

/-- Go `(*os.File).ReadAt` into a fresh zeroed buffer of `n` bytes at the
non-negative offset `off`: the bytes the file has there are copied, the rest of
the buffer stays zero, and a short read reports `io.EOF`. -/
def ReadAt (file : List Byte) (n : Nat) (off : Nat) : List Byte × Option GoError :=
  let got := (file.drop off).take n
  (got ++ List.replicate (n - got.length) 0x00,
   if got.length < n then some GoError.EOF else none)

/-- The offset expression of `getSector`. -/
def sectorOffset (a : SectorAddress) : Int :=
  a.Track * sectorsPerTrack * bytesPerSector + (a.Sector - 1) * bytesPerSector

/-- What `getSector` returns, with the log of the offsets it handed to
`ReadAt`. -/
structure Fetch where
  sector : Slice
  err : Option GoError
  reads : List Int
deriving DecidableEq, Repr

/-- Method `getSector`. -/
def DiskImage.getSector (i : DiskImage) (a : SectorAddress) : Fetch :=
  if a.Sector > sectorsPerTrack ∨ a.Track < 0 ∨ a.Sector < 1 then
    ⟨Slice.nil, some GoError.ErrInvalidAddress, []⟩
  else
    let offset := sectorOffset a
    let r := ReadAt i.file bytesPerSector.toNat offset.toNat
    ⟨⟨r.1, []⟩, r.2, [offset]⟩

/-- Method `tracks`. -/
def DiskImage.tracks (i : DiskImage) : Run Int := do
  let r := i.getSector ⟨0, 3⟩
  let b ← r.sector.index 0x26
  pure ((b : Int) + 1)

/-- What `getSectors` returns, with the log of the offsets read. -/
structure Chained where
  data : List Byte
  reads : List Int
deriving DecidableEq, Repr

/-- The unbounded `for` loop of `getSectors`. -/
def getSectorsLoop (i : DiskImage) (skip : Int) : Nat → Slice → List Byte → List Int → Run Chained
  | 0, _, _, _ => .outOfFuel
  | fuel + 1, sector, data, reads => do
    let payload ← sector.sliceFrom skip
    let data := data ++ payload.data
    let stop ← zeroLink sector
    if stop then .ret ⟨data, reads⟩
    else
      let b0 ← sector.index 0
      let b1 ← sector.index 1
      let r := i.getSector ⟨(b0 : Int), (b1 : Int)⟩
      getSectorsLoop i skip fuel r.sector data (reads ++ r.reads)

/-- Method `getSectors`. -/
def DiskImage.getSectors (i : DiskImage) (fuel : Nat) (begin : SectorAddress) (skip : Int) :
    Run Chained := do
  let r := i.getSector begin
  let payload ← r.sector.sliceFrom skip
  getSectorsLoop i skip fuel r.sector ([] ++ payload.data) r.reads

/-- Upper-casing of one ASCII letter. -/
def foldByte (b : Byte) : Byte :=
  if 0x61 ≤ b ∧ b ≤ 0x7A then b - 0x20 else b

/-- Go `strings.EqualFold(s, "TXT")`: neither `T` nor `X` has a case variant
outside ASCII, so the comparison is bytewise up to ASCII case. -/
def EqualFoldTXT (s : List Byte) : Bool :=
  s.map foldByte == [0x54, 0x58, 0x54]

/-- The `for i := 0; i < len(data); i++` loop of `getFileContents` that undoes
the space compression; arguments are the fuel, `i` and `uncompressed`.  Every
iteration advances `i`, so `len(data)` fuel is never used up. -/
def expandLoop (data : List Byte) : Nat → Nat → List Byte → Run (List Byte)
  | fuel, i, uncompressed =>
    match data[i]? with
    | none => .ret uncompressed
    | some b =>
      match fuel with
      | 0 => .outOfFuel
      | fuel + 1 =>
        if b = 0x09 then
          match data[i + 1]? with
          | none => .fault
          | some n => expandLoop data fuel (i + 1 + 1) (uncompressed ++ List.replicate n 0x20)
        else expandLoop data fuel (i + 1) (uncompressed ++ [b])

/-- The space expansion pass of `getFileContents`. -/
def expandSpaces (data : List Byte) : Run (List Byte) :=
  expandLoop data data.length 0 []

/-- The body of the `if strings.EqualFold(fcb.extension, "TXT")` branch of
`getFileContents`: expansion, then the trim. -/
def decodeText (data : List Byte) : Run (List Byte) := do
  let uncompressed ← expandSpaces data
  pure (TrimNul uncompressed)

/-- What `getFileContents` does with the bytes `getSectors` assembled. -/
def decodeContents (f : fcb) (data : List Byte) : Run (List Byte) :=
  if EqualFoldTXT f.extension then decodeText data else .ret data

/-- What `getFileContents` returns, with the log of the offsets read. -/
structure Contents where
  data : List Byte
  err : Option GoError
  reads : List Int
deriving DecidableEq, Repr

/-- Method `getFileContents`. -/
def DiskImage.getFileContents (image : DiskImage) (fuel : Nat) (f : fcb) : Run Contents := do
  let c ← image.getSectors fuel f.begin 4
  let data ← decodeContents f c.data
  pure ⟨data, none, c.reads⟩

/-- The reference expansion: a 0x09 byte and the count byte after it stand for
that many spaces, every other byte stands for itself. -/
def expandRef : List Byte → List Byte
  | [] => []
  | b :: rest =>
    if b = 0x09 then
      match rest with
      | [] => []
      | n :: rest2 => List.replicate n 0x20 ++ expandRef rest2
    else b :: expandRef rest

/-- The addresses inside the geometry of an image of `T` tracks:
`0 ≤ track < T`, `1 ≤ sector ≤ 10`. -/
def ValidAddress (T : Int) (a : SectorAddress) : Prop :=
  0 ≤ a.Track ∧ a.Track < T ∧ 1 ≤ a.Sector ∧ a.Sector ≤ 10

instance (T : Int) (a : SectorAddress) : Decidable (ValidAddress T a) := by
  unfold ValidAddress
  infer_instance

/-- The addresses that pass the check of `getSector`. -/
def Fetchable (a : SectorAddress) : Prop :=
  0 ≤ a.Track ∧ 1 ≤ a.Sector ∧ a.Sector ≤ 10

instance (a : SectorAddress) : Decidable (Fetchable a) := by
  unfold Fetchable
  infer_instance

/-- The 256 bytes `getSector` obtains for address `a`: the bytes of the file at
the offset of `a`, zero padded where the file ends. -/
def sectorData (i : DiskImage) (a : SectorAddress) : List Byte :=
  (ReadAt i.file 256 (sectorOffset a).toNat).1

/-- The link of a sector: (byte 0, byte 1), unmasked. -/
def linkAddr (d : List Byte) : SectorAddress :=
  ⟨((d.getD 0 0 : Nat) : Int), ((d.getD 1 0 : Nat) : Int)⟩

/-- Bytes [skip, 256) of the sector at address `a`. -/
def payload (i : DiskImage) (skip : Int) (a : SectorAddress) : List Byte :=
  (sectorData i a).drop skip.toNat

/-- The addresses form a sector chain of the image: every address passes the
check of `getSector`, and every sector but the last has link bytes that are not
both zero and name the next address. -/
def IsChain (i : DiskImage) : List SectorAddress → Prop
  | [] => True
  | [a] => Fetchable a
  | a :: b :: rest =>
    Fetchable a ∧ linkIsZero (sectorData i a) = false ∧
      linkAddr (sectorData i a) = b ∧ IsChain i (b :: rest)

/-- An image file of one sector whose link bytes (0x00, 0x01) name the sector
itself. -/
def loopImage : DiskImage :=
  ⟨[0x00, 0x01, 0x00, 0x00] ++ List.replicate 252 0x41⟩

/-- An image file of one sector: a zero link, then 252 payload bytes `A`. -/
def oneSectorImage : DiskImage :=
  ⟨[0x00, 0x00, 0x00, 0x00] ++ List.replicate 252 0x41⟩

/-- The payload 0x09 0x05 'A' followed by zeros. -/
def tabPayload : List Byte := [0x09, 0x05, 0x41] ++ List.replicate 249 0x00

/-- An image file of one sector: a zero link, two more header bytes, then
`tabPayload`. -/
def tabImage : DiskImage :=
  ⟨[0x00, 0x00, 0x00, 0x00] ++ tabPayload⟩

/-- A record with extension `txt` that begins at {0,1}. -/
def tabFcb : fcb :=
  { index := 0, filename := [0x41], extension := [0x74, 0x78, 0x74], attributes := 0x00,
    begin := ⟨0, 1⟩, end_ := ⟨0, 1⟩, length := 1, sectorMapIndicator := 0x00,
    creation := (1980, 1, 1), deleted := false, allocated := true }

/-- An image file of two tracks, the first all 0x00 and the second all 0xE5;
byte 0x26 of its system sector {0,3} is 0, so it declares one track. -/
def twoTrackImage : DiskImage :=
  ⟨List.replicate 2560 0x00 ++ List.replicate 2560 0xE5⟩

/-- A record with extension `BIN` and declared length 1 that begins at the
given address. -/
def binFcb (begin : SectorAddress) : fcb :=
  { index := 0, filename := [0x41], extension := [0x42, 0x49, 0x4E], attributes := 0x00,
    begin := begin, end_ := begin, length := 1, sectorMapIndicator := 0x00,
    creation := (1980, 1, 1), deleted := false, allocated := true }

/-- An image file of one sector whose link bytes (0x01, 0x00) name track 1,
sector 0. -/
def badLinkImage : DiskImage :=
  ⟨[0x01, 0x00, 0x00, 0x00] ++ List.replicate 252 0x41⟩

/-- An image file of one sector whose link bytes (0x00, 0x0B) name track 0,
sector 11. -/
def bigSectorImage : DiskImage :=
  ⟨[0x00, 0x0B, 0x00, 0x00] ++ List.replicate 252 0x41⟩

/-- An image file of two sectors: {0,1} holds 252 bytes `A` and links to
{0,2}, which has a zero link and holds 251 bytes `A` and a final 0x09. -/
def tailTabImage : DiskImage :=
  ⟨([0x00, 0x02, 0x00, 0x00] ++ List.replicate 252 0x41) ++
    ([0x00, 0x00, 0x00, 0x00] ++ (List.replicate 251 0x41 ++ [0x09]))⟩

/-- An image file of two sectors: {0,1} holds 252 bytes `A` and links to
{0,2}, which holds 252 bytes `B` and has a zero link. -/
def twoSectorImage : DiskImage :=
  ⟨([0x00, 0x02, 0x00, 0x00] ++ List.replicate 252 0x41) ++
    ([0x00, 0x00, 0x00, 0x00] ++ List.replicate 252 0x42)⟩

/-- An image file of one sector with a zero link whose payload is 0x09 0xFF
followed by zeros. -/
def runImage : DiskImage :=
  ⟨[0x00, 0x00, 0x00, 0x00] ++ ([0x09, 0xFF] ++ List.replicate 250 0x00)⟩

/-- The composite literal of `readDirectory` that builds one `fcb` from its 24
byte record, the field expressions in source order; `allocated` evaluates
`fcbData[14]` only when `fcbData[13]` is zero. -/
def parseFcb (index : Int) (fcbData : Slice) : Run fcb := do
  let name ← fcbData.slice 0 8
  let ext ← fcbData.slice 8 11
  let attributes ← fcbData.index 11
  let b13 ← fcbData.index 13
  let b14 ← fcbData.index 14
  let b15 ← fcbData.index 15
  let b16 ← fcbData.index 16
  let b17 ← fcbData.index 17
  let b18 ← fcbData.index 18
  let sectorMapIndicator ← fcbData.index 19
  let b23 ← fcbData.index 23
  let b21 ← fcbData.index 21
  let b22 ← fcbData.index 22
  let b0 ← fcbData.index 0
  let a13 ← fcbData.index 13
  let allocated ← (if a13 ≠ 0x00 then (pure true : Run Bool) else do
    let a14 ← fcbData.index 14
    pure (decide (a14 ≠ 0x00)))
  pure {
    index := index
    filename := TrimNul name.data
    extension := TrimNul ext.data
    attributes := attributes
    begin := ⟨(b13 : Int), (b14 : Int)⟩
    end_ := ⟨(b15 : Int), (b16 : Int)⟩
    length := (((b17 <<< 8) ||| b18 : Nat) : Int)
    sectorMapIndicator := sectorMapIndicator
    creation := ((b23 : Int) + 1900, (b21 : Int), (b22 : Int))
    deleted := decide (b0 &&& 0x80 = 0x80)
    allocated := allocated }

/-- The `for i := 0; i < len(directoryData)/24; i++` loop of `readDirectory`,
with the number of iterations left as first argument. -/
def readDirectoryLoop (directoryData : Slice) : Nat → Int → List fcb → Run (List fcb)
  | 0, _, dir => .ret dir
  | n + 1, i, dir => do
    let fcbData ← directoryData.slice (i * 24) (i * 24 + 24)
    let f ← parseFcb i fcbData
    readDirectoryLoop directoryData n (i + 1) (dir ++ [f])

/-- Method `readDirectory`; the result is the directory it stores in the
image.  The slice `getSectors` returns is taken without spare capacity: every
slice expression of the loop stays below its length. -/
def DiskImage.readDirectory (image : DiskImage) (fuel : Nat) : Run (List fcb) := do
  let c ← image.getSectors fuel ⟨0, 5⟩ 16
  readDirectoryLoop ⟨c.data, []⟩ (c.data.length / 24) 0 []

/-- The record `r` decoded at the fixed offsets of `readDirectory`. -/
def decodeFcb (index : Int) (r : List Byte) : fcb :=
  { index := index
    filename := TrimNul (r.take 8)
    extension := TrimNul ((r.drop 8).take 3)
    attributes := r.getD 11 0
    begin := ⟨((r.getD 13 0 : Nat) : Int), ((r.getD 14 0 : Nat) : Int)⟩
    end_ := ⟨((r.getD 15 0 : Nat) : Int), ((r.getD 16 0 : Nat) : Int)⟩
    length := (((r.getD 17 0 <<< 8) ||| r.getD 18 0 : Nat) : Int)
    sectorMapIndicator := r.getD 19 0
    creation := (((r.getD 23 0 : Nat) : Int) + 1900, ((r.getD 21 0 : Nat) : Int),
      ((r.getD 22 0 : Nat) : Int))
    deleted := decide (r.getD 0 0 &&& 0x80 = 0x80)
    allocated := decide (r.getD 13 0 ≠ 0x00) || decide (r.getD 14 0 ≠ 0x00) }

/-- A directory sector: 16 header bytes with a zero link, then the records
`A.TXT` (begin {1,1}), a deleted record (first name byte 0xC1, begin {1,2}),
a record with begin {0,0}, and unused records. -/
def dirSector : List Byte :=
  List.replicate 16 0x00 ++
  ([0x41, 0x00, 0x00, 0x00, 0x00, 0x00, 0x00, 0x00, 0x54, 0x58, 0x54, 0x00, 0x00, 0x01, 0x01,
    0x01, 0x01, 0x00, 0x01] ++ List.replicate 5 0x00) ++
  ([0xC1, 0x00, 0x00, 0x00, 0x00, 0x00, 0x00, 0x00, 0x54, 0x58, 0x54, 0x00, 0x00, 0x01, 0x02,
    0x01, 0x02, 0x00, 0x01] ++ List.replicate 5 0x00) ++
  ([0x42, 0x00, 0x00, 0x00, 0x00, 0x00, 0x00, 0x00, 0x54, 0x58, 0x54] ++ List.replicate 13 0x00) ++
  List.replicate 168 0x00

/-- An image file whose sector {0,5} is `dirSector`; the four sectors before
it are zero. -/
def dirFileImage : DiskImage :=
  ⟨List.replicate 1024 0x00 ++ dirSector⟩

/-- A record with extension `BIN` and declared length 2 whose sectors are
{0,1} and {0,2}. -/
def twoSectorFcb : fcb :=
  { index := 0, filename := [0x41], extension := [0x42, 0x49, 0x4E], attributes := 0x00,
    begin := ⟨0, 1⟩, end_ := ⟨0, 2⟩, length := 2, sectorMapIndicator := 0x00,
    creation := (1980, 1, 1), deleted := false, allocated := true }

end flex2

end Floppymount

/-! ## Theorems -/

namespace Floppymount

@[simp] theorem Run.ret_bind {α β : Type} (a : α) (f : α → Run β) :
    (Run.ret a >>= f) = f a := rfl

@[simp] theorem Run.pure_bind {α β : Type} (a : α) (f : α → Run β) :
    ((pure a : Run α) >>= f) = f a := rfl

@[simp] theorem Run.fault_bind {α β : Type} (f : α → Run β) :
    ((Run.fault : Run α) >>= f) = Run.fault := rfl

@[simp] theorem Run.outOfFuel_bind {α β : Type} (f : α → Run β) :
    ((Run.outOfFuel : Run α) >>= f) = Run.outOfFuel := rfl

@[simp] theorem Run.bind_ret_def {α β : Type} (a : α) (f : α → Run β) :
    (Run.ret a).bind f = f a := rfl

theorem Run.pure_eq {α : Type} (a : α) : (pure a : Run α) = Run.ret a := rfl

/-- A slice expression within the capacity returns. -/
theorem Slice.slice_eq (s : Slice) (lo hi : Nat) (h1 : lo ≤ hi) (h2 : hi ≤ s.cap) :
    s.slice (lo : Int) (hi : Int) =
      .ret ⟨((s.data ++ s.spare).drop lo).take (hi - lo), (s.data ++ s.spare).drop hi⟩ := by
  unfold Slice.slice
  have hc : (0 : Int) ≤ lo ∧ (lo : Int) ≤ hi ∧ (hi : Int) ≤ (s.cap : Int) := by
    refine ⟨by omega, by omega, by omega⟩
  rw [if_pos hc]
  have e1 : ((hi : Int) - (lo : Int)).toNat = hi - lo := by omega
  simp [e1]

/-- Indexing below the length returns the element. -/
theorem Slice.index_eq (s : Slice) (k : Nat) (b : Byte) (h : s.data[k]? = some b) :
    s.index (k : Int) = .ret b := by
  unfold Slice.index
  simp [h]

/-- The slice `s[lo:]` of a slice with at least `lo` elements. -/
theorem Slice.sliceFrom_eq (s : Slice) (lo : Int) (h0 : 0 ≤ lo) (h : lo.toNat ≤ s.data.length) :
    s.sliceFrom lo = .ret ⟨s.data.drop lo.toNat, s.spare⟩ := by
  obtain ⟨n, hn⟩ := Int.eq_ofNat_of_zero_le h0
  subst hn
  simp only [Int.toNat_ofNat] at h ⊢
  unfold Slice.sliceFrom Slice.len
  rw [Slice.slice_eq s n s.data.length h (by unfold Slice.cap; omega)]
  congr 2
  · rw [List.drop_append_of_le_length h, List.take_append_of_le_length (by simp)]
    exact List.take_of_length_le (by simp)
  · rw [List.drop_append_of_le_length (le_refl _), List.drop_of_length_le (le_refl _)]
    rfl

theorem Slice.index_of_lt (s : Slice) (k : Int) (h0 : 0 ≤ k) (h : k.toNat < s.data.length) :
    s.index k = .ret (s.data.getD k.toNat 0) := by
  unfold Slice.index
  rw [if_pos h0, List.getElem?_eq_getElem h]
  simp [List.getD_eq_getElem?_getD, List.getElem?_eq_getElem h]

theorem zeroLink_eq (s : Slice) (h : 2 ≤ s.data.length) :
    zeroLink s = .ret (s.data.getD 0 0 == 0x00 && s.data.getD 1 0 == 0x00) := by
  unfold zeroLink
  rw [Slice.index_of_lt s 0 (le_refl _) (by simp; omega),
    Slice.index_of_lt s 1 (by decide) (by simp; omega)]
  simp only [Run.ret_bind, Int.toNat_zero, Int.toNat_one]
  generalize s.data.getD 0 0 = x
  generalize s.data.getD 1 0 = y
  by_cases hb : x = 0x00
  · by_cases hy : y = 0x00
    · simp [hb, hy, Run.pure_eq]
    · simp [hb, hy, Run.pure_eq]
  · simp [hb, Run.pure_eq]

theorem Slice.cap_eq (s : Slice) (n m : Nat) (h1 : s.data.length = n)
    (h2 : s.spare.length = m) : s.cap = n + m := by
  unfold Slice.cap
  rw [h1, h2]

/-- A slice expression within the capacity returns (integer bounds). -/
theorem Slice.slice_of_le (s : Slice) (lo hi : Int) (h0 : 0 ≤ lo) (h1 : lo ≤ hi)
    (h2 : hi ≤ (s.cap : Int)) :
    s.slice lo hi =
      .ret ⟨((s.data ++ s.spare).drop lo.toNat).take (hi - lo).toNat,
        (s.data ++ s.spare).drop hi.toNat⟩ := by
  unfold Slice.slice
  rw [if_pos ⟨h0, h1, h2⟩]

namespace dos68

theorem sectorOffset_bounds (a : SectorAddress) (ht0 : 0 ≤ a.Track) (ht : a.Track < 35)
    (hs0 : 0 ≤ a.Sector) (hs : a.Sector < 18) :
    0 ≤ sectorOffset a ∧ sectorOffset a + 128 ≤ 80640 := by
  unfold sectorOffset sectorsPerTrack bytesPerSector
  constructor <;> omega

/-- On an image of at least 80640 bytes a valid address yields the 128 bytes
at its offset, with whatever follows them in the backing array as spare. -/
theorem GetSector_of_valid (i : DiskImage) (a : SectorAddress) (hlen : 80640 ≤ i.data.len)
    (ht0 : 0 ≤ a.Track) (ht : a.Track < 35) (hs0 : 0 ≤ a.Sector) (hs : a.Sector < 18) :
    i.GetSector a = .ret
      (⟨(i.data.data.drop (sectorOffset a).toNat).take 128,
        (i.data.data ++ i.data.spare).drop ((sectorOffset a).toNat + 128)⟩, none) := by
  obtain ⟨h0, h1⟩ := sectorOffset_bounds a ht0 ht hs0 hs
  unfold DiskImage.GetSector DiskImage.Tracks sectorsPerTrack
  have hc : ¬ (a.Track ≥ 35 ∨ a.Sector ≥ 18 ∨ a.Track < 0 ∨ a.Sector < 0) := by omega
  rw [if_neg hc]
  obtain ⟨n, hn⟩ := Int.eq_ofNat_of_zero_le h0
  simp only [hn, bytesPerSector, Int.toNat_ofNat]
  have hcast : ((n : Int) + 128) = ((n + 128 : Nat) : Int) := by push_cast; rfl
  have hlen2 : n + 128 ≤ i.data.data.length := by
    have : 80640 ≤ i.data.data.length := hlen
    omega
  rw [hcast, Slice.slice_eq i.data n (n + 128) (by omega) (by unfold Slice.cap; omega)]
  simp only [Run.bind_ret_def, Nat.add_sub_cancel_left]
  rw [List.drop_append_of_le_length (by omega)]
  rw [List.take_append_of_le_length (by simp; omega)]

theorem sampleImage_len : 80640 ≤ sampleImage.data.len := by
  simp [sampleImage, Slice.len]

theorem sectorData_length (i : DiskImage) (a : SectorAddress) (hlen : 80640 ≤ i.data.len)
    (hv : ValidAddress a) : (sectorData i a).length = 128 := by
  obtain ⟨ht0, ht, hs0, hs⟩ := hv
  obtain ⟨h0, h1⟩ := sectorOffset_bounds a ht0 ht hs0 hs
  have hl : 80640 ≤ i.data.data.length := hlen
  simp only [sectorData, List.length_take, List.length_drop]
  omega

theorem GetSector_eq_sectorSlice (i : DiskImage) (a : SectorAddress)
    (hlen : 80640 ≤ i.data.len) (hv : ValidAddress a) :
    i.GetSector a = .ret (sectorSlice i a, none) := by
  obtain ⟨ht0, ht, hs0, hs⟩ := hv
  exact GetSector_of_valid i a hlen ht0 ht hs0 hs

theorem GetSector_of_not_valid (i : DiskImage) (a : SectorAddress) (hv : ¬ ValidAddress a) :
    i.GetSector a = .ret (Slice.nil, some GoError.ErrInvalidAddress) := by
  unfold DiskImage.GetSector DiskImage.Tracks sectorsPerTrack
  unfold ValidAddress at hv
  have hc2 : a.Track ≥ 35 ∨ a.Sector ≥ 18 ∨ a.Track < 0 ∨ a.Sector < 0 := by omega
  rw [if_pos hc2]

theorem maskedLink_eq (s : Slice) (h : 2 ≤ s.data.length) :
    maskedLink s = .ret (linkAddr s.data) := by
  unfold maskedLink linkAddr
  rw [Slice.index_of_lt s 0 (le_refl _) (by simp; omega),
    Slice.index_of_lt s 1 (by decide) (by simp; omega)]
  rfl

/-- One iteration of the content loop on a sector with a zero link. -/
theorem contentsLoop_stop (i : DiskImage) (n : Nat) (s : Slice) (data : List Byte)
    (reads : List SectorAddress) (h : 4 ≤ s.data.length) (hz : linkIsZero s.data = true) :
    contentsLoop i (n + 1) s data reads = .ret ⟨data ++ s.data.drop 4, none, reads⟩ := by
  unfold linkIsZero at hz
  rw [contentsLoop, Slice.sliceFrom_eq s 4 (by decide) (by simp; omega),
    Run.ret_bind, zeroLink_eq s (by omega), Run.ret_bind, hz]
  rfl

/-- One iteration of the content loop on a sector whose link is not zero and
decodes to a valid address. -/
theorem contentsLoop_next (i : DiskImage) (n : Nat) (s : Slice) (data : List Byte)
    (reads : List SectorAddress) (hlen : 80640 ≤ i.data.len) (h : 4 ≤ s.data.length)
    (hz : linkIsZero s.data = false) (hv : ValidAddress (linkAddr s.data)) :
    contentsLoop i (n + 1) s data reads =
      contentsLoop i n (sectorSlice i (linkAddr s.data)) (data ++ s.data.drop 4)
        (reads ++ [linkAddr s.data]) := by
  unfold linkIsZero at hz
  rw [contentsLoop, Slice.sliceFrom_eq s 4 (by decide) (by simp; omega),
    Run.ret_bind, zeroLink_eq s (by omega), Run.ret_bind, hz]
  simp only [Bool.false_eq_true, if_false]
  rw [maskedLink_eq s (by omega), Run.ret_bind, GetSector_eq_sectorSlice i _ hlen hv,
    Run.ret_bind]
  rfl

/-- One iteration of the content loop on a sector whose link is not zero and
decodes to an address outside the geometry. -/
theorem contentsLoop_invalid (i : DiskImage) (n : Nat) (s : Slice) (data : List Byte)
    (reads : List SectorAddress) (h : 4 ≤ s.data.length)
    (hz : linkIsZero s.data = false) (hv : ¬ ValidAddress (linkAddr s.data)) :
    contentsLoop i (n + 1) s data reads =
      .ret ⟨data ++ s.data.drop 4, some GoError.ErrInvalidAddress, reads⟩ := by
  unfold linkIsZero at hz
  rw [contentsLoop, Slice.sliceFrom_eq s 4 (by decide) (by simp; omega),
    Run.ret_bind, zeroLink_eq s (by omega), Run.ret_bind, hz]
  simp only [Bool.false_eq_true, if_false]
  rw [maskedLink_eq s (by omega), Run.ret_bind, GetSector_of_not_valid i _ hv, Run.ret_bind]
  rfl

theorem IsChain.head_valid (i : DiskImage) (a : SectorAddress) (rest : List SectorAddress)
    (h : IsChain i (a :: rest)) : ValidAddress a := by
  cases rest with
  | nil => exact h
  | cons b rest => exact h.1

theorem IsChain.last_valid (i : DiskImage) :
    ∀ (rest : List SectorAddress) (a : SectorAddress), IsChain i (a :: rest) →
      ValidAddress ((a :: rest).getLast (List.cons_ne_nil a rest)) := by
  intro rest
  induction rest with
  | nil => intro a h; exact h
  | cons b rest ih =>
    intro a h
    rw [List.getLast_cons_cons]
    exact ih b h.2.2.2

/-- Running the content loop along a chain: every sector but the last costs
one iteration, appends its payload and logs the fetch of its successor. -/
theorem contentsLoop_chain (i : DiskImage) (hlen : 80640 ≤ i.data.len) :
    ∀ (rest : List SectorAddress) (a : SectorAddress) (k : Nat) (data : List Byte)
      (reads : List SectorAddress), IsChain i (a :: rest) →
      contentsLoop i (rest.length + k) (sectorSlice i a) data reads =
        contentsLoop i k (sectorSlice i ((a :: rest).getLast (List.cons_ne_nil a rest)))
          (data ++ (a :: rest).dropLast.flatMap (payload i)) (reads ++ rest) := by
  intro rest
  induction rest with
  | nil =>
    intro a k data reads _
    simp
  | cons b rest ih =>
    intro a k data reads h
    obtain ⟨hva, hz, hb, hch⟩ := h
    have hl : (sectorSlice i a).data.length = 128 := sectorData_length i a hlen hva
    have hvb : ValidAddress b := IsChain.head_valid i b rest hch
    have e : (b :: rest).length + k = (rest.length + k) + 1 := by
      simp only [List.length_cons]
      omega
    rw [e, contentsLoop_next i _ _ data reads hlen (by omega) hz (by
      have : linkAddr (sectorSlice i a).data = b := hb
      rw [this]
      exact hvb)]
    have hb2 : linkAddr (sectorSlice i a).data = b := hb
    rw [hb2, ih b k _ _ hch, List.getLast_cons_cons]
    have hd : (a :: b :: rest).dropLast = a :: (b :: rest).dropLast := rfl
    rw [hd, List.flatMap_cons]
    simp [payload, sectorSlice, List.append_assoc]

/-- The record's chain ends in a zero link within the declared length. -/
theorem GetFileContents_of_zero_link (i : DiskImage) (f : fib) (rest : List SectorAddress)
    (hlen : 80640 ≤ i.data.len) (hchain : IsChain i (f.begin :: rest))
    (hz : linkIsZero (sectorData i ((f.begin :: rest).getLast (List.cons_ne_nil _ rest))) = true)
    (hL : rest.length + 1 ≤ f.length.toNat) :
    i.GetFileContents f = .ret
      ⟨if f.fileType = filetypeText then TrimNul ((f.begin :: rest).flatMap (payload i))
        else (f.begin :: rest).flatMap (payload i), none, f.begin :: rest⟩ := by
  have hv := IsChain.head_valid i _ _ hchain
  have hvl := IsChain.last_valid i rest _ hchain
  have hll := sectorData_length i _ hlen hvl
  obtain ⟨k, hk⟩ : ∃ k, f.length.toNat = rest.length + (k + 1) := ⟨f.length.toNat - rest.length - 1, by omega⟩
  unfold DiskImage.GetFileContents
  rw [GetSector_eq_sectorSlice i _ hlen hv, Run.ret_bind]
  simp only
  have h4 : 4 ≤ (sectorSlice i
      ((f.begin :: rest).getLast (List.cons_ne_nil _ rest))).data.length := by
    show 4 ≤ (sectorData i _).length
    omega
  have hz2 : linkIsZero (sectorSlice i
      ((f.begin :: rest).getLast (List.cons_ne_nil _ rest))).data = true := hz
  rw [hk, contentsLoop_chain i hlen rest f.begin (k + 1) [] [f.begin] hchain,
    contentsLoop_stop i k _ _ _ h4 hz2, Run.ret_bind]
  have hP : (f.begin :: rest).dropLast.flatMap (payload i) ++
      (sectorSlice i ((f.begin :: rest).getLast (List.cons_ne_nil _ rest))).data.drop 4 =
      (f.begin :: rest).flatMap (payload i) := by
    conv_rhs => rw [← List.dropLast_append_getLast (List.cons_ne_nil f.begin rest)]
    rw [List.flatMap_append]
    simp [payload, sectorSlice]
  simp only [List.nil_append, hP, List.singleton_append]
  split_ifs <;> rfl

/-- The declared length runs out before a zero link: the sector after the last
counted one is fetched and not used. -/
theorem GetFileContents_of_length (i : DiskImage) (f : fib) (rest : List SectorAddress)
    (hlen : 80640 ≤ i.data.len) (hchain : IsChain i (f.begin :: rest))
    (hL : f.length.toNat = rest.length) :
    i.GetFileContents f = .ret
      ⟨if f.fileType = filetypeText then TrimNul ((f.begin :: rest).dropLast.flatMap (payload i))
        else (f.begin :: rest).dropLast.flatMap (payload i), none, f.begin :: rest⟩ := by
  have hv := IsChain.head_valid i _ _ hchain
  unfold DiskImage.GetFileContents
  rw [GetSector_eq_sectorSlice i _ hlen hv, Run.ret_bind]
  simp only
  have e : f.length.toNat = rest.length + 0 := by omega
  rw [e, contentsLoop_chain i hlen rest f.begin 0 [] [f.begin] hchain, contentsLoop,
    Run.ret_bind]
  simp only [List.nil_append, List.singleton_append]
  split_ifs <;> rfl

/-- The chain meets a link that decodes to an invalid address within the
declared length. -/
theorem GetFileContents_of_invalid_link (i : DiskImage) (f : fib) (rest : List SectorAddress)
    (hlen : 80640 ≤ i.data.len) (hchain : IsChain i (f.begin :: rest))
    (hz : linkIsZero (sectorData i ((f.begin :: rest).getLast (List.cons_ne_nil _ rest))) = false)
    (hbad : ¬ ValidAddress
      (linkAddr (sectorData i ((f.begin :: rest).getLast (List.cons_ne_nil _ rest)))))
    (hL : rest.length + 1 ≤ f.length.toNat) :
    i.GetFileContents f = .ret
      ⟨(f.begin :: rest).flatMap (payload i), some GoError.ErrInvalidAddress, f.begin :: rest⟩ := by
  have hv := IsChain.head_valid i _ _ hchain
  have hvl := IsChain.last_valid i rest _ hchain
  have hll := sectorData_length i _ hlen hvl
  obtain ⟨k, hk⟩ : ∃ k, f.length.toNat = rest.length + (k + 1) := ⟨f.length.toNat - rest.length - 1, by omega⟩
  unfold DiskImage.GetFileContents
  rw [GetSector_eq_sectorSlice i _ hlen hv, Run.ret_bind]
  simp only
  have h4 : 4 ≤ (sectorSlice i
      ((f.begin :: rest).getLast (List.cons_ne_nil _ rest))).data.length := by
    show 4 ≤ (sectorData i _).length
    omega
  have hz2 : linkIsZero (sectorSlice i
      ((f.begin :: rest).getLast (List.cons_ne_nil _ rest))).data = false := hz
  have hbad2 : ¬ ValidAddress (linkAddr (sectorSlice i
      ((f.begin :: rest).getLast (List.cons_ne_nil _ rest))).data) := hbad
  rw [hk, contentsLoop_chain i hlen rest f.begin (k + 1) [] [f.begin] hchain,
    contentsLoop_invalid i k _ _ _ h4 hz2 hbad2, Run.ret_bind]
  have hP : (f.begin :: rest).dropLast.flatMap (payload i) ++
      (sectorSlice i ((f.begin :: rest).getLast (List.cons_ne_nil _ rest))).data.drop 4 =
      (f.begin :: rest).flatMap (payload i) := by
    conv_rhs => rw [← List.dropLast_append_getLast (List.cons_ne_nil f.begin rest)]
    rw [List.flatMap_append]
    simp [payload, sectorSlice]
  simp only [List.nil_append, hP, List.singleton_append]

/-- The sector at `a` of an image that splits as `pre ++ sec ++ post` with
`pre` ending at the offset of `a`. -/
theorem sectorData_of_split (i : DiskImage) (a : SectorAddress) (pre sec post : List Byte)
    (h : i.data.data = pre ++ (sec ++ post)) (hpre : pre.length = (sectorOffset a).toNat)
    (hsec : sec.length = 128) : sectorData i a = sec := by
  unfold sectorData
  rw [h, ← hpre, List.drop_append_of_le_length (le_refl _), List.drop_of_length_le (le_refl _),
    List.nil_append, List.take_append_of_le_length (by omega)]
  exact List.take_of_length_le (by omega)

theorem secA_length : secA.length = 128 := rfl

theorem secB_length : secB.length = 128 := rfl

theorem secC_length : secC.length = 128 := rfl

theorem secD_length : secD.length = 128 := rfl

theorem chainImage_length :
    (List.replicate 2304 0x00 ++
      (secA ++ (secB ++ (secC ++ (secD ++ List.replicate 77824 0x00))))).length = 80640 := by
  rw [List.length_append, List.length_append, List.length_append, List.length_append,
    List.length_append, List.length_replicate, List.length_replicate, secA_length, secB_length,
    secC_length, secD_length]

theorem chainImage_len : 80640 ≤ chainImage.data.len :=
  le_of_eq chainImage_length.symm

theorem chainImage_secA : sectorData chainImage ⟨1, 0⟩ = secA :=
  sectorData_of_split chainImage ⟨1, 0⟩ (List.replicate 2304 0x00) secA
    (secB ++ (secC ++ (secD ++ List.replicate 77824 0x00))) rfl
    (by rw [List.length_replicate]; rfl) secA_length

theorem chainImage_secB : sectorData chainImage ⟨1, 1⟩ = secB :=
  sectorData_of_split chainImage ⟨1, 1⟩ (List.replicate 2304 0x00 ++ secA) secB
    (secC ++ (secD ++ List.replicate 77824 0x00))
    (by simp only [chainImage, List.append_assoc])
    (by rw [List.length_append, List.length_replicate, secA_length]; rfl) secB_length

theorem chainImage_secC : sectorData chainImage ⟨1, 2⟩ = secC :=
  sectorData_of_split chainImage ⟨1, 2⟩ (List.replicate 2304 0x00 ++ (secA ++ secB)) secC
    (secD ++ List.replicate 77824 0x00)
    (by simp only [chainImage, List.append_assoc])
    (by rw [List.length_append, List.length_append, List.length_replicate, secA_length,
      secB_length]; rfl) secC_length

theorem chainImage_secD : sectorData chainImage ⟨1, 3⟩ = secD :=
  sectorData_of_split chainImage ⟨1, 3⟩ (List.replicate 2304 0x00 ++ (secA ++ (secB ++ secC))) secD
    (List.replicate 77824 0x00)
    (by simp only [chainImage, List.append_assoc])
    (by rw [List.length_append, List.length_append, List.length_append,
      List.length_replicate, secA_length, secB_length, secC_length]; rfl) secD_length

theorem secA_payload : secA.drop 4 = List.replicate 124 0x41 := by decide

theorem secB_payload : secB.drop 4 = List.replicate 124 0x42 := by decide

theorem secC_payload : secC.drop 4 = List.replicate 124 0x43 := by decide

theorem chainImage_chainAB : IsChain chainImage [⟨1, 0⟩, ⟨1, 1⟩] := by
  refine ⟨by decide, ?_, ?_, ?_⟩
  · rw [chainImage_secA]
    decide
  · rw [chainImage_secA]
    decide
  · show ValidAddress ⟨1, 1⟩
    decide

theorem sectorSlice_spare (i : DiskImage) (a : SectorAddress) (hcap : 80641 ≤ i.data.cap)
    (hv : ValidAddress a) : 1 ≤ (sectorSlice i a).spare.length := by
  obtain ⟨ht0, ht, hs0, hs⟩ := hv
  obtain ⟨h0, h1⟩ := sectorOffset_bounds a ht0 ht hs0 hs
  unfold Slice.cap at hcap
  simp only [sectorSlice, List.length_drop, List.length_append]
  omega

theorem parseFib_returns (fd : Slice) (h : fd.data.length = 25) :
    ∃ x, parseFib fd = .ret x := by
  unfold parseFib
  rw [Slice.slice_of_le fd 0 6 (by decide) (by decide) (by unfold Slice.cap; omega),
    Run.ret_bind,
    Slice.slice_of_le fd 6 9 (by decide) (by decide) (by unfold Slice.cap; omega),
    Run.ret_bind,
    Slice.index_of_lt fd 9 (by decide) (by rw [h]; decide), Run.ret_bind,
    Slice.index_of_lt fd 10 (by decide) (by rw [h]; decide), Run.ret_bind,
    Slice.index_of_lt fd 11 (by decide) (by rw [h]; decide), Run.ret_bind,
    Slice.index_of_lt fd 12 (by decide) (by rw [h]; decide), Run.ret_bind,
    Slice.index_of_lt fd 13 (by decide) (by rw [h]; decide), Run.ret_bind,
    Slice.index_of_lt fd 14 (by decide) (by rw [h]; decide), Run.ret_bind,
    Slice.index_of_lt fd 15 (by decide) (by rw [h]; decide), Run.ret_bind,
    Slice.index_of_lt fd 16 (by decide) (by rw [h]; decide), Run.ret_bind]
  exact ⟨_, rfl⟩

theorem parseSlots_returns (s : Slice) (hd : s.data.length = 128) (hsp : 1 ≤ s.spare.length) :
    ∀ (n i : Nat) (fibs : List fib), i + n ≤ 5 →
      ∃ r, parseSlots s n (i : Int) fibs = .ret r := by
  intro n
  induction n with
  | zero =>
    intro i fibs _
    exact ⟨fibs, rfl⟩
  | succ n ih =>
    intro i fibs h
    have hlo : (0 : Int) ≤ 8 + (i : Int) * 24 := by omega
    have hhi : 8 + (i : Int) * 24 + 25 ≤ (s.cap : Int) := by
      unfold Slice.cap
      omega
    have hfd : (List.take (8 + (i : Int) * 24 + 25 - (8 + (i : Int) * 24)).toNat
        (List.drop (8 + (i : Int) * 24).toNat (s.data ++ s.spare))).length = 25 := by
      simp only [List.length_take, List.length_drop, List.length_append]
      omega
    obtain ⟨x, hx⟩ := parseFib_returns ⟨_, (s.data ++ s.spare).drop (8 + (i : Int) * 24 + 25).toNat⟩ hfd
    have hcast : (i : Int) + 1 = ((i + 1 : Nat) : Int) := by push_cast; rfl
    rw [parseSlots, Slice.slice_of_le s _ _ hlo (by omega) hhi, Run.ret_bind, hx, Run.ret_bind,
      hcast]
    split_ifs
    · exact ih (i + 1) _ (by omega)
    · exact ih (i + 1) _ (by omega)

theorem parseDirectoryBlock_returns (s : Slice) (hd : s.data.length = 128)
    (hsp : 1 ≤ s.spare.length) :
    ∃ fibs, parseDirectoryBlock s = .ret ⟨fibs, linkAddr s.data⟩ := by
  unfold parseDirectoryBlock
  rw [Slice.index_of_lt s 8 (by decide) (by rw [hd]; decide), Run.ret_bind]
  simp only
  by_cases h8 : s.data.getD (8 : Int).toNat 0 = 0xFF
  · obtain ⟨r, hr⟩ := parseSlots_returns s hd hsp 4 1 [] (by decide)
    simp only [h8, if_true]
    rw [hr, Run.ret_bind, maskedLink_eq s (by omega), Run.ret_bind]
    exact ⟨r, rfl⟩
  · obtain ⟨r, hr⟩ := parseSlots_returns s hd hsp 5 0 [] (by decide)
    simp only [h8, if_false]
    rw [hr, Run.ret_bind, maskedLink_eq s (by omega), Run.ret_bind]
    exact ⟨r, rfl⟩

theorem hasNext_eq_true (fibs : List fib) (a : SectorAddress) (h : a ≠ ⟨0, 0⟩) :
    (directoryBlock.mk fibs a).hasNext = true := by
  obtain ⟨t, sct⟩ := a
  unfold directoryBlock.hasNext
  by_cases ht : t = 0
  · by_cases hs : sct = 0
    · exact absurd (by rw [ht, hs]) h
    · simp [ht, hs]
  · simp [ht]

theorem hasNext_zero (fibs : List fib) : (directoryBlock.mk fibs ⟨0, 0⟩).hasNext = false := rfl

theorem IsDirChain.first_valid (i : DiskImage) (a : SectorAddress) (rest : List SectorAddress)
    (h : IsDirChain i (a :: rest)) : ValidAddress a := by
  cases rest with
  | nil => exact h
  | cons b rest => exact h.1

/-- Fetching and parsing the directory block at a valid address. -/
theorem parse_sectorSlice (i : DiskImage) (a : SectorAddress) (hlen : 80640 ≤ i.data.len)
    (hcap : 80641 ≤ i.data.cap) (hv : ValidAddress a) :
    ∃ fibs, parseDirectoryBlock (sectorSlice i a) = .ret ⟨fibs, linkAddr (sectorData i a)⟩ :=
  parseDirectoryBlock_returns (sectorSlice i a) (sectorData_length i a hlen hv)
    (sectorSlice_spare i a hcap hv)

/-- The `GetFiles` loop along a chain of directory blocks that ends in a block
without successor. -/
theorem getFilesLoop_chain (i : DiskImage) (hlen : 80640 ≤ i.data.len)
    (hcap : 80641 ≤ i.data.cap) :
    ∀ (rest : List SectorAddress) (a : SectorAddress) (fuel : Nat) (fibs0 fibs : List fib)
      (reads : List SectorAddress), IsDirChain i (a :: rest) →
      linkAddr (sectorData i ((a :: rest).getLast (List.cons_ne_nil a rest))) = ⟨0, 0⟩ →
      rest.length + 1 ≤ fuel →
      ∃ files, getFilesLoop i fuel ⟨fibs0, a⟩ fibs reads =
        .ret ⟨files, none, reads ++ a :: rest⟩ := by
  intro rest
  induction rest with
  | nil =>
    intro a fuel fibs0 fibs reads hch hz hfuel
    obtain ⟨k, hk⟩ : ∃ k, fuel = k + 1 := ⟨fuel - 1, by simp only [List.length_nil] at hfuel; omega⟩
    obtain ⟨fs, hfs⟩ := parse_sectorSlice i a hlen hcap hch
    have hz2 : linkAddr (sectorData i a) = ⟨0, 0⟩ := hz
    rw [hk, getFilesLoop]
    simp only
    rw [GetSector_eq_sectorSlice i a hlen hch, Run.ret_bind]
    simp only
    rw [hfs, Run.ret_bind, hz2]
    simp only [hasNext_zero, Bool.not_false, if_true]
    exact ⟨_, rfl⟩
  | cons b rest ih =>
    intro a fuel fibs0 fibs reads hch hz hfuel
    obtain ⟨hva, hne, hb, hch2⟩ := hch
    obtain ⟨k, hk⟩ : ∃ k, fuel = k + 1 := ⟨fuel - 1, by simp only [List.length_cons] at hfuel; omega⟩
    obtain ⟨fs, hfs⟩ := parse_sectorSlice i a hlen hcap hva
    have hnb : b ≠ ⟨0, 0⟩ := by rw [← hb]; exact hne
    rw [List.getLast_cons_cons] at hz
    obtain ⟨files, hfiles⟩ := ih b k fs (fibs ++ fs) (reads ++ [a]) hch2 hz
      (by simp only [List.length_cons] at hfuel; omega)
    rw [hk, getFilesLoop]
    simp only
    rw [GetSector_eq_sectorSlice i a hlen hva, Run.ret_bind]
    simp only
    rw [hfs, Run.ret_bind, hb]
    simp only [hasNext_eq_true fs b hnb, Bool.not_true, Bool.false_eq_true, if_false]
    refine ⟨files, ?_⟩
    rw [hfiles]
    simp

/-- On a chain of directory blocks from {0,1} that ends in a block without
successor `GetFiles` returns without error after fetching each block once. -/
theorem GetFiles_of_chain (i : DiskImage) (hlen : 80640 ≤ i.data.len)
    (hcap : 80641 ≤ i.data.cap) (rest : List SectorAddress) (fuel : Nat)
    (hch : IsDirChain i (⟨0, 1⟩ :: rest))
    (hz : linkAddr (sectorData i ((⟨0, 1⟩ :: rest).getLast (List.cons_ne_nil _ rest))) = ⟨0, 0⟩)
    (hfuel : rest.length ≤ fuel) :
    ∃ files, i.GetFiles fuel = .ret ⟨files, none, ⟨0, 1⟩ :: rest⟩ := by
  have hv : ValidAddress ⟨0, 1⟩ := by decide
  obtain ⟨fs, hfs⟩ := parse_sectorSlice i ⟨0, 1⟩ hlen hcap hv
  unfold DiskImage.GetFiles
  rw [GetSector_eq_sectorSlice i _ hlen hv, Run.ret_bind]
  simp only
  rw [hfs, Run.ret_bind]
  cases rest with
  | nil =>
    have hz2 : linkAddr (sectorData i ⟨0, 1⟩) = ⟨0, 0⟩ := hz
    rw [hz2]
    simp only [hasNext_zero, Bool.not_false, if_true]
    exact ⟨_, rfl⟩
  | cons b rest =>
    obtain ⟨_, hne, hb, hch2⟩ := hch
    have hnb : b ≠ ⟨0, 0⟩ := by rw [← hb]; exact hne
    rw [List.getLast_cons_cons] at hz
    obtain ⟨files, hfiles⟩ := getFilesLoop_chain i hlen hcap rest b fuel fs ([] ++ fs)
      [⟨0, 1⟩] hch2 hz (by simp only [List.length_cons] at hfuel; omega)
    rw [hb]
    simp only [hasNext_eq_true fs b hnb, Bool.not_true, Bool.false_eq_true, if_false]
    refine ⟨files, ?_⟩
    rw [hfiles]
    simp

/-- On a set of valid addresses that is closed under following masked links,
none of them {0,0}, the `GetFiles` loop uses up every fuel. -/
theorem getFilesLoop_of_closed (i : DiskImage) (hlen : 80640 ≤ i.data.len)
    (hcap : 80641 ≤ i.data.cap) (S : List SectorAddress)
    (hS : ∀ a ∈ S, ValidAddress a ∧ linkAddr (sectorData i a) ≠ ⟨0, 0⟩ ∧
      linkAddr (sectorData i a) ∈ S) :
    ∀ (fuel : Nat) (a : SectorAddress) (fibs0 fibs : List fib) (reads : List SectorAddress),
      a ∈ S → getFilesLoop i fuel ⟨fibs0, a⟩ fibs reads = .outOfFuel := by
  intro fuel
  induction fuel with
  | zero =>
    intro a fibs0 fibs reads _
    rfl
  | succ fuel ih =>
    intro a fibs0 fibs reads ha
    obtain ⟨hva, hne, hnext⟩ := hS a ha
    obtain ⟨fs, hfs⟩ := parse_sectorSlice i a hlen hcap hva
    rw [getFilesLoop]
    simp only
    rw [GetSector_eq_sectorSlice i a hlen hva, Run.ret_bind]
    simp only
    rw [hfs, Run.ret_bind]
    simp only [hasNext_eq_true fs _ hne, Bool.not_true, Bool.false_eq_true, if_false]
    exact ih _ _ _ _ hnext

theorem GetFiles_of_closed (i : DiskImage) (hlen : 80640 ≤ i.data.len)
    (hcap : 80641 ≤ i.data.cap) (S : List SectorAddress)
    (hS : ∀ a ∈ S, ValidAddress a ∧ linkAddr (sectorData i a) ≠ ⟨0, 0⟩ ∧
      linkAddr (sectorData i a) ∈ S)
    (hb : (⟨0, 1⟩ : SectorAddress) ∈ S) (fuel : Nat) :
    i.GetFiles fuel = .outOfFuel := by
  obtain ⟨hva, hne, hnext⟩ := hS _ hb
  obtain ⟨fs, hfs⟩ := parse_sectorSlice i ⟨0, 1⟩ hlen hcap hva
  unfold DiskImage.GetFiles
  rw [GetSector_eq_sectorSlice i _ hlen hva, Run.ret_bind]
  simp only
  rw [hfs, Run.ret_bind]
  simp only [hasNext_eq_true fs _ hne, Bool.not_true, Bool.false_eq_true, if_false]
  exact getFilesLoop_of_closed i hlen hcap S hS fuel _ _ _ _ hnext

theorem secLoop_length : secLoop.length = 128 := rfl

theorem dirLoopImage_length :
    (List.replicate 128 0x00 ++ (secLoop ++ List.replicate 80384 0x00)).length = 80640 := by
  rw [List.length_append, List.length_append, List.length_replicate, List.length_replicate,
    secLoop_length]

theorem dirLoopImage_len : 80640 ≤ dirLoopImage.data.len :=
  le_of_eq dirLoopImage_length.symm

theorem dirLoopImage_cap : 80641 ≤ dirLoopImage.data.cap :=
  le_of_eq (Slice.cap_eq dirLoopImage.data 80640 1 dirLoopImage_length rfl).symm

theorem dirLoopImage_sec : sectorData dirLoopImage ⟨0, 1⟩ = secLoop :=
  sectorData_of_split dirLoopImage ⟨0, 1⟩ (List.replicate 128 0x00) secLoop
    (List.replicate 80384 0x00) rfl (by rw [List.length_replicate]; rfl) secLoop_length

theorem dirLoopImage_closed : ∀ a ∈ [(⟨0, 1⟩ : SectorAddress)],
    ValidAddress a ∧ linkAddr (sectorData dirLoopImage a) ≠ ⟨0, 0⟩ ∧
      linkAddr (sectorData dirLoopImage a) ∈ [(⟨0, 1⟩ : SectorAddress)] := by
  intro a ha
  rw [List.mem_singleton] at ha
  subst ha
  rw [dirLoopImage_sec]
  refine ⟨by decide, by decide, by decide⟩

/-- C1: on a dos68 image of at least 80640 bytes, GetSector at a valid address
(0 ≤ track < 35, 0 ≤ sector < 18) returns no error and exactly the 128 bytes of
the image starting at track*18*128 + sector*128; address {0,1} returns bytes
[128, 256). -/
theorem GetSector_returns_sector_bytes (i : DiskImage) (hlen : 80640 ≤ i.data.len) :
    (∀ a : SectorAddress, 0 ≤ a.Track → a.Track < 35 → 0 ≤ a.Sector → a.Sector < 18 →
      ∃ s, i.GetSector a = .ret (s, none) ∧
        s.data = (i.data.data.drop (a.Track * 18 * 128 + a.Sector * 128).toNat).take 128 ∧
        s.len = 128) ∧
    (∃ s, i.GetSector ⟨0, 1⟩ = .ret (s, none) ∧ s.data = (i.data.data.drop 128).take 128) := by
  have hl : 80640 ≤ i.data.data.length := hlen
  constructor
  · intro a ht0 ht hs0 hs
    refine ⟨_, GetSector_of_valid i a hlen ht0 ht hs0 hs, rfl, ?_⟩
    obtain ⟨h0, h1⟩ := sectorOffset_bounds a ht0 ht hs0 hs
    simp only [Slice.len, List.length_take, List.length_drop]
    omega
  · refine ⟨_, GetSector_of_valid i ⟨0, 1⟩ hlen (by decide) (by decide) (by decide) (by decide), ?_⟩
    rfl

theorem GetSector_returns_sector_bytes_witness :
    80640 ≤ sampleImage.data.len ∧
    ((∀ a : SectorAddress, 0 ≤ a.Track → a.Track < 35 → 0 ≤ a.Sector → a.Sector < 18 →
      ∃ s, sampleImage.GetSector a = .ret (s, none) ∧
        s.data = (sampleImage.data.data.drop (a.Track * 18 * 128 + a.Sector * 128).toNat).take 128 ∧
        s.len = 128) ∧
    (∃ s, sampleImage.GetSector ⟨0, 1⟩ = .ret (s, none) ∧
      s.data = (sampleImage.data.data.drop 128).take 128)) :=
  ⟨sampleImage_len, GetSector_returns_sector_bytes sampleImage sampleImage_len⟩

/-- C2: on a dos68 image of at least 80640 bytes and for arbitrary integers
track and sector, GetSector returns ErrInvalidAddress with the nil slice if and
only if track < 0, track ≥ 35, sector < 0 or sector ≥ 18; for every other
address it returns a sector and no error. -/
theorem GetSector_invalid_iff (i : DiskImage) (a : SectorAddress) (hlen : 80640 ≤ i.data.len) :
    (i.GetSector a = .ret (Slice.nil, some GoError.ErrInvalidAddress) ↔
      (a.Track < 0 ∨ 35 ≤ a.Track ∨ a.Sector < 0 ∨ 18 ≤ a.Sector)) ∧
    ((∃ s e, i.GetSector a = .ret (s, some e)) ↔
      (a.Track < 0 ∨ 35 ≤ a.Track ∨ a.Sector < 0 ∨ 18 ≤ a.Sector)) ∧
    (¬ (a.Track < 0 ∨ 35 ≤ a.Track ∨ a.Sector < 0 ∨ 18 ≤ a.Sector) →
      ∃ s, i.GetSector a = .ret (s, none) ∧ s.len = 128) := by
  by_cases hc : a.Track < 0 ∨ 35 ≤ a.Track ∨ a.Sector < 0 ∨ 18 ≤ a.Sector
  · have hbad : i.GetSector a = .ret (Slice.nil, some GoError.ErrInvalidAddress) := by
      unfold DiskImage.GetSector DiskImage.Tracks sectorsPerTrack
      have hc2 : a.Track ≥ 35 ∨ a.Sector ≥ 18 ∨ a.Track < 0 ∨ a.Sector < 0 := by omega
      rw [if_pos hc2]
    refine ⟨⟨fun _ => hc, fun _ => hbad⟩, ⟨fun _ => hc, fun _ => ⟨_, _, hbad⟩⟩, fun h => absurd hc h⟩
  · have hok := GetSector_of_valid i a hlen (by omega) (by omega) (by omega) (by omega)
    have hl : 80640 ≤ i.data.data.length := hlen
    obtain ⟨h0, h1⟩ := sectorOffset_bounds a (by omega) (by omega) (by omega) (by omega)
    refine ⟨⟨fun h => ?_, fun h => absurd h hc⟩, ⟨fun h => ?_, fun h => absurd h hc⟩, fun _ => ?_⟩
    · rw [hok] at h
      simp at h
    · obtain ⟨s, e, h⟩ := h
      rw [hok] at h
      simp at h
    · refine ⟨_, hok, ?_⟩
      simp only [Slice.len, List.length_take, List.length_drop]
      omega

theorem GetSector_invalid_iff_witness :
    80640 ≤ sampleImage.data.len ∧
    ((sampleImage.GetSector ⟨35, 0⟩ = .ret (Slice.nil, some GoError.ErrInvalidAddress) ↔
      ((35 : Int) < 0 ∨ (35 : Int) ≤ 35 ∨ (0 : Int) < 0 ∨ (18 : Int) ≤ 0)) ∧
    ((∃ s e, sampleImage.GetSector ⟨35, 0⟩ = .ret (s, some e)) ↔
      ((35 : Int) < 0 ∨ (35 : Int) ≤ 35 ∨ (0 : Int) < 0 ∨ (18 : Int) ≤ 0)) ∧
    (¬ ((35 : Int) < 0 ∨ (35 : Int) ≤ 35 ∨ (0 : Int) < 0 ∨ (18 : Int) ≤ 0) →
      ∃ s, sampleImage.GetSector ⟨35, 0⟩ = .ret (s, none) ∧ s.len = 128)) :=
  ⟨sampleImage_len, GetSector_invalid_iff sampleImage ⟨35, 0⟩ sampleImage_len⟩

/-- C7 (as amended): for a non-text record on an image of at least 80640
bytes whose chain from begin is `begin :: rest` (all at valid addresses, every
sector but the last with link bytes not both zero, links decoded as byte0 &
0x7F, byte1 & 0x3F): if the last sector has both link bytes zero and the chain
is no longer than the declared length, GetFileContents returns no error and
the concatenation of bytes [4,128) of all chain sectors, having fetched exactly
these; if the chain has one sector more than the declared length, it returns no
error and the concatenation of bytes [4,128) of all sectors but the last,
having fetched the last one as well. -/
theorem GetFileContents_stops_at_first (i : DiskImage) (f : fib) (rest : List SectorAddress)
    (hlen : 80640 ≤ i.data.len) (htype : f.fileType ≠ filetypeText)
    (hchain : IsChain i (f.begin :: rest)) :
    (linkIsZero (sectorData i ((f.begin :: rest).getLast (List.cons_ne_nil _ rest))) = true →
      rest.length + 1 ≤ f.length.toNat →
      i.GetFileContents f =
        .ret ⟨(f.begin :: rest).flatMap (payload i), none, f.begin :: rest⟩) ∧
    (f.length.toNat = rest.length →
      i.GetFileContents f =
        .ret ⟨(f.begin :: rest).dropLast.flatMap (payload i), none, f.begin :: rest⟩) := by
  constructor
  · intro hz hL
    rw [GetFileContents_of_zero_link i f rest hlen hchain hz hL, if_neg htype]
  · intro hL
    rw [GetFileContents_of_length i f rest hlen hchain hL, if_neg htype]

theorem GetFileContents_stops_at_first_witness :
    80640 ≤ chainImage.data.len ∧ (binFib ⟨1, 0⟩ 2).fileType ≠ filetypeText ∧
    IsChain chainImage [⟨1, 0⟩, ⟨1, 1⟩] ∧
    linkIsZero (sectorData chainImage ⟨1, 1⟩) = true ∧
    chainImage.GetFileContents (binFib ⟨1, 0⟩ 2) =
      .ret ⟨List.replicate 124 0x41 ++ List.replicate 124 0x42, none, [⟨1, 0⟩, ⟨1, 1⟩]⟩ ∧
    chainImage.GetFileContents (binFib ⟨1, 0⟩ 1) =
      .ret ⟨List.replicate 124 0x41, none, [⟨1, 0⟩, ⟨1, 1⟩]⟩ := by
  have hz : linkIsZero (sectorData chainImage ⟨1, 1⟩) = true := by
    rw [chainImage_secB]
    decide
  have h2 := (GetFileContents_stops_at_first chainImage (binFib ⟨1, 0⟩ 2) [⟨1, 1⟩]
    chainImage_len (by decide) chainImage_chainAB).1 hz (by decide)
  have h1 := (GetFileContents_stops_at_first chainImage (binFib ⟨1, 0⟩ 1) [⟨1, 1⟩]
    chainImage_len (by decide) chainImage_chainAB).2 (by decide)
  refine ⟨chainImage_len, by decide, chainImage_chainAB, hz, ?_, ?_⟩
  · rw [h2]
    simp only [binFib, List.flatMap_cons, List.flatMap_nil, List.append_nil, payload,
      chainImage_secA, chainImage_secB, secA_payload, secB_payload]
  · rw [h1]
    simp only [binFib, List.dropLast, List.flatMap_cons, List.flatMap_nil, List.append_nil,
      payload, chainImage_secA, secA_payload]

/-- C7 (counterexample): on the full-size image `chainImage` the binary record
of declared length 1 that begins at {1,2} has its one counted sector at a valid
address, with link bytes (0x7F, 0x00), yet GetFileContents returns
ErrInvalidAddress with the payload: after the last counted sector it still
fetches the sector the link points to.  For the record of length 1 at {1,0},
whose chain ends in a zero link at its second sector {1,1}, it returns the
first payload and has fetched {1,1} as well. -/
theorem GetFileContents_fetches_past_length :
    80640 ≤ chainImage.data.len ∧ (binFib ⟨1, 2⟩ 1).fileType ≠ filetypeText ∧
    ValidAddress ⟨1, 2⟩ ∧ linkIsZero (sectorData chainImage ⟨1, 2⟩) = false ∧
    chainImage.GetFileContents (binFib ⟨1, 2⟩ 1) =
      .ret ⟨List.replicate 124 0x43, some GoError.ErrInvalidAddress, [⟨1, 2⟩]⟩ ∧
    IsChain chainImage [⟨1, 0⟩, ⟨1, 1⟩] ∧
    linkIsZero (sectorData chainImage ⟨1, 1⟩) = true ∧
    chainImage.GetFileContents (binFib ⟨1, 0⟩ 1) =
      .ret ⟨List.replicate 124 0x41, none, [⟨1, 0⟩, ⟨1, 1⟩]⟩ := by
  have hzC : linkIsZero (sectorData chainImage ⟨1, 2⟩) = false := by
    rw [chainImage_secC]
    decide
  have hzB : linkIsZero (sectorData chainImage ⟨1, 1⟩) = true := by
    rw [chainImage_secB]
    decide
  have hbad : ¬ ValidAddress (linkAddr (sectorData chainImage ⟨1, 2⟩)) := by
    rw [chainImage_secC]
    decide
  have hC := GetFileContents_of_invalid_link chainImage (binFib ⟨1, 2⟩ 1) [] chainImage_len
    (by show ValidAddress ⟨1, 2⟩; decide) hzC hbad (by decide)
  have hA := GetFileContents_of_length chainImage (binFib ⟨1, 0⟩ 1) [⟨1, 1⟩] chainImage_len
    chainImage_chainAB (by decide)
  refine ⟨chainImage_len, by decide, by decide, hzC, ?_, chainImage_chainAB, hzB, ?_⟩
  · rw [hC]
    simp only [binFib, List.flatMap_cons, List.flatMap_nil, List.append_nil, payload,
      chainImage_secC, secC_payload]
  · rw [hA]
    have ht : (binFib ⟨1, 0⟩ 1).fileType ≠ filetypeText := by decide
    simp only [if_neg ht]
    simp only [binFib, List.dropLast, List.flatMap_cons, List.flatMap_nil, List.append_nil,
      payload, chainImage_secA, secA_payload]

/-- C8: the code at a failing input.  For the text record at {1,3} of
`chainImage`, whose assembled bytes are 0x00 'A' 0x00 'B' and then zeros,
GetFileContents returns 'A' 0x00 'B': the leading 0x00 is removed together with
the trailing ones, where trimming only trailing bytes gives 0x00 'A' 0x00 'B'.
The flex2 text branch trims the same way. -/
theorem GetFileContents_trims_leading_nul :
    chainImage.GetFileContents textFib = .ret ⟨[0x41, 0x00, 0x42], none, [⟨1, 3⟩]⟩ ∧
    payload chainImage ⟨1, 3⟩ = [0x00, 0x41, 0x00, 0x42] ++ List.replicate 120 0x00 ∧
    trimRightByte (payload chainImage ⟨1, 3⟩) 0x00 = [0x00, 0x41, 0x00, 0x42] ∧
    flex2.decodeText [0x00, 0x41, 0x00, 0x42, 0x00] = .ret [0x41, 0x00, 0x42] := by
  have hz : linkIsZero (sectorData chainImage ⟨1, 3⟩) = true := by
    rw [chainImage_secD]
    decide
  have hp : payload chainImage ⟨1, 3⟩ = [0x00, 0x41, 0x00, 0x42] ++ List.replicate 120 0x00 := by
    unfold payload
    rw [chainImage_secD]
    decide
  have h := GetFileContents_of_zero_link chainImage textFib [] chainImage_len
    (by show ValidAddress ⟨1, 3⟩; decide) hz (by decide)
  refine ⟨?_, hp, ?_, by decide⟩
  · rw [h]
    have ht : textFib.fileType = filetypeText := rfl
    simp only [if_pos ht]
    have hf : [textFib.begin].flatMap (payload chainImage) = payload chainImage ⟨1, 3⟩ := by
      simp only [textFib, List.flatMap_cons, List.flatMap_nil, List.append_nil]
    rw [hf, hp]
    have ht2 : TrimNul ([0x00, 0x41, 0x00, 0x42] ++ List.replicate 120 0x00) =
        [0x41, 0x00, 0x42] := by decide
    rw [ht2]
    rfl
  · rw [hp]
    decide

end dos68

namespace flex2

set_option maxRecDepth 1000000 in
/-- C3: the code at a failing input.  The image declares one track
(tracks() = 1), yet getSector at {track 1, sector 1} passes the bounds check,
calls ReadAt at offset 2560 and returns the 256 bytes found there with no
error. -/
theorem getSector_beyond_declared_tracks :
    twoTrackImage.tracks = .ret 1 ∧
    twoTrackImage.getSector ⟨1, 1⟩ = ⟨⟨List.replicate 256 0xE5, []⟩, none, [2560]⟩ := by
  constructor <;> decide

theorem ReadAt_length (file : List Byte) (n off : Nat) : (ReadAt file n off).1.length = n := by
  unfold ReadAt
  simp only [List.length_append, List.length_replicate, List.length_take, List.length_drop]
  omega

theorem fetched_length (i : DiskImage) (a : SectorAddress) : (sectorData i a).length = 256 :=
  ReadAt_length _ _ _

theorem getSector_of_fetchable (i : DiskImage) (a : SectorAddress) (h : Fetchable a) :
    i.getSector a =
      ⟨⟨sectorData i a, []⟩, (ReadAt i.file 256 (sectorOffset a).toNat).2, [sectorOffset a]⟩ := by
  unfold DiskImage.getSector sectorsPerTrack
  unfold Fetchable at h
  have hc : ¬ (a.Sector > 10 ∨ a.Track < 0 ∨ a.Sector < 1) := by omega
  rw [if_neg hc]
  rfl

/-- The three bounds `getSector` does check: outside them it returns the nil
slice and ErrInvalidAddress without calling ReadAt. -/
theorem getSector_of_not_fetchable (i : DiskImage) (a : SectorAddress)
    (h : a.Track < 0 ∨ a.Sector < 1 ∨ a.Sector > 10) :
    i.getSector a = ⟨Slice.nil, some GoError.ErrInvalidAddress, []⟩ := by
  unfold DiskImage.getSector sectorsPerTrack
  have hc : a.Sector > 10 ∨ a.Track < 0 ∨ a.Sector < 1 := by omega
  rw [if_pos hc]

/-- One iteration of the `getSectors` loop on a sector with a zero link. -/
theorem getSectorsLoop_stop (i : DiskImage) (skip : Int) (fuel : Nat) (d : List Byte)
    (data : List Byte) (reads : List Int) (hs0 : 0 ≤ skip) (hs : skip ≤ 256)
    (hd : d.length = 256) (hz : linkIsZero d = true) :
    getSectorsLoop i skip (fuel + 1) ⟨d, []⟩ data reads =
      .ret ⟨data ++ d.drop skip.toNat, reads⟩ := by
  unfold linkIsZero at hz
  rw [getSectorsLoop, Slice.sliceFrom_eq ⟨d, []⟩ skip hs0 (by simp only [hd]; omega),
    Run.ret_bind, zeroLink_eq ⟨d, []⟩ (by simp only [hd]; omega), Run.ret_bind]
  simp only [hz, if_true]

/-- One iteration of the `getSectors` loop on a sector whose link is not zero
and passes the check of `getSector`. -/
theorem getSectorsLoop_next (i : DiskImage) (skip : Int) (fuel : Nat) (d : List Byte)
    (data : List Byte) (reads : List Int) (hs0 : 0 ≤ skip) (hs : skip ≤ 256)
    (hd : d.length = 256) (hz : linkIsZero d = false) (hf : Fetchable (linkAddr d)) :
    getSectorsLoop i skip (fuel + 1) ⟨d, []⟩ data reads =
      getSectorsLoop i skip fuel ⟨sectorData i (linkAddr d), []⟩ (data ++ d.drop skip.toNat)
        (reads ++ [sectorOffset (linkAddr d)]) := by
  unfold linkIsZero at hz
  have hget := getSector_of_fetchable i (linkAddr d) hf
  unfold linkAddr at hget
  rw [getSectorsLoop, Slice.sliceFrom_eq ⟨d, []⟩ skip hs0 (by simp only [hd]; omega),
    Run.ret_bind, zeroLink_eq ⟨d, []⟩ (by simp only [hd]; omega), Run.ret_bind]
  simp only [hz, Bool.false_eq_true, if_false]
  rw [Slice.index_of_lt ⟨d, []⟩ 0 (le_refl _) (by simp only [hd]; decide), Run.ret_bind,
    Slice.index_of_lt ⟨d, []⟩ 1 (by decide) (by simp only [hd]; decide), Run.ret_bind]
  simp only [Int.toNat_zero, Int.toNat_one, hget]
  rfl

theorem IsChain.head_fetchable (i : DiskImage) (a : SectorAddress) (rest : List SectorAddress)
    (h : IsChain i (a :: rest)) : Fetchable a := by
  cases rest with
  | nil => exact h
  | cons b rest => exact h.1

/-- Running the `getSectors` loop along a chain: every sector but the last
costs one unit of fuel, appends its payload and logs the read of its
successor. -/
theorem getSectorsLoop_chain (i : DiskImage) (skip : Int) (hs0 : 0 ≤ skip) (hs : skip ≤ 256) :
    ∀ (rest : List SectorAddress) (a : SectorAddress) (fuel : Nat) (data : List Byte)
      (reads : List Int), IsChain i (a :: rest) →
      getSectorsLoop i skip (rest.length + fuel) ⟨sectorData i a, []⟩ data reads =
        getSectorsLoop i skip fuel
          ⟨sectorData i ((a :: rest).getLast (List.cons_ne_nil a rest)), []⟩
          (data ++ (a :: rest).dropLast.flatMap (payload i skip))
          (reads ++ rest.map sectorOffset) := by
  intro rest
  induction rest with
  | nil =>
    intro a fuel data reads _
    simp
  | cons b rest ih =>
    intro a fuel data reads h
    obtain ⟨hfa, hz, hb, hch⟩ := h
    have hfb : Fetchable b := IsChain.head_fetchable i b rest hch
    have e : (b :: rest).length + fuel = (rest.length + fuel) + 1 := by
      simp only [List.length_cons]
      omega
    rw [e, getSectorsLoop_next i skip _ _ data reads hs0 hs (fetched_length i a) hz
      (by rw [hb]; exact hfb), hb, ih b fuel _ _ hch, List.getLast_cons_cons]
    have hd : (a :: b :: rest).dropLast = a :: (b :: rest).dropLast := rfl
    rw [hd, List.flatMap_cons]
    simp [payload, List.append_assoc]

/-- On a chain that ends in a zero link `getSectors` returns for every fuel
that covers the chain: the payload of the first sector, then the payloads of
all chain sectors in order, after one read per chain sector. -/
theorem getSectors_of_chain (i : DiskImage) (skip : Int) (hs0 : 0 ≤ skip) (hs : skip ≤ 256)
    (begin : SectorAddress) (rest : List SectorAddress) (fuel : Nat)
    (hchain : IsChain i (begin :: rest))
    (hz : linkIsZero (sectorData i ((begin :: rest).getLast (List.cons_ne_nil _ rest))) = true)
    (hfuel : rest.length + 1 ≤ fuel) :
    i.getSectors fuel begin skip =
      .ret ⟨payload i skip begin ++ (begin :: rest).flatMap (payload i skip),
        (begin :: rest).map sectorOffset⟩ := by
  have hf := IsChain.head_fetchable i _ _ hchain
  obtain ⟨k, hk⟩ : ∃ k, fuel = rest.length + (k + 1) := ⟨fuel - rest.length - 1, by omega⟩
  unfold DiskImage.getSectors
  rw [getSector_of_fetchable i begin hf]
  simp only
  rw [Slice.sliceFrom_eq ⟨sectorData i begin, []⟩ skip hs0
    (by simp only [fetched_length]; omega), Run.ret_bind, hk,
    getSectorsLoop_chain i skip hs0 hs rest begin (k + 1) _ _ hchain,
    getSectorsLoop_stop i skip k _ _ _ hs0 hs (fetched_length i _) hz]
  have hP : (begin :: rest).dropLast.flatMap (payload i skip) ++
      (sectorData i ((begin :: rest).getLast (List.cons_ne_nil _ rest))).drop skip.toNat =
      (begin :: rest).flatMap (payload i skip) := by
    conv_rhs => rw [← List.dropLast_append_getLast (List.cons_ne_nil begin rest)]
    rw [List.flatMap_append]
    simp [payload]
  simp only [List.nil_append, List.append_assoc, hP, List.singleton_append, List.map_cons]
  rfl

/-- On a set of addresses that is closed under following links, none of them
zero, the `getSectors` loop uses up every fuel. -/
theorem getSectorsLoop_of_closed (i : DiskImage) (skip : Int) (hs0 : 0 ≤ skip) (hs : skip ≤ 256)
    (S : List SectorAddress)
    (hS : ∀ a ∈ S, Fetchable a ∧ linkIsZero (sectorData i a) = false ∧
      linkAddr (sectorData i a) ∈ S) :
    ∀ (fuel : Nat) (a : SectorAddress) (data : List Byte) (reads : List Int), a ∈ S →
      getSectorsLoop i skip fuel ⟨sectorData i a, []⟩ data reads = .outOfFuel := by
  intro fuel
  induction fuel with
  | zero =>
    intro a data reads _
    rfl
  | succ fuel ih =>
    intro a data reads ha
    obtain ⟨_, hz, hnext⟩ := hS a ha
    rw [getSectorsLoop_next i skip fuel _ data reads hs0 hs (fetched_length i a) hz
      (hS _ hnext).1]
    exact ih _ _ _ hnext

theorem getSectors_of_closed (i : DiskImage) (skip : Int) (hs0 : 0 ≤ skip) (hs : skip ≤ 256)
    (S : List SectorAddress)
    (hS : ∀ a ∈ S, Fetchable a ∧ linkIsZero (sectorData i a) = false ∧
      linkAddr (sectorData i a) ∈ S)
    (begin : SectorAddress) (hb : begin ∈ S) (fuel : Nat) :
    i.getSectors fuel begin skip = .outOfFuel := by
  unfold DiskImage.getSectors
  rw [getSector_of_fetchable i begin (hS begin hb).1]
  simp only
  rw [Slice.sliceFrom_eq ⟨sectorData i begin, []⟩ skip hs0
    (by simp only [fetched_length]; omega), Run.ret_bind]
  exact getSectorsLoop_of_closed i skip hs0 hs S hS fuel begin _ _ hb

set_option maxRecDepth 1000000 in
/-- C5: the code at a failing input.  On a chain of one sector (link bytes
zero, 252 payload bytes) getSectors does one read at offset 0 and returns the
payload of that sector twice, 504 bytes, whatever fuel it is given. -/
theorem getSectors_repeats_first_payload :
    (∀ fuel, oneSectorImage.getSectors (fuel + 1) ⟨0, 1⟩ 4 =
      .ret ⟨List.replicate 252 0x41 ++ List.replicate 252 0x41, [0]⟩) ∧
    (List.replicate 252 0x41 ++ List.replicate 252 0x41 : List Byte).length = 504 := by
  constructor
  · intro fuel
    rfl
  · decide

theorem expandRef_nil : expandRef [] = [] := by
  unfold expandRef
  rfl

theorem expandRef_tab (n : Byte) (rest : List Byte) :
    expandRef (0x09 :: n :: rest) = List.replicate n 0x20 ++ expandRef rest := by
  conv_lhs => unfold expandRef
  simp

theorem expandRef_other (b : Byte) (rest : List Byte) (hb : b ≠ 0x09) :
    expandRef (b :: rest) = b :: expandRef rest := by
  conv_lhs => unfold expandRef
  simp [hb]

theorem expandRef_of_no_tab (x : List Byte) (h : 0x09 ∉ x) : expandRef x = x := by
  induction x with
  | nil => exact expandRef_nil
  | cons b rest ih =>
    have hb : b ≠ 0x09 := fun e => h (by simp [e])
    have hr : 0x09 ∉ rest := fun e => h (by simp [e])
    rw [expandRef_other b rest hb, ih hr]

/-- The expansion loop started at index `i` with enough fuel appends the
reference expansion of the remaining bytes, provided no 0x09 is the last
byte. -/
theorem expandLoop_eq (data : List Byte)
    (hwf : ∀ k, data[k]? = some 0x09 → k + 1 < data.length) :
    ∀ (fuel i : Nat) (acc : List Byte), data.length ≤ i + fuel →
      expandLoop data fuel i acc = .ret (acc ++ expandRef (data.drop i)) := by
  intro fuel
  induction fuel with
  | zero =>
    intro i acc h
    have hn : data[i]? = none := List.getElem?_eq_none (by omega)
    have hd : data.drop i = [] := List.drop_eq_nil_of_le (by omega)
    unfold expandLoop
    simp [hn, hd, expandRef_nil]
  | succ f ih =>
    intro i acc h
    unfold expandLoop
    cases hb : data[i]? with
    | none =>
      have hi : data.length ≤ i := List.getElem?_eq_none_iff.mp hb
      have hd : data.drop i = [] := List.drop_eq_nil_of_le hi
      simp [hd, expandRef_nil]
    | some b =>
      obtain ⟨hi, hget⟩ := List.getElem?_eq_some_iff.mp hb
      have hd : data.drop i = b :: data.drop (i + 1) := by
        rw [List.drop_eq_getElem_cons hi, hget]
      by_cases h9 : b = 0x09
      · have hi1 : i + 1 < data.length := hwf i (by rw [hb, h9])
        have hget1 : data[i + 1]? = some data[i + 1] := List.getElem?_eq_getElem hi1
        have hd1 : data.drop (i + 1) = data[i + 1] :: data.drop (i + 1 + 1) :=
          List.drop_eq_getElem_cons hi1
        simp only [h9, if_true, hget1]
        rw [ih (i + 1 + 1) _ (by omega), hd, hd1, h9, expandRef_tab]
        simp
      · simp only [h9, if_false]
        rw [ih (i + 1) _ (by omega), hd, expandRef_other b _ h9]
        simp

theorem expandSpaces_eq (data : List Byte)
    (hwf : ∀ k, data[k]? = some 0x09 → k + 1 < data.length) :
    expandSpaces data = .ret (expandRef data) := by
  unfold expandSpaces
  rw [expandLoop_eq data hwf data.length 0 [] (by omega)]
  simp

end flex2

theorem TrimNul_idem (x : List Byte) : TrimNul (TrimNul x) = TrimNul x := by
  unfold TrimNul trimLeftByte trimRightByte
  have hz : List.rdropWhile (fun b => b == 0x00)
      (List.dropWhile (fun b => b == 0x00) (List.rdropWhile (fun b => b == 0x00) x)) =
      List.dropWhile (fun b => b == 0x00) (List.rdropWhile (fun b => b == 0x00) x) := by
    rw [List.rdropWhile_eq_self_iff]
    intro hl
    have hsuf := List.dropWhile_suffix (l := List.rdropWhile (fun b => b == 0x00) x)
      (fun b => b == 0x00)
    rw [ List.IsSuffix.getLast hsuf hl]
    exact List.rdropWhile_last_not (fun b => b == 0x00) x _
  rw [hz, List.dropWhile_idempotent]

theorem mem_of_mem_TrimNul (x : List Byte) (b : Byte) (h : b ∈ TrimNul x) : b ∈ x := by
  unfold TrimNul trimLeftByte trimRightByte at h
  have h1 := List.dropWhile_subset (l := List.rdropWhile (fun b => b == 0x00) x)
    (fun b => b == 0x00) h
  exact ( List.rdropWhile_prefix (fun b => b == 0x00) x).subset h1

namespace flex2

/-- C9: for a record whose extension is TXT up to case, the expansion pass of
getFileContents on assembled bytes in which every 0x09 has a byte after it
equals the reference expansion (whose three defining equations are restated),
and getFileContents returns its trim; [0x09, 0x05, 0x41] decodes to five spaces
and 'A'; for any other extension the assembled bytes are returned unchanged. -/
theorem getFileContents_expansion (image : DiskImage) (fuel : Nat) (f : fcb) (c : Chained)
    (hc : image.getSectors fuel f.begin 4 = .ret c) :
    (EqualFoldTXT f.extension = true →
      (∀ d : List Byte, (∀ k, d[k]? = some 0x09 → k + 1 < d.length) →
        expandSpaces d = .ret (expandRef d) ∧
        decodeContents f d = .ret (TrimNul (expandRef d))) ∧
      ((∀ k, c.data[k]? = some 0x09 → k + 1 < c.data.length) →
        image.getFileContents fuel f = .ret ⟨TrimNul (expandRef c.data), none, c.reads⟩) ∧
      decodeContents f [0x09, 0x05, 0x41] = .ret [0x20, 0x20, 0x20, 0x20, 0x20, 0x41]) ∧
    (expandRef [] = [] ∧
      (∀ n rest, expandRef (0x09 :: n :: rest) = List.replicate n 0x20 ++ expandRef rest) ∧
      (∀ b rest, b ≠ 0x09 → expandRef (b :: rest) = b :: expandRef rest)) ∧
    (EqualFoldTXT f.extension = false →
      (∀ d : List Byte, decodeContents f d = .ret d) ∧
      image.getFileContents fuel f = .ret ⟨c.data, none, c.reads⟩) := by
  have hdec : ∀ d : List Byte, EqualFoldTXT f.extension = true →
      (∀ k, d[k]? = some 0x09 → k + 1 < d.length) →
      decodeContents f d = .ret (TrimNul (expandRef d)) := by
    intro d ht hwf
    unfold decodeContents decodeText
    rw [if_pos ht, expandSpaces_eq d hwf]
    rfl
  refine ⟨fun ht => ⟨fun d hwf => ⟨expandSpaces_eq d hwf, hdec d ht hwf⟩, fun hwf => ?_, ?_⟩,
    ⟨expandRef_nil, expandRef_tab, expandRef_other⟩, fun hn => ⟨fun d => ?_, ?_⟩⟩
  · unfold DiskImage.getFileContents
    rw [hc, Run.ret_bind, hdec c.data ht hwf]
    rfl
  · unfold decodeContents
    rw [if_pos ht]
    decide
  · unfold decodeContents
    simp [hn]
  · unfold DiskImage.getFileContents decodeContents
    rw [hc]
    simp [hn]
    rfl

set_option maxRecDepth 1000000 in
theorem getFileContents_expansion_witness :
    tabImage.getSectors 1 tabFcb.begin 4 = .ret ⟨tabPayload ++ tabPayload, [0]⟩ ∧
    EqualFoldTXT tabFcb.extension = true ∧
    (∀ k, (tabPayload ++ tabPayload)[k]? = some 0x09 → k + 1 < (tabPayload ++ tabPayload).length) ∧
    tabImage.getFileContents 1 tabFcb =
      .ret ⟨[0x20, 0x20, 0x20, 0x20, 0x20, 0x41] ++ List.replicate 249 0x00 ++
        [0x20, 0x20, 0x20, 0x20, 0x20, 0x41], none, [0]⟩ := by
  have hc : tabImage.getSectors 1 tabFcb.begin 4 = .ret ⟨tabPayload ++ tabPayload, [0]⟩ := by
    rfl
  have hwf : ∀ k, (tabPayload ++ tabPayload)[k]? = some 0x09 →
      k + 1 < (tabPayload ++ tabPayload).length := by
    intro k hk
    by_contra hcon
    have hlt : k < (tabPayload ++ tabPayload).length := (List.getElem?_eq_some_iff.mp hk).1
    have h504 : (tabPayload ++ tabPayload).length = 504 := by rfl
    have hk2 : k = 503 := by omega
    subst hk2
    revert hk
    decide
  have h := ((getFileContents_expansion tabImage 1 tabFcb _ hc).1 (by decide)).2.1 hwf
  refine ⟨hc, by decide, hwf, ?_⟩
  rw [h]
  decide

/-- C10: on bytes without 0x09 the expansion pass returns its input and text
decoding (expansion, then trim) is idempotent. -/
theorem decodeText_idempotent (x : List Byte) (h : 0x09 ∉ x) :
    expandSpaces x = .ret x ∧
    decodeText x = .ret (TrimNul x) ∧
    (decodeText x >>= decodeText) = decodeText x := by
  have hexp : ∀ y : List Byte, 0x09 ∉ y → expandSpaces y = .ret y := by
    intro y hy
    have hwf : ∀ k, y[k]? = some 0x09 → k + 1 < y.length := by
      intro k hk
      exact absurd (List.getElem?_mem hk) hy
    rw [expandSpaces_eq y hwf, expandRef_of_no_tab y hy]
  have hdec : ∀ y : List Byte, 0x09 ∉ y → decodeText y = .ret (TrimNul y) := by
    intro y hy
    unfold decodeText
    rw [hexp y hy]
    rfl
  have ht : 0x09 ∉ TrimNul x := fun hm => h (mem_of_mem_TrimNul x _ hm)
  refine ⟨hexp x h, hdec x h, ?_⟩
  rw [hdec x h, Run.ret_bind, hdec _ ht, TrimNul_idem]

theorem decodeText_idempotent_witness :
    (0x09 : Byte) ∉ [0x00, 0x41, 0x20, 0x00] ∧
    (expandSpaces [0x00, 0x41, 0x20, 0x00] = .ret [0x00, 0x41, 0x20, 0x00] ∧
     decodeText [0x00, 0x41, 0x20, 0x00] = .ret (TrimNul [0x00, 0x41, 0x20, 0x00]) ∧
     (decodeText [0x00, 0x41, 0x20, 0x00] >>= decodeText) = decodeText [0x00, 0x41, 0x20, 0x00]) :=
  ⟨by decide, decodeText_idempotent [0x00, 0x41, 0x20, 0x00] (by decide)⟩

set_option maxRecDepth 1000000 in
theorem loopImage_closed : ∀ a ∈ [(⟨0, 1⟩ : SectorAddress)],
    Fetchable a ∧ linkIsZero (sectorData loopImage a) = false ∧
      linkAddr (sectorData loopImage a) ∈ [(⟨0, 1⟩ : SectorAddress)] := by
  intro a ha
  rw [List.mem_singleton] at ha
  subst ha
  refine ⟨by decide, by decide, by decide⟩

theorem getFileContents_of_closed (i : DiskImage) (S : List SectorAddress)
    (hS : ∀ a ∈ S, Fetchable a ∧ linkIsZero (sectorData i a) = false ∧
      linkAddr (sectorData i a) ∈ S)
    (f : fcb) (hb : f.begin ∈ S) (fuel : Nat) :
    i.getFileContents fuel f = .outOfFuel := by
  unfold DiskImage.getFileContents
  rw [getSectors_of_closed i 4 (by decide) (by decide) S hS f.begin hb fuel]
  rfl

end flex2

/-- C6 (counterexample): the flex2 image `loopImage`, whose sector {0,1} names
itself as its successor, and the full-size dos68 image `dirLoopImage`, whose
directory block {0,1} links to itself: no amount of fuel makes getSectors,
getFileContents or GetFiles return, with a format error or otherwise. -/
theorem traversal_never_returns_on_cycle :
    flex2.linkAddr (flex2.sectorData flex2.loopImage ⟨0, 1⟩) = ⟨0, 1⟩ ∧
    (¬ ∃ fuel, flex2.loopImage.getSectors fuel ⟨0, 1⟩ 4 ≠ .outOfFuel) ∧
    (¬ ∃ fuel, flex2.loopImage.getSectors fuel ⟨0, 1⟩ 16 ≠ .outOfFuel) ∧
    (¬ ∃ fuel, flex2.loopImage.getFileContents fuel flex2.tabFcb ≠ .outOfFuel) ∧
    dos68.linkAddr (dos68.sectorData dos68.dirLoopImage ⟨0, 1⟩) = ⟨0, 1⟩ ∧
    (¬ ∃ fuel, dos68.dirLoopImage.GetFiles fuel ≠ .outOfFuel) := by
  refine ⟨?_, ?_, ?_, ?_, ?_, ?_⟩
  · have h := (flex2.loopImage_closed ⟨0, 1⟩ (List.mem_singleton.mpr rfl)).2.2
    exact List.mem_singleton.mp h
  · rintro ⟨fuel, h⟩
    exact h (flex2.getSectors_of_closed flex2.loopImage 4 (by decide) (by decide) _
      flex2.loopImage_closed ⟨0, 1⟩ (List.mem_singleton.mpr rfl) fuel)
  · rintro ⟨fuel, h⟩
    exact h (flex2.getSectors_of_closed flex2.loopImage 16 (by decide) (by decide) _
      flex2.loopImage_closed ⟨0, 1⟩ (List.mem_singleton.mpr rfl) fuel)
  · rintro ⟨fuel, h⟩
    exact h (flex2.getFileContents_of_closed flex2.loopImage _ flex2.loopImage_closed
      flex2.tabFcb (List.mem_singleton.mpr rfl) fuel)
  · have h := (dos68.dirLoopImage_closed ⟨0, 1⟩ (List.mem_singleton.mpr rfl)).2.2
    exact List.mem_singleton.mp h
  · rintro ⟨fuel, h⟩
    exact h (dos68.GetFiles_of_closed dos68.dirLoopImage dos68.dirLoopImage_len
      dos68.dirLoopImage_cap _ dos68.dirLoopImage_closed (List.mem_singleton.mpr rfl) fuel)

/-- C6 (as amended): flex2 getSectors (hence getFileContents) and the dos68
directory loop of GetFiles have no traversal bound and no format error.  On a
chain that reaches, after N sectors, a sector without successor (flex2: link
bytes both zero; dos68: masked link {0,0}) they return for every fuel that
covers the chain, having fetched exactly the N chain sectors; on a set of
sectors closed under following links, none of them a terminator, they never
return. -/
theorem traversal_stops_only_at_terminator (fi : flex2.DiskImage) (di : dos68.DiskImage) :
    (∀ (skip : Int) (begin : SectorAddress) (rest : List SectorAddress) (fuel : Nat),
      0 ≤ skip → skip ≤ 256 → flex2.IsChain fi (begin :: rest) →
      linkIsZero (flex2.sectorData fi
        ((begin :: rest).getLast (List.cons_ne_nil _ rest))) = true →
      rest.length + 1 ≤ fuel →
      fi.getSectors fuel begin skip =
        .ret ⟨flex2.payload fi skip begin ++ (begin :: rest).flatMap (flex2.payload fi skip),
          (begin :: rest).map flex2.sectorOffset⟩) ∧
    (∀ (skip : Int) (S : List SectorAddress) (begin : SectorAddress) (fuel : Nat),
      0 ≤ skip → skip ≤ 256 →
      (∀ a ∈ S, flex2.Fetchable a ∧ linkIsZero (flex2.sectorData fi a) = false ∧
        flex2.linkAddr (flex2.sectorData fi a) ∈ S) →
      begin ∈ S → fi.getSectors fuel begin skip = .outOfFuel) ∧
    (∀ (S : List SectorAddress) (f : flex2.fcb) (fuel : Nat),
      (∀ a ∈ S, flex2.Fetchable a ∧ linkIsZero (flex2.sectorData fi a) = false ∧
        flex2.linkAddr (flex2.sectorData fi a) ∈ S) →
      f.begin ∈ S → fi.getFileContents fuel f = .outOfFuel) ∧
    (∀ (rest : List SectorAddress) (fuel : Nat),
      80640 ≤ di.data.len → 80641 ≤ di.data.cap →
      dos68.IsDirChain di (⟨0, 1⟩ :: rest) →
      dos68.linkAddr (dos68.sectorData di
        ((⟨0, 1⟩ :: rest).getLast (List.cons_ne_nil _ rest))) = ⟨0, 0⟩ →
      rest.length ≤ fuel →
      ∃ files, di.GetFiles fuel = .ret ⟨files, none, ⟨0, 1⟩ :: rest⟩) ∧
    (∀ (S : List SectorAddress) (fuel : Nat),
      80640 ≤ di.data.len → 80641 ≤ di.data.cap →
      (∀ a ∈ S, dos68.ValidAddress a ∧ dos68.linkAddr (dos68.sectorData di a) ≠ ⟨0, 0⟩ ∧
        dos68.linkAddr (dos68.sectorData di a) ∈ S) →
      (⟨0, 1⟩ : SectorAddress) ∈ S → di.GetFiles fuel = .outOfFuel) := by
  refine ⟨?_, ?_, ?_, ?_, ?_⟩
  · intro skip begin rest fuel hs0 hs hch hz hfuel
    exact flex2.getSectors_of_chain fi skip hs0 hs begin rest fuel hch hz hfuel
  · intro skip S begin fuel hs0 hs hS hb
    exact flex2.getSectors_of_closed fi skip hs0 hs S hS begin hb fuel
  · intro S f fuel hS hb
    exact flex2.getFileContents_of_closed fi S hS f hb fuel
  · intro rest fuel hlen hcap hch hz hfuel
    exact dos68.GetFiles_of_chain di hlen hcap rest fuel hch hz hfuel
  · intro S fuel hlen hcap hS hb
    exact dos68.GetFiles_of_closed di hlen hcap S hS hb fuel

/-- C4: for both formats the map from valid addresses to byte offsets is
injective, takes only multiples of the sector size below
trackCount*sectorsPerTrack*bytesPerSector, and hits every such multiple; hence
the byte ranges of distinct valid sectors are disjoint and every byte position
below the bound lies in the range of a valid sector. -/
theorem sectorOffset_bijective (T : Int) :
    ((∀ a b, dos68.ValidAddress a → dos68.ValidAddress b →
        dos68.sectorOffset a = dos68.sectorOffset b → a = b) ∧
     (∀ a, dos68.ValidAddress a →
        0 ≤ dos68.sectorOffset a ∧ dos68.sectorOffset a < 35 * 18 * 128 ∧
        (128 : Int) ∣ dos68.sectorOffset a) ∧
     (∀ k : Int, 0 ≤ k → k < 35 * 18 * 128 → (128 : Int) ∣ k →
        ∃ a, dos68.ValidAddress a ∧ dos68.sectorOffset a = k) ∧
     (∀ a b, dos68.ValidAddress a → dos68.ValidAddress b → a ≠ b →
        dos68.sectorOffset a + 128 ≤ dos68.sectorOffset b ∨
        dos68.sectorOffset b + 128 ≤ dos68.sectorOffset a) ∧
     (∀ x : Int, 0 ≤ x → x < 35 * 18 * 128 →
        ∃ a, dos68.ValidAddress a ∧ dos68.sectorOffset a ≤ x ∧ x < dos68.sectorOffset a + 128)) ∧
    ((∀ a b, flex2.ValidAddress T a → flex2.ValidAddress T b →
        flex2.sectorOffset a = flex2.sectorOffset b → a = b) ∧
     (∀ a, flex2.ValidAddress T a →
        0 ≤ flex2.sectorOffset a ∧ flex2.sectorOffset a < T * 10 * 256 ∧
        (256 : Int) ∣ flex2.sectorOffset a) ∧
     (∀ k : Int, 0 ≤ k → k < T * 10 * 256 → (256 : Int) ∣ k →
        ∃ a, flex2.ValidAddress T a ∧ flex2.sectorOffset a = k) ∧
     (∀ a b, flex2.ValidAddress T a → flex2.ValidAddress T b → a ≠ b →
        flex2.sectorOffset a + 256 ≤ flex2.sectorOffset b ∨
        flex2.sectorOffset b + 256 ≤ flex2.sectorOffset a) ∧
     (∀ x : Int, 0 ≤ x → x < T * 10 * 256 →
        ∃ a, flex2.ValidAddress T a ∧ flex2.sectorOffset a ≤ x ∧ x < flex2.sectorOffset a + 256)) := by
  have dinj : ∀ a b, dos68.ValidAddress a → dos68.ValidAddress b →
      dos68.sectorOffset a = dos68.sectorOffset b → a = b := by
    intro a b ha hb h
    obtain ⟨t, s⟩ := a
    obtain ⟨t2, s2⟩ := b
    simp only [dos68.ValidAddress, dos68.sectorOffset, dos68.sectorsPerTrack,
      dos68.bytesPerSector] at ha hb h
    have h1 : t = t2 := by omega
    have h2 : s = s2 := by omega
    rw [h1, h2]
  have finj : ∀ a b, flex2.ValidAddress T a → flex2.ValidAddress T b →
      flex2.sectorOffset a = flex2.sectorOffset b → a = b := by
    intro a b ha hb h
    obtain ⟨t, s⟩ := a
    obtain ⟨t2, s2⟩ := b
    simp only [flex2.ValidAddress, flex2.sectorOffset, flex2.sectorsPerTrack,
      flex2.bytesPerSector] at ha hb h
    have h1 : t = t2 := by omega
    have h2 : s = s2 := by omega
    rw [h1, h2]
  refine ⟨⟨dinj, ?_, ?_, ?_, ?_⟩, ⟨finj, ?_, ?_, ?_, ?_⟩⟩
  · intro a ha
    simp only [dos68.ValidAddress, dos68.sectorOffset, dos68.sectorsPerTrack,
      dos68.bytesPerSector] at ha ⊢
    refine ⟨by omega, by omega, by omega⟩
  · intro k h0 h1 hd
    refine ⟨⟨k / 128 / 18, k / 128 % 18⟩, ?_, ?_⟩
    · simp only [dos68.ValidAddress]
      omega
    · simp only [dos68.sectorOffset, dos68.sectorsPerTrack, dos68.bytesPerSector]
      omega
  · intro a b ha hb hne
    by_contra hcon
    apply hne
    obtain ⟨t, s⟩ := a
    obtain ⟨t2, s2⟩ := b
    simp only [dos68.ValidAddress, dos68.sectorOffset, dos68.sectorsPerTrack,
      dos68.bytesPerSector] at ha hb hcon
    have h1 : t = t2 := by omega
    have h2 : s = s2 := by omega
    rw [h1, h2]
  · intro x h0 h1
    refine ⟨⟨x / 128 / 18, x / 128 % 18⟩, ?_, ?_⟩
    · simp only [dos68.ValidAddress]
      omega
    · simp only [dos68.sectorOffset, dos68.sectorsPerTrack, dos68.bytesPerSector]
      omega
  · intro a ha
    simp only [flex2.ValidAddress, flex2.sectorOffset, flex2.sectorsPerTrack,
      flex2.bytesPerSector] at ha ⊢
    refine ⟨by omega, by omega, by omega⟩
  · intro k h0 h1 hd
    refine ⟨⟨k / 256 / 10, k / 256 % 10 + 1⟩, ?_, ?_⟩
    · simp only [flex2.ValidAddress]
      omega
    · simp only [flex2.sectorOffset, flex2.sectorsPerTrack, flex2.bytesPerSector]
      omega
  · intro a b ha hb hne
    by_contra hcon
    apply hne
    obtain ⟨t, s⟩ := a
    obtain ⟨t2, s2⟩ := b
    simp only [flex2.ValidAddress, flex2.sectorOffset, flex2.sectorsPerTrack,
      flex2.bytesPerSector] at ha hb hcon
    have h1 : t = t2 := by omega
    have h2 : s = s2 := by omega
    rw [h1, h2]
  · intro x h0 h1
    refine ⟨⟨x / 256 / 10, x / 256 % 10 + 1⟩, ?_, ?_⟩
    · simp only [flex2.ValidAddress]
      omega
    · simp only [flex2.sectorOffset, flex2.sectorsPerTrack, flex2.bytesPerSector]
      omega

namespace dos68

/-- C16: on a dos68 image of at least 80640 bytes, when the chain of a record
(`begin :: rest`, j = rest.length + 1 sectors at valid addresses, none of them
with a zero link, j within the declared length) meets a link that decodes to an
invalid address, GetFileContents returns ErrInvalidAddress together with the
untrimmed concatenation of bytes [4,128) of those j sectors, whatever the
record type; when begin itself is invalid it returns ErrInvalidAddress with
empty content. -/
theorem GetFileContents_partial_on_invalid (i : DiskImage) (f : fib)
    (hlen : 80640 ≤ i.data.len) :
    (∀ rest : List SectorAddress, IsChain i (f.begin :: rest) →
      linkIsZero (sectorData i ((f.begin :: rest).getLast (List.cons_ne_nil _ rest))) = false →
      ¬ ValidAddress
        (linkAddr (sectorData i ((f.begin :: rest).getLast (List.cons_ne_nil _ rest)))) →
      rest.length + 1 ≤ f.length.toNat →
      i.GetFileContents f = .ret
        ⟨(f.begin :: rest).flatMap (payload i), some GoError.ErrInvalidAddress,
          f.begin :: rest⟩) ∧
    (¬ ValidAddress f.begin →
      i.GetFileContents f = .ret ⟨[], some GoError.ErrInvalidAddress, []⟩) := by
  constructor
  · intro rest hch hz hbad hL
    exact GetFileContents_of_invalid_link i f rest hlen hch hz hbad hL
  · intro hv
    unfold DiskImage.GetFileContents
    rw [GetSector_of_not_valid i f.begin hv, Run.ret_bind]

theorem GetFileContents_partial_on_invalid_witness :
    80640 ≤ chainImage.data.len ∧
    IsChain chainImage [⟨1, 2⟩] ∧
    linkIsZero (sectorData chainImage ⟨1, 2⟩) = false ∧
    ¬ ValidAddress (linkAddr (sectorData chainImage ⟨1, 2⟩)) ∧
    chainImage.GetFileContents { textFib with begin := ⟨1, 2⟩ } =
      .ret ⟨List.replicate 124 0x43, some GoError.ErrInvalidAddress, [⟨1, 2⟩]⟩ ∧
    chainImage.GetFileContents { textFib with begin := ⟨35, 0⟩ } =
      .ret ⟨[], some GoError.ErrInvalidAddress, []⟩ := by
  have hz : linkIsZero (sectorData chainImage ⟨1, 2⟩) = false := by
    rw [chainImage_secC]
    decide
  have hbad : ¬ ValidAddress (linkAddr (sectorData chainImage ⟨1, 2⟩)) := by
    rw [chainImage_secC]
    decide
  have hch : IsChain chainImage [⟨1, 2⟩] := by
    show ValidAddress ⟨1, 2⟩
    decide
  have h1 := (GetFileContents_partial_on_invalid chainImage { textFib with begin := ⟨1, 2⟩ }
    chainImage_len).1 [] hch hz hbad (by decide)
  have h2 := (GetFileContents_partial_on_invalid chainImage { textFib with begin := ⟨35, 0⟩ }
    chainImage_len).2 (by decide)
  refine ⟨chainImage_len, hch, hz, hbad, ?_, h2⟩
  rw [h1]
  simp only [List.flatMap_cons, List.flatMap_nil, List.append_nil, payload,
    chainImage_secC, secC_payload]

end dos68

theorem TrimNul_length_le (x : List Byte) : (TrimNul x).length ≤ x.length := by
  unfold TrimNul trimLeftByte trimRightByte
  have h1 := (List.dropWhile_sublist (l := List.rdropWhile (fun b => b == 0x00) x)
    (fun b => b == 0x00)).length_le
  have h2 := ( List.rdropWhile_prefix (fun b => b == 0x00) x).length_le
  omega

namespace dos68

/-- Whatever `GetSector` returns without error is a slice of 128 elements. -/
theorem GetSector_ret_length (i : DiskImage) (a : SectorAddress) (s : Slice)
    (h : i.GetSector a = .ret (s, none)) : s.data.length = 128 := by
  unfold DiskImage.GetSector at h
  split_ifs at h with hc
  · simp at h
  · unfold Slice.slice at h
    simp only at h
    split_ifs at h with hs
    · simp only [Run.bind_ret_def, Run.ret.injEq, Prod.mk.injEq, and_true] at h
      obtain ⟨h0, _, h2⟩ := hs
      unfold Slice.cap at h2
      rw [← h]
      simp only [bytesPerSector, List.length_take, List.length_drop, List.length_append] at h2 ⊢
      omega
    · simp [Run.bind] at h

/-- The content loop appends at most 124 bytes per iteration. -/
theorem contentsLoop_length (i : DiskImage) :
    ∀ (n : Nat) (s : Slice) (data : List Byte) (reads : List SectorAddress) (c : Contents),
      s.data.length = 128 → contentsLoop i n s data reads = .ret c →
      c.data.length ≤ data.length + n * 124 := by
  intro n
  induction n with
  | zero =>
    intro s data reads c _ h
    rw [contentsLoop] at h
    simp only [Run.ret.injEq] at h
    rw [← h]
    simp
  | succ n ih =>
    intro s data reads c hs h
    rw [contentsLoop, Slice.sliceFrom_eq s 4 (by decide) (by simp; omega), Run.ret_bind,
      zeroLink_eq s (by omega), Run.ret_bind] at h
    by_cases hz : (s.data.getD 0 0 == 0x00 && s.data.getD 1 0 == 0x00) = true
    · simp only [hz, if_true, Run.ret.injEq] at h
      rw [← h]
      simp only [List.length_append, List.length_drop, Int.toNat_ofNat]
      omega
    · simp only [hz, Bool.false_eq_true, if_false] at h
      rw [maskedLink_eq s (by omega), Run.ret_bind] at h
      cases hg : i.GetSector (linkAddr s.data) with
      | fault => rw [hg] at h; simp at h
      | outOfFuel => rw [hg] at h; simp at h
      | ret r =>
        obtain ⟨s2, e⟩ := r
        rw [hg, Run.ret_bind] at h
        cases e with
        | some e =>
          simp only [Run.ret.injEq] at h
          rw [← h]
          simp only [List.length_append, List.length_drop, Int.toNat_ofNat]
          omega
        | none =>
          have h2 := ih s2 _ _ c (GetSector_ret_length i _ s2 hg) h
          simp only [List.length_append, List.length_drop, Int.toNat_ofNat] at h2
          omega

/-- C14: whenever GetFileContents returns content for a record with declared
length L ≥ 0, with or without an error, that content has at most L * 124
bytes, the size Getattr reports. -/
theorem GetFileContents_length_le (i : DiskImage) (f : fib) (c : Contents)
    (hL : 0 ≤ f.length) (h : i.GetFileContents f = .ret c) :
    (c.data.length : Int) ≤ f.length * (128 - 4) := by
  have key : c.data.length ≤ f.length.toNat * 124 := by
    unfold DiskImage.GetFileContents at h
    cases hg : i.GetSector f.begin with
    | fault => rw [hg] at h; simp at h
    | outOfFuel => rw [hg] at h; simp at h
    | ret r =>
      obtain ⟨s, e⟩ := r
      rw [hg, Run.ret_bind] at h
      cases e with
      | some e =>
        simp only [Run.ret.injEq] at h
        rw [← h]
        simp
      | none =>
        simp only at h
        cases hl : contentsLoop i f.length.toNat s [] [f.begin] with
        | fault => rw [hl] at h; simp at h
        | outOfFuel => rw [hl] at h; simp at h
        | ret c2 =>
          have hb := contentsLoop_length i _ s [] [f.begin] c2
            (GetSector_ret_length i _ s hg) hl
          simp only [List.length_nil, Nat.zero_add] at hb
          rw [hl, Run.ret_bind] at h
          cases he : c2.err with
          | some e =>
            simp only [he, Run.ret.injEq] at h
            rw [← h]
            exact hb
          | none =>
            simp only [he] at h
            split_ifs at h
            · simp only [Run.ret.injEq] at h
              rw [← h]
              exact le_trans (TrimNul_length_le _) hb
            · simp only [Run.ret.injEq] at h
              rw [← h]
              exact hb
  have ht : (f.length.toNat : Int) = f.length := Int.toNat_of_nonneg hL
  have : ((c.data.length : Nat) : Int) ≤ ((f.length.toNat * 124 : Nat) : Int) := by
    exact_mod_cast key
  push_cast at this
  rw [ht] at this
  omega

end dos68

namespace dos68

theorem chainImage_contents_AB :
    chainImage.GetFileContents (binFib ⟨1, 0⟩ 2) =
      .ret ⟨List.replicate 124 0x41 ++ List.replicate 124 0x42, none, [⟨1, 0⟩, ⟨1, 1⟩]⟩ := by
  have hz : linkIsZero (sectorData chainImage ⟨1, 1⟩) = true := by
    rw [chainImage_secB]
    decide
  rw [GetFileContents_of_zero_link chainImage (binFib ⟨1, 0⟩ 2) [⟨1, 1⟩] chainImage_len
    chainImage_chainAB hz (by decide)]
  have ht : (binFib ⟨1, 0⟩ 2).fileType ≠ filetypeText := by decide
  simp only [if_neg ht]
  simp only [binFib, List.flatMap_cons, List.flatMap_nil, List.append_nil, payload,
    chainImage_secA, chainImage_secB, secA_payload, secB_payload]

theorem GetFileContents_length_le_witness :
    0 ≤ (binFib ⟨1, 0⟩ 2).length ∧
    chainImage.GetFileContents (binFib ⟨1, 0⟩ 2) =
      .ret ⟨List.replicate 124 0x41 ++ List.replicate 124 0x42, none, [⟨1, 0⟩, ⟨1, 1⟩]⟩ ∧
    (((List.replicate 124 0x41 ++ List.replicate 124 0x42 : List Byte).length : Nat) : Int) ≤
      (binFib ⟨1, 0⟩ 2).length * (128 - 4) := by
  have h := GetFileContents_length_le chainImage (binFib ⟨1, 0⟩ 2)
    ⟨List.replicate 124 0x41 ++ List.replicate 124 0x42, none, [⟨1, 0⟩, ⟨1, 1⟩]⟩
    (by decide) chainImage_contents_AB
  exact ⟨by decide, chainImage_contents_AB, h⟩

/-- What `GetSector` does at a valid address, by the capacity of the image:
it returns a slice and no error when the 128 bytes lie within the capacity,
and faults otherwise. -/
theorem GetSector_by_capacity (i : DiskImage) (a : SectorAddress) (hv : ValidAddress a) :
    ((sectorOffset a).toNat + 128 ≤ i.data.cap → ∃ s, i.GetSector a = .ret (s, none)) ∧
    (i.data.cap < (sectorOffset a).toNat + 128 → i.GetSector a = .fault) := by
  obtain ⟨ht0, ht, hs0, hs⟩ := hv
  obtain ⟨h0, _⟩ := sectorOffset_bounds a ht0 ht hs0 hs
  have hc : ¬ (a.Track ≥ 35 ∨ a.Sector ≥ 18 ∨ a.Track < 0 ∨ a.Sector < 0) := by omega
  constructor
  · intro hcap
    unfold DiskImage.GetSector DiskImage.Tracks sectorsPerTrack bytesPerSector
    rw [if_neg hc]
    simp only
    rw [Slice.slice_of_le i.data _ _ h0 (by omega) (by omega)]
    exact ⟨_, rfl⟩
  · intro hcap
    unfold DiskImage.GetSector DiskImage.Tracks sectorsPerTrack bytesPerSector
    rw [if_neg hc]
    simp only
    unfold Slice.slice
    have hn : ¬ (0 ≤ sectorOffset a ∧ sectorOffset a ≤ sectorOffset a + 128 ∧
        sectorOffset a + 128 ≤ (i.data.cap : Int)) := by omega
    rw [if_neg hn]
    rfl

set_option maxRecDepth 1000000 in
/-- C18: the code at a failing input.  For the 100-byte image `shortImage`
(capacity 512) the valid address {0,0}, whose range [0,128) is not contained
in the image, yields 128 bytes, the 100 of the file and 28 from beyond its end,
with no error; the valid address {0,4} (range [512,640)) makes GetSector
fault.  At a valid address GetSector never returns an error: it returns a
slice or faults, by the capacity alone. -/
theorem GetSector_short_image :
    shortImage.data.len = 100 ∧ ValidAddress ⟨0, 0⟩ ∧ ValidAddress ⟨0, 4⟩ ∧
    shortImage.GetSector ⟨0, 0⟩ =
      .ret (⟨List.replicate 100 0x41 ++ List.replicate 28 0x00, List.replicate 384 0x00⟩, none) ∧
    shortImage.GetSector ⟨0, 4⟩ = .fault ∧
    (∀ (i : DiskImage) (a : SectorAddress), ValidAddress a →
      i.data.cap < (sectorOffset a).toNat + 128 → i.GetSector a = .fault) ∧
    (∀ (i : DiskImage) (a : SectorAddress) (s : Slice) (e : GoError), ValidAddress a →
      i.GetSector a ≠ .ret (s, some e)) := by
  refine ⟨by decide, by decide, by decide, by decide, by decide, ?_, ?_⟩
  · intro i a hv hcap
    exact (GetSector_by_capacity i a hv).2 hcap
  · intro i a s e hv h
    by_cases hcap : (sectorOffset a).toNat + 128 ≤ i.data.cap
    · obtain ⟨s2, h2⟩ := (GetSector_by_capacity i a hv).1 hcap
      rw [h2] at h
      simp at h
    · rw [(GetSector_by_capacity i a hv).2 (by omega)] at h
      simp at h

/-- With no element after the 128 of the sector the slot loop faults at slot
4, whose window is [104, 129). -/
theorem parseSlots_faults (s : Slice) (hd : s.data.length = 128) (hsp : s.spare = []) :
    ∀ (n k : Nat) (fibs : List fib), k + n = 5 → 1 ≤ n →
      parseSlots s n (k : Int) fibs = .fault := by
  intro n
  induction n with
  | zero =>
    intro k fibs _ h
    omega
  | succ n ih =>
    intro k fibs hk _
    by_cases h4 : n = 0
    · have hk4 : k = 4 := by omega
      subst hk4
      rw [parseSlots]
      unfold Slice.slice Slice.cap
      have hn : ¬ ((0 : Int) ≤ 8 + ((4 : Nat) : Int) * 24 ∧
          8 + ((4 : Nat) : Int) * 24 ≤ 8 + ((4 : Nat) : Int) * 24 + 25 ∧
          8 + ((4 : Nat) : Int) * 24 + 25 ≤ ((s.data.length + s.spare.length : Nat) : Int)) := by
        rw [hd, hsp]
        simp
      rw [if_neg hn]
      rfl
    · have hlo : (0 : Int) ≤ 8 + (k : Int) * 24 := by omega
      have hhi : 8 + (k : Int) * 24 + 25 ≤ (s.cap : Int) := by
        unfold Slice.cap
        omega
      have hfd : (List.take (8 + (k : Int) * 24 + 25 - (8 + (k : Int) * 24)).toNat
          (List.drop (8 + (k : Int) * 24).toNat (s.data ++ s.spare))).length = 25 := by
        simp only [List.length_take, List.length_drop, List.length_append]
        omega
      obtain ⟨x, hx⟩ := parseFib_returns
        ⟨_, (s.data ++ s.spare).drop (8 + (k : Int) * 24 + 25).toNat⟩ hfd
      have hcast : (k : Int) + 1 = ((k + 1 : Nat) : Int) := by push_cast; rfl
      rw [parseSlots, Slice.slice_of_le s _ _ hlo (by omega) hhi, Run.ret_bind, hx,
        Run.ret_bind, hcast]
      split_ifs
      · exact ih (k + 1) _ (by omega) (by omega)
      · exact ih (k + 1) _ (by omega) (by omega)

theorem parseDirectoryBlock_faults (s : Slice) (hd : s.data.length = 128)
    (hsp : s.spare = []) : parseDirectoryBlock s = .fault := by
  unfold parseDirectoryBlock
  rw [Slice.index_of_lt s 8 (by decide) (by rw [hd]; decide), Run.ret_bind]
  simp only
  by_cases h8 : s.data.getD (8 : Int).toNat 0 = 0xFF
  · simp only [h8, if_true]
    rw [parseSlots_faults s hd hsp 4 1 [] (by decide) (by decide)]
    rfl
  · simp only [h8, if_false]
    rw [parseSlots_faults s hd hsp 5 0 [] (by decide) (by decide)]
    rfl

set_option maxRecDepth 1000000 in
/-- C19: the code at a failing input.  parseDirectoryBlock faults on every
sector slice of 128 elements with capacity 128, for instance 128 zero bytes:
the slice expression for slot 4, data[104:129], exceeds the capacity.  The
last sector {34,17} of an image of 80640 bytes without spare capacity is such a
slice. -/
theorem parseDirectoryBlock_faults_at_capacity :
    parseDirectoryBlock ⟨List.replicate 128 0x00, []⟩ = .fault ∧
    (∀ s : Slice, s.len = 128 → s.cap = 128 → parseDirectoryBlock s = .fault) ∧
    (∀ i : DiskImage, i.data.len = 80640 → i.data.cap = 80640 →
      ∃ s, i.GetSector ⟨34, 17⟩ = .ret (s, none) ∧ s.len = 128 ∧ s.cap = 128 ∧
        parseDirectoryBlock s = .fault) := by
  have hgen : ∀ s : Slice, s.len = 128 → s.cap = 128 → parseDirectoryBlock s = .fault := by
    intro s hl hc
    unfold Slice.len at hl
    unfold Slice.cap at hc
    have hsp : s.spare = [] := List.length_eq_zero.mp (by omega)
    exact parseDirectoryBlock_faults s hl hsp
  refine ⟨by decide, hgen, ?_⟩
  intro i hl hc
  have hl2 : i.data.data.length = 80640 := hl
  have hc2 : i.data.data.length + i.data.spare.length = 80640 := hc
  have hg := GetSector_of_valid i ⟨34, 17⟩ (le_of_eq hl.symm) (by decide) (by decide)
    (by decide) (by decide)
  have ho : (sectorOffset ⟨34, 17⟩).toNat = 80512 := by decide
  rw [ho] at hg
  refine ⟨_, hg, ?_, ?_, ?_⟩
  · simp only [Slice.len, List.length_take, List.length_drop]
    omega
  · simp only [Slice.cap, List.length_take, List.length_drop, List.length_append]
    omega
  · apply hgen
    · simp only [Slice.len, List.length_take, List.length_drop]
      omega
    · simp only [Slice.cap, List.length_take, List.length_drop, List.length_append]
      omega

end dos68

namespace flex2

theorem sliceFrom_nil_faults (skip : Int) (h : 0 < skip) :
    Slice.nil.sliceFrom skip = .fault := by
  unfold Slice.sliceFrom Slice.slice Slice.len Slice.cap Slice.nil
  have hn : ¬ (0 ≤ skip ∧ skip ≤ (([] : List Byte).length : Int) ∧
      ((([] : List Byte).length : Nat) : Int) ≤
        ((([] : List Byte).length + ([] : List Byte).length : Nat) : Int)) := by
    simp only [List.length_nil]
    omega
  rw [if_neg hn]

/-- `getSectors` started at an address that `getSector` rejects faults on the
slice expression `sector[skip:]` of the nil slice. -/
theorem getSectors_faults_of_not_fetchable (i : DiskImage) (fuel : Nat) (begin : SectorAddress)
    (skip : Int) (hb : ¬ Fetchable begin) (hs : 0 < skip) :
    i.getSectors fuel begin skip = .fault := by
  unfold Fetchable at hb
  unfold DiskImage.getSectors
  rw [getSector_of_not_fetchable i begin (by omega)]
  simp only
  rw [sliceFrom_nil_faults skip hs]
  rfl

/-- Two iterations of the `getSectors` loop at a sector whose link is not zero
and is rejected by `getSector`: the second one faults. -/
theorem getSectorsLoop_faults (i : DiskImage) (skip : Int) (fuel : Nat) (d : List Byte)
    (data : List Byte) (reads : List Int) (hs0 : 0 < skip) (hs : skip ≤ 256)
    (hd : d.length = 256) (hz : linkIsZero d = false) (hf : ¬ Fetchable (linkAddr d)) :
    getSectorsLoop i skip (fuel + 1 + 1) ⟨d, []⟩ data reads = .fault := by
  unfold linkIsZero at hz
  unfold Fetchable at hf
  have hget := getSector_of_not_fetchable i (linkAddr d) (by omega)
  unfold linkAddr at hget
  rw [getSectorsLoop, Slice.sliceFrom_eq ⟨d, []⟩ skip (le_of_lt hs0) (by simp only [hd]; omega),
    Run.ret_bind, zeroLink_eq ⟨d, []⟩ (by simp only [hd]; omega), Run.ret_bind]
  simp only [hz, Bool.false_eq_true, if_false]
  rw [Slice.index_of_lt ⟨d, []⟩ 0 (le_refl _) (by simp only [hd]; decide), Run.ret_bind,
    Slice.index_of_lt ⟨d, []⟩ 1 (by decide) (by simp only [hd]; decide), Run.ret_bind]
  simp only [Int.toNat_zero, Int.toNat_one, hget]
  rw [getSectorsLoop, sliceFrom_nil_faults skip hs0]
  rfl

/-- On a chain whose last sector has a link that is not zero and that
`getSector` rejects, `getSectors` faults. -/
theorem getSectors_faults_of_bad_link (i : DiskImage) (skip : Int) (hs0 : 0 < skip)
    (hs : skip ≤ 256) (begin : SectorAddress) (rest : List SectorAddress) (fuel : Nat)
    (hchain : IsChain i (begin :: rest))
    (hz : linkIsZero (sectorData i ((begin :: rest).getLast (List.cons_ne_nil _ rest))) = false)
    (hbad : ¬ Fetchable
      (linkAddr (sectorData i ((begin :: rest).getLast (List.cons_ne_nil _ rest)))))
    (hfuel : rest.length + 2 ≤ fuel) :
    i.getSectors fuel begin skip = .fault := by
  have hf := IsChain.head_fetchable i _ _ hchain
  obtain ⟨k, hk⟩ : ∃ k, fuel = rest.length + (k + 1 + 1) := ⟨fuel - rest.length - 2, by omega⟩
  unfold DiskImage.getSectors
  rw [getSector_of_fetchable i begin hf]
  simp only
  rw [Slice.sliceFrom_eq ⟨sectorData i begin, []⟩ skip (le_of_lt hs0)
    (by simp only [fetched_length]; omega), Run.ret_bind, hk,
    getSectorsLoop_chain i skip (le_of_lt hs0) hs rest begin (k + 1 + 1) _ _ hchain,
    getSectorsLoop_faults i skip k _ _ _ hs0 hs (fetched_length i _) hz hbad]

set_option maxRecDepth 1000000 in
/-- C17: the code at failing inputs.  `getSectors` and `getFileContents` drop
the error of `getSector` and go on with the nil slice: for a begin address
outside the geometry ({0,0}), for a link with sector byte 0 and track byte 1
(`badLinkImage`) and for a link with sector byte 11 (`bigSectorImage`) they
fault on `sector[skip:]` instead of reporting the address error; so they do for
every rejected begin address and every chain that ends in a rejected link. -/
theorem getSectors_faults_on_bad_address :
    (∀ fuel, oneSectorImage.getSectors fuel ⟨0, 0⟩ 4 = .fault) ∧
    (∀ fuel, oneSectorImage.getFileContents fuel (binFcb ⟨0, 0⟩) = .fault) ∧
    linkAddr (sectorData badLinkImage ⟨0, 1⟩) = ⟨1, 0⟩ ∧
    (∀ fuel, badLinkImage.getSectors (fuel + 2) ⟨0, 1⟩ 4 = .fault) ∧
    (∀ fuel, badLinkImage.getFileContents (fuel + 2) (binFcb ⟨0, 1⟩) = .fault) ∧
    linkAddr (sectorData bigSectorImage ⟨0, 1⟩) = ⟨0, 11⟩ ∧
    (∀ fuel, bigSectorImage.getSectors (fuel + 2) ⟨0, 1⟩ 16 = .fault) ∧
    (∀ (i : DiskImage) (fuel : Nat) (begin : SectorAddress) (skip : Int),
      ¬ Fetchable begin → 0 < skip → i.getSectors fuel begin skip = .fault) ∧
    (∀ (i : DiskImage) (skip : Int) (begin : SectorAddress) (rest : List SectorAddress)
      (fuel : Nat), 0 < skip → skip ≤ 256 → IsChain i (begin :: rest) →
      linkIsZero (sectorData i ((begin :: rest).getLast (List.cons_ne_nil _ rest))) = false →
      ¬ Fetchable (linkAddr (sectorData i ((begin :: rest).getLast (List.cons_ne_nil _ rest)))) →
      rest.length + 2 ≤ fuel → i.getSectors fuel begin skip = .fault) := by
  have hbadz : linkIsZero (sectorData badLinkImage ⟨0, 1⟩) = false := by decide
  have hbadf : ¬ Fetchable (linkAddr (sectorData badLinkImage ⟨0, 1⟩)) := by decide
  have hbigz : linkIsZero (sectorData bigSectorImage ⟨0, 1⟩) = false := by decide
  have hbigf : ¬ Fetchable (linkAddr (sectorData bigSectorImage ⟨0, 1⟩)) := by decide
  have hch1 : IsChain badLinkImage [⟨0, 1⟩] := by
    show Fetchable ⟨0, 1⟩
    decide
  have hch2 : IsChain bigSectorImage [⟨0, 1⟩] := by
    show Fetchable ⟨0, 1⟩
    decide
  refine ⟨?_, ?_, by decide, ?_, ?_, by decide, ?_, ?_, ?_⟩
  · intro fuel
    exact getSectors_faults_of_not_fetchable _ fuel ⟨0, 0⟩ 4 (by decide) (by decide)
  · intro fuel
    unfold DiskImage.getFileContents
    rw [getSectors_faults_of_not_fetchable _ fuel (binFcb ⟨0, 0⟩).begin 4 (by decide)
      (by decide)]
    rfl
  · intro fuel
    exact getSectors_faults_of_bad_link badLinkImage 4 (by decide) (by decide) ⟨0, 1⟩ []
      (fuel + 2) hch1 hbadz hbadf (by simp)
  · intro fuel
    unfold DiskImage.getFileContents
    rw [getSectors_faults_of_bad_link badLinkImage 4 (by decide) (by decide)
      (binFcb ⟨0, 1⟩).begin [] (fuel + 2) hch1 hbadz hbadf (by simp)]
    rfl
  · intro fuel
    exact getSectors_faults_of_bad_link bigSectorImage 16 (by decide) (by decide) ⟨0, 1⟩ []
      (fuel + 2) hch2 hbigz hbigf (by simp)
  · intro i fuel begin skip hb hs
    exact getSectors_faults_of_not_fetchable i fuel begin skip hb hs
  · intro i skip begin rest fuel hs0 hs hch hz hbad hfuel
    exact getSectors_faults_of_bad_link i skip hs0 hs begin rest fuel hch hz hbad hfuel

/-- The expansion loop on bytes without 0x09 followed by one final 0x09
faults when it fetches the count byte. -/
theorem expandLoop_faults (x : List Byte) (hx : 0x09 ∉ x) :
    ∀ (fuel i : Nat) (acc : List Byte), i ≤ x.length → x.length + 1 ≤ i + fuel →
      expandLoop (x ++ [0x09]) fuel i acc = .fault := by
  intro fuel
  induction fuel with
  | zero =>
    intro i acc h1 h2
    omega
  | succ f ih =>
    intro i acc h1 h2
    unfold expandLoop
    by_cases hi : i < x.length
    · have hb : (x ++ [0x09])[i]? = some x[i] := by
        rw [List.getElem?_append_left hi, List.getElem?_eq_getElem hi]
      have hne : x[i] ≠ 0x09 := fun e => hx (by rw [← e]; exact List.getElem_mem hi)
      simp only [hb, hne, if_false]
      exact ih (i + 1) _ (by omega) (by omega)
    · have hieq : i = x.length := by omega
      subst hieq
      have hb : (x ++ [0x09])[x.length]? = some 0x09 := by simp
      have hb1 : (x ++ [0x09])[x.length + 1]? = none :=
        List.getElem?_eq_none (by simp)
      simp only [hb, hb1, if_true]

set_option maxRecDepth 1000000 in
theorem tailTabImage_chain :
    IsChain tailTabImage [⟨0, 1⟩, ⟨0, 2⟩] ∧
    linkIsZero (sectorData tailTabImage ⟨0, 2⟩) = true ∧
    payload tailTabImage 4 ⟨0, 1⟩ = List.replicate 252 0x41 ∧
    payload tailTabImage 4 ⟨0, 2⟩ = List.replicate 251 0x41 ++ [0x09] := by
  refine ⟨⟨by decide, by decide, by decide, ?_⟩, by decide, by decide, by decide⟩
  show Fetchable ⟨0, 2⟩
  decide

set_option maxRecDepth 1000000 in
/-- C20: the code at a failing input.  When the assembled bytes end in 0x09
after bytes without 0x09, the expansion loop reads data[i+1] one past the end
and faults; so does getFileContents for the TXT record of `tailTabImage`,
whose last sector payload ends in 0x09. -/
theorem expandSpaces_faults_on_final_tab :
    expandSpaces [0x41, 0x09] = .fault ∧
    (∀ x : List Byte, 0x09 ∉ x → expandSpaces (x ++ [0x09]) = .fault) ∧
    (∀ fuel, tailTabImage.getFileContents (fuel + 2) tabFcb = .fault) := by
  have hgen : ∀ x : List Byte, 0x09 ∉ x → expandSpaces (x ++ [0x09]) = .fault := by
    intro x hx
    unfold expandSpaces
    exact expandLoop_faults x hx _ 0 [] (by omega) (by simp)
  refine ⟨by decide, hgen, ?_⟩
  intro fuel
  obtain ⟨hch, hz, hp1, hp2⟩ := tailTabImage_chain
  have hb : tabFcb.begin = ⟨0, 1⟩ := rfl
  have htxt : EqualFoldTXT tabFcb.extension = true := by decide
  have hx : (0x09 : Byte) ∉
      List.replicate 252 0x41 ++ (List.replicate 252 0x41 ++ List.replicate 251 0x41) := by
    intro h
    simp only [List.mem_append, List.mem_replicate] at h
    rcases h with h | h | h <;> exact absurd h.2 (by decide)
  unfold DiskImage.getFileContents
  rw [hb, getSectors_of_chain tailTabImage 4 (by decide) (by decide) ⟨0, 1⟩ [⟨0, 2⟩] (fuel + 2)
    hch hz (by simp), Run.ret_bind]
  simp only [List.flatMap_cons, List.flatMap_nil, List.append_nil, hp1, hp2]
  have he : List.replicate 252 0x41 ++ (List.replicate 252 0x41 ++
      (List.replicate 251 0x41 ++ [0x09])) =
      (List.replicate 252 0x41 ++ (List.replicate 252 0x41 ++ List.replicate 251 0x41)) ++
        [0x09] := by
    simp only [List.append_assoc]
  unfold decodeContents decodeText
  rw [if_pos htxt, he, hgen _ hx]
  rfl

end flex2

namespace flex2

theorem getSectorsLoop_nil_ne_ret (i : DiskImage) (skip : Int) (hs : 0 < skip) (fuel : Nat)
    (data : List Byte) (reads : List Int) (c : Chained) :
    getSectorsLoop i skip fuel Slice.nil data reads ≠ .ret c := by
  cases fuel with
  | zero =>
    rw [getSectorsLoop]
    simp
  | succ fuel =>
    rw [getSectorsLoop, sliceFrom_nil_faults skip hs]
    simp

/-- One iteration of the `getSectors` loop at a sector whose link is not zero
and is rejected by `getSector`: the loop goes on with the nil slice. -/
theorem getSectorsLoop_bad_step (i : DiskImage) (skip : Int) (fuel : Nat) (d : List Byte)
    (data : List Byte) (reads : List Int) (hs0 : 0 ≤ skip) (hs : skip ≤ 256)
    (hd : d.length = 256) (hz : linkIsZero d = false) (hf : ¬ Fetchable (linkAddr d)) :
    getSectorsLoop i skip (fuel + 1) ⟨d, []⟩ data reads =
      getSectorsLoop i skip fuel Slice.nil (data ++ d.drop skip.toNat) (reads ++ []) := by
  unfold linkIsZero at hz
  unfold Fetchable at hf
  have hget := getSector_of_not_fetchable i (linkAddr d) (by omega)
  unfold linkAddr at hget
  rw [getSectorsLoop, Slice.sliceFrom_eq ⟨d, []⟩ skip hs0 (by simp only [hd]; omega),
    Run.ret_bind, zeroLink_eq ⟨d, []⟩ (by simp only [hd]; omega), Run.ret_bind]
  simp only [hz, Bool.false_eq_true, if_false]
  rw [Slice.index_of_lt ⟨d, []⟩ 0 (le_refl _) (by simp only [hd]; decide), Run.ret_bind,
    Slice.index_of_lt ⟨d, []⟩ 1 (by decide) (by simp only [hd]; decide), Run.ret_bind]
  simp only [Int.toNat_zero, Int.toNat_one, hget]

/-- Every iteration of the `getSectors` loop with payload offset 4 appends 252
bytes, and every iteration but the last logs one read. -/
theorem getSectorsLoop_length (i : DiskImage) :
    ∀ (fuel : Nat) (d : List Byte) (data : List Byte) (reads : List Int) (c : Chained),
      d.length = 256 → getSectorsLoop i 4 fuel ⟨d, []⟩ data reads = .ret c →
      c.data.length + 252 * reads.length = data.length + 252 * (c.reads.length + 1) := by
  intro fuel
  induction fuel with
  | zero =>
    intro d data reads c _ h
    rw [getSectorsLoop] at h
    simp at h
  | succ fuel ih =>
    intro d data reads c hd h
    by_cases hz : linkIsZero d = true
    · rw [getSectorsLoop_stop i 4 fuel d data reads (by decide) (by decide) hd hz] at h
      simp only [Run.ret.injEq] at h
      rw [← h]
      simp only [List.length_append, List.length_drop, hd]
      have : (4 : Int).toNat = 4 := rfl
      omega
    · have hz2 : linkIsZero d = false := by simpa using hz
      by_cases hf : Fetchable (linkAddr d)
      · rw [getSectorsLoop_next i 4 fuel d data reads (by decide) (by decide) hd hz2 hf] at h
        have h2 := ih _ _ _ c (fetched_length i _) h
        simp only [List.length_append, List.length_drop, hd, List.length_singleton] at h2
        have : (4 : Int).toNat = 4 := rfl
        omega
      · rw [getSectorsLoop_bad_step i 4 fuel d data reads (by decide) (by decide) hd hz2 hf] at h
        exact absurd h (getSectorsLoop_nil_ne_ret i 4 (by decide) fuel _ _ c)

theorem getSectors_length (i : DiskImage) (fuel : Nat) (begin : SectorAddress) (c : Chained)
    (h : i.getSectors fuel begin 4 = .ret c) :
    c.data.length = 252 * (c.reads.length + 1) := by
  by_cases hf : Fetchable begin
  · unfold DiskImage.getSectors at h
    rw [getSector_of_fetchable i begin hf] at h
    simp only at h
    rw [Slice.sliceFrom_eq ⟨sectorData i begin, []⟩ 4 (by decide)
      (by simp only [fetched_length]; decide), Run.ret_bind] at h
    have h2 := getSectorsLoop_length i fuel _ _ _ c (fetched_length i begin) h
    simp only [List.nil_append, List.length_drop, fetched_length, List.length_singleton] at h2
    have : (4 : Int).toNat = 4 := rfl
    omega
  · rw [getSectors_faults_of_not_fetchable i fuel begin 4 hf (by decide)] at h
    simp at h

set_option maxRecDepth 1000000 in
theorem twoSectorImage_contents :
    twoSectorImage.getFileContents 2 (binFcb ⟨0, 1⟩) =
      .ret ⟨List.replicate 252 0x41 ++ (List.replicate 252 0x41 ++ List.replicate 252 0x42),
        none, [0, 256]⟩ := by
  decide!

set_option maxRecDepth 1000000 in
theorem runImage_contents :
    runImage.getFileContents 1 tabFcb =
      .ret ⟨List.replicate 255 0x20 ++ (List.replicate 250 0x00 ++ List.replicate 255 0x20),
        none, [0]⟩ := by
  have hc : runImage.getSectors 1 tabFcb.begin 4 =
      .ret ⟨([0x09, 0xFF] ++ List.replicate 250 0x00) ++
        ([0x09, 0xFF] ++ List.replicate 250 0x00), [0]⟩ := by
    decide!
  have hwf : ∀ k, (([0x09, 0xFF] ++ List.replicate 250 0x00) ++
      ([0x09, 0xFF] ++ List.replicate 250 0x00) : List Byte)[k]? = some 0x09 →
      k + 1 < (([0x09, 0xFF] ++ List.replicate 250 0x00) ++
        ([0x09, 0xFF] ++ List.replicate 250 0x00) : List Byte).length := by
    intro k hk
    by_contra hcon
    have hlt := (List.getElem?_eq_some_iff.mp hk).1
    have h504 : (([0x09, 0xFF] ++ List.replicate 250 0x00) ++
        ([0x09, 0xFF] ++ List.replicate 250 0x00) : List Byte).length = 504 := by rfl
    have hk2 : k = 503 := by omega
    subst hk2
    revert hk
    decide
  have htxt : EqualFoldTXT tabFcb.extension = true := by decide
  unfold DiskImage.getFileContents decodeContents decodeText
  rw [hc, Run.ret_bind, if_pos htxt]
  simp only
  rw [expandSpaces_eq _ hwf]
  decide

set_option maxRecDepth 1000000 in
theorem oneSectorImage_contents :
    oneSectorImage.getFileContents 1 (binFcb ⟨0, 1⟩) =
      .ret ⟨List.replicate 252 0x41 ++ List.replicate 252 0x41, none, [0]⟩ := by
  decide!

/-- For a record whose extension is not TXT the returned content is the
assembled data: one payload of 252 bytes more than the sectors read. -/
theorem getFileContents_length_eq (image : DiskImage) (fuel : Nat) (f : fcb)
    (c : Contents) (hext : EqualFoldTXT f.extension = false)
    (h : image.getFileContents fuel f = .ret c) :
    c.data.length = (c.reads.length + 1) * (256 - 4) := by
  unfold DiskImage.getFileContents decodeContents at h
  cases hg : image.getSectors fuel f.begin 4 with
  | fault => rw [hg] at h; simp at h
  | outOfFuel => rw [hg] at h; simp at h
  | ret c0 =>
    have hl := getSectors_length image fuel f.begin c0 hg
    rw [hg, Run.ret_bind] at h
    simp only [hext, Bool.false_eq_true, if_false, Run.ret_bind] at h
    have h2 : c = ⟨c0.data, none, c0.reads⟩ := by
      have h3 : (Run.ret ⟨c0.data, none, c0.reads⟩ : Run Contents) = Run.ret c := h
      simp only [Run.ret.injEq] at h3
      exact h3.symm
    rw [h2]
    simp only
    omega

/-- A record whose extension is not TXT, on a chain that ends in a zero link:
getFileContents returns, after one read per chain sector, the payload of the
first sector followed by the payloads of all chain sectors. -/
theorem getFileContents_of_chain (image : DiskImage) (f : fcb) (rest : List SectorAddress)
    (fuel : Nat) (hext : EqualFoldTXT f.extension = false)
    (hchain : IsChain image (f.begin :: rest))
    (hz : linkIsZero (sectorData image
      ((f.begin :: rest).getLast (List.cons_ne_nil _ rest))) = true)
    (hfuel : rest.length + 1 ≤ fuel) :
    image.getFileContents fuel f =
      .ret ⟨payload image 4 f.begin ++ (f.begin :: rest).flatMap (payload image 4), none,
        (f.begin :: rest).map sectorOffset⟩ := by
  unfold DiskImage.getFileContents decodeContents
  rw [getSectors_of_chain image 4 (by decide) (by decide) f.begin rest fuel hchain hz hfuel,
    Run.ret_bind]
  simp only [hext, Bool.false_eq_true, if_false, Run.ret_bind]
  rfl

set_option maxRecDepth 1000000 in
theorem twoSectorImage_declared_contents :
    twoSectorImage.getFileContents 2 twoSectorFcb =
      .ret ⟨List.replicate 252 0x41 ++ (List.replicate 252 0x41 ++ List.replicate 252 0x42),
        none, [0, 256]⟩ := by
  decide!

set_option maxRecDepth 1000000 in
theorem twoSectorImage_chain : IsChain twoSectorImage [⟨0, 1⟩, ⟨0, 2⟩] := by
  refine ⟨by decide, by decide, by decide, ?_⟩
  show Fetchable ⟨0, 2⟩
  decide

set_option maxRecDepth 1000000 in
theorem twoSectorImage_end :
    linkIsZero (sectorData twoSectorImage ⟨0, 2⟩) = true := by
  decide

/-- C15: the code at a failing input.  The record `twoSectorFcb` declares
length 2 and its chain in `twoSectorImage` has exactly the two sectors {0,1}
and {0,2}, the second with a zero link, so Getattr reports 2 * 252 = 504 bytes;
getFileContents returns after two reads with 756 bytes, the payload of {0,1}
twice and then that of {0,2}.  In general a record whose extension is not TXT
and whose chain has as many sectors as it declares gets (L + 1) * 252 bytes,
and whenever getFileContents returns for such an extension the content is one
payload longer than the sectors read. -/
theorem getFileContents_exceeds_declared_size :
    twoSectorFcb.length = 2 ∧ EqualFoldTXT twoSectorFcb.extension = false ∧
    IsChain twoSectorImage [twoSectorFcb.begin, twoSectorFcb.end_] ∧
    linkIsZero (sectorData twoSectorImage twoSectorFcb.end_) = true ∧
    twoSectorImage.getFileContents 2 twoSectorFcb =
      .ret ⟨List.replicate 252 0x41 ++ (List.replicate 252 0x41 ++ List.replicate 252 0x42),
        none, [0, 256]⟩ ∧
    (List.replicate 252 0x41 ++
      (List.replicate 252 0x41 ++ List.replicate 252 0x42) : List Byte).length = 756 ∧
    ¬ ((756 : Int) ≤ twoSectorFcb.length * (256 - 4)) ∧
    (∀ (image : DiskImage) (f : fcb) (rest : List SectorAddress) (fuel : Nat),
      EqualFoldTXT f.extension = false → IsChain image (f.begin :: rest) →
      linkIsZero (sectorData image
        ((f.begin :: rest).getLast (List.cons_ne_nil _ rest))) = true →
      f.length = ((rest.length + 1 : Nat) : Int) → rest.length + 1 ≤ fuel →
      ∃ c, image.getFileContents fuel f = .ret c ∧ c.err = none ∧
        c.reads.length = rest.length + 1 ∧
        (c.data.length : Int) = (f.length + 1) * (256 - 4) ∧
        ¬ ((c.data.length : Int) ≤ f.length * (256 - 4))) ∧
    (∀ (image : DiskImage) (fuel : Nat) (f : fcb) (c : Contents),
      EqualFoldTXT f.extension = false → image.getFileContents fuel f = .ret c →
      c.data.length = (c.reads.length + 1) * (256 - 4)) := by
  have h3 : (List.replicate 252 0x41 ++
      (List.replicate 252 0x41 ++ List.replicate 252 0x42) : List Byte).length = 756 := by
    simp only [List.length_append, List.length_replicate]
  have h4 : ¬ ((756 : Int) ≤ twoSectorFcb.length * (256 - 4)) := by decide
  refine ⟨rfl, by decide, twoSectorImage_chain, twoSectorImage_end,
    twoSectorImage_declared_contents, h3, h4, ?_, ?_⟩
  · intro image f rest fuel hext hchain hz hlen hfuel
    have hc := getFileContents_of_chain image f rest fuel hext hchain hz hfuel
    have hl := getFileContents_length_eq image fuel f _ hext hc
    refine ⟨_, hc, rfl, ?_, ?_, ?_⟩
    · simp only [List.length_map, List.length_cons]
    · simp only [List.length_map, List.length_cons] at hl
      rw [hl, hlen]
      push_cast
      ring
    · simp only [List.length_map, List.length_cons] at hl
      rw [hl, hlen]
      push_cast
      omega
  · intro image fuel f c hext h
    exact getFileContents_length_eq image fuel f c hext h

end flex2

namespace dos68

/-- Byte `j` of the 25 byte window taken at `lo`. -/
theorem window_getD (d sp : List Byte) (lo j : Nat) (hj : j < 25) (h : lo + j < d.length) :
    (((d ++ sp).drop lo).take 25).getD j 0 = d.getD (lo + j) 0 := by
  simp only [List.getD_eq_getElem?_getD, List.getElem?_take, List.getElem?_drop]
  rw [if_pos hj, List.getElem?_append_left h]

/-- A run of bytes inside the 25 byte window taken at `lo`. -/
theorem window_take (d sp : List Byte) (lo a n : Nat) (h1 : a + n ≤ 25)
    (h2 : lo + a + n ≤ d.length) :
    ((((d ++ sp).drop lo).take 25).drop a).take n = (d.drop (lo + a)).take n := by
  rw [List.drop_take, List.take_take, List.drop_drop, Nat.min_eq_left (by omega),
    List.drop_append_of_le_length (by omega),
    List.take_append_of_le_length (by simp only [List.length_drop]; omega)]

theorem shiftLeft_or_eq (a b : Nat) (hb : b < 256) : (a <<< 8) ||| b = a * 256 + b := by
  rw [Nat.shiftLeft_eq]
  have h := Nat.mul_add_lt_is_or (i := 8) (b := b) (by simpa using hb) a
  simp only [Nat.reducePow] at h ⊢
  rw [Nat.mul_comm a 256, h]

end dos68

namespace dos68

/-- Parsing the 25 byte window of slot `k` yields the entry of that slot. -/
theorem parseFib_window (d sp tail : List Byte) (k : Nat) (hk : k ≤ 4) (hd : d.length = 128)
    (hsp : 1 ≤ sp.length) (hb : ∀ b ∈ d, b < 256) :
    parseFib ⟨((d ++ sp).drop (8 + 24 * k)).take 25, tail⟩ = .ret (slotEntry d k) := by
  have hw : (((d ++ sp).drop (8 + 24 * k)).take 25).length = 25 := by
    simp only [List.length_take, List.length_drop, List.length_append]
    omega
  have e1 : List.take ((6 : Int) - 0).toNat (List.drop (0 : Int).toNat
      (((d ++ sp).drop (8 + 24 * k)).take 25 ++ tail)) = (d.drop (8 + 24 * k)).take 6 := by
    have h := window_take d sp (8 + 24 * k) 0 6 (by omega) (by omega)
    simp only [List.drop_zero, Nat.add_zero] at h
    have t1 : ((6 : Int) - 0).toNat = 6 := rfl
    have t2 : (0 : Int).toNat = 0 := rfl
    rw [t1, t2, List.drop_zero, List.take_append_of_le_length (by omega), h]
  have e2 : List.take ((9 : Int) - 6).toNat (List.drop (6 : Int).toNat
      (((d ++ sp).drop (8 + 24 * k)).take 25 ++ tail)) = (d.drop (8 + 24 * k + 6)).take 3 := by
    have h := window_take d sp (8 + 24 * k) 6 3 (by omega) (by omega)
    have t1 : ((9 : Int) - 6).toNat = 3 := rfl
    have t2 : (6 : Int).toNat = 6 := rfl
    rw [t1, t2, List.drop_append_of_le_length (by omega),
      List.take_append_of_le_length (by simp only [List.length_drop]; omega), h]
  have g : ∀ j : Nat, j < 25 → 8 + 24 * k + j < 128 →
      (((d ++ sp).drop (8 + 24 * k)).take 25).getD j 0 = d.getD (8 + 24 * k + j) 0 := by
    intro j hj hjd
    exact window_getD d sp (8 + 24 * k) j hj (by omega)
  have hb16 : d.getD (8 + 24 * k + 16) 0 < 256 := by
    rw [List.getD_eq_getElem?_getD, List.getElem?_eq_getElem (by omega)]
    exact hb _ (List.getElem_mem _)
  unfold parseFib
  rw [Slice.slice_of_le _ 0 6 (by decide) (by decide) (by unfold Slice.cap; simp only [hw]; omega),
    Run.ret_bind,
    Slice.slice_of_le _ 6 9 (by decide) (by decide) (by unfold Slice.cap; simp only [hw]; omega),
    Run.ret_bind,
    Slice.index_of_lt _ 9 (by decide) (by rw [hw]; decide), Run.ret_bind,
    Slice.index_of_lt _ 10 (by decide) (by rw [hw]; decide), Run.ret_bind,
    Slice.index_of_lt _ 11 (by decide) (by rw [hw]; decide), Run.ret_bind,
    Slice.index_of_lt _ 12 (by decide) (by rw [hw]; decide), Run.ret_bind,
    Slice.index_of_lt _ 13 (by decide) (by rw [hw]; decide), Run.ret_bind,
    Slice.index_of_lt _ 14 (by decide) (by rw [hw]; decide), Run.ret_bind,
    Slice.index_of_lt _ 15 (by decide) (by rw [hw]; decide), Run.ret_bind,
    Slice.index_of_lt _ 16 (by decide) (by rw [hw]; decide), Run.ret_bind]
  simp only [e1, e2]
  have t9 : (9 : Int).toNat = 9 := rfl
  have t10 : (10 : Int).toNat = 10 := rfl
  have t11 : (11 : Int).toNat = 11 := rfl
  have t12 : (12 : Int).toNat = 12 := rfl
  have t13 : (13 : Int).toNat = 13 := rfl
  have t14 : (14 : Int).toNat = 14 := rfl
  have t15 : (15 : Int).toNat = 15 := rfl
  have t16 : (16 : Int).toNat = 16 := rfl
  rw [t9, t10, t11, t12, t13, t14, t15, t16,
    g 9 (by omega) (by omega), g 10 (by omega) (by omega), g 11 (by omega) (by omega),
    g 12 (by omega) (by omega), g 13 (by omega) (by omega), g 14 (by omega) (by omega),
    g 15 (by omega) (by omega), g 16 (by omega) (by omega), shiftLeft_or_eq _ _ hb16]
  rfl

end dos68

namespace dos68

/-- The slot loop from slot `k` appends the entries of the slots `k`, ...,
`k + n - 1` whose type byte is not zero. -/
theorem parseSlots_eq (s : Slice) (hd : s.data.length = 128) (hsp : 1 ≤ s.spare.length)
    (hb : ∀ b ∈ s.data, b < 256) :
    ∀ (n k : Nat) (fibs : List fib), k + n ≤ 5 →
      parseSlots s n (k : Int) fibs = .ret (fibs ++
        ((List.range' k n).filter (fun j => decide (s.data.getD (8 + 24 * j + 9) 0 ≠ 0))).map
          (slotEntry s.data)) := by
  intro n
  induction n with
  | zero =>
    intro k fibs _
    rw [parseSlots]
    simp
  | succ n ih =>
    intro k fibs h
    have hlo : (0 : Int) ≤ 8 + (k : Int) * 24 := by omega
    have hhi : 8 + (k : Int) * 24 + 25 ≤ (s.cap : Int) := by
      unfold Slice.cap
      omega
    have tlo : (8 + (k : Int) * 24).toNat = 8 + 24 * k := by omega
    have tw : (8 + (k : Int) * 24 + 25 - (8 + (k : Int) * 24)).toNat = 25 := by omega
    have hcast : (k : Int) + 1 = ((k + 1 : Nat) : Int) := by push_cast; rfl
    rw [parseSlots, Slice.slice_of_le s _ _ hlo (by omega) hhi, Run.ret_bind, tlo, tw,
      parseFib_window s.data s.spare _ k (by omega) hd hsp hb, Run.ret_bind, hcast,
      List.range'_succ]
    have hty : (slotEntry s.data k).fileType = s.data.getD (8 + 24 * k + 9) 0 := rfl
    by_cases hz : s.data.getD (8 + 24 * k + 9) 0 = 0
    · have hn : ¬ ((slotEntry s.data k).fileType > 0) := by rw [hty, hz]; decide
      have hf : decide (s.data.getD (8 + 24 * k + 9) 0 ≠ 0) = false := by
        rw [hz]
        rfl
      rw [if_neg hn, ih (k + 1) fibs (by omega), List.filter_cons]
      simp only [hf, Bool.false_eq_true, if_false]
    · have hp : (slotEntry s.data k).fileType > 0 := by
        rw [hty]
        exact Nat.pos_of_ne_zero hz
      have hf : decide (s.data.getD (8 + 24 * k + 9) 0 ≠ 0) = true := decide_eq_true hz
      rw [if_pos hp, ih (k + 1) _ (by omega), List.filter_cons]
      simp only [hf, if_true, List.map_cons, List.append_assoc, List.singleton_append]

/-- On a sector of 128 bytes (each below 256) that has at least one more
element of capacity, `parseDirectoryBlock` returns the entries of the sector
and its masked link. -/
theorem parseDirectoryBlock_eq (s : Slice) (hd : s.data.length = 128)
    (hsp : 1 ≤ s.spare.length) (hb : ∀ b ∈ s.data, b < 256) :
    parseDirectoryBlock s = .ret ⟨dirEntries s.data, linkAddr s.data⟩ := by
  unfold parseDirectoryBlock dirEntries firstSlot
  rw [Slice.index_of_lt s 8 (by decide) (by rw [hd]; decide), Run.ret_bind]
  have t8 : (8 : Int).toNat = 8 := rfl
  simp only [t8]
  by_cases h8 : s.data.getD 8 0 = 0xFF
  · simp only [h8, if_true]
    rw [parseSlots_eq s hd hsp hb 4 1 [] (by decide), Run.ret_bind,
      maskedLink_eq s (by omega), Run.ret_bind]
    rfl
  · simp only [h8, if_false]
    rw [parseSlots_eq s hd hsp hb 5 0 [] (by decide), Run.ret_bind,
      maskedLink_eq s (by omega), Run.ret_bind]
    rfl

theorem dirEntries_length_le (d : List Byte) : (dirEntries d).length ≤ 5 := by
  unfold dirEntries
  rw [List.length_map]
  have h := List.length_filter_le (fun k => decide (d.getD (8 + 24 * k + 9) 0 ≠ 0))
    (List.range' (firstSlot d) (5 - firstSlot d))
  rw [List.length_range'] at h
  omega

/-- C11: on a directory sector (128 bytes, each below 256) on which
parseDirectoryBlock succeeds, the returned entries are exactly those of the
slots from s to 4 (s = 1 if byte 8 is 0xFF, else 0), in increasing slot order,
whose type byte d[8 + 24 * i + 9] is not zero, each decoded from its slot at
the fixed offsets (`slotEntry`); no entry has type 0, there are at most 5, and
slot 0 of a head block is not among them. -/
theorem parseDirectoryBlock_entries (s : Slice) (dib : directoryBlock)
    (hd : s.len = 128) (hb : ∀ b ∈ s.data, b < 256)
    (h : parseDirectoryBlock s = .ret dib) :
    dib.fileInformationBlocks =
      ((List.range' (if s.data.getD 8 0 = 0xFF then 1 else 0)
          (5 - (if s.data.getD 8 0 = 0xFF then 1 else 0))).filter
        (fun i => decide (s.data.getD (8 + 24 * i + 9) 0 ≠ 0))).map (slotEntry s.data) ∧
    (∀ e ∈ dib.fileInformationBlocks, e.fileType ≠ 0) ∧
    dib.fileInformationBlocks.length ≤ 5 ∧
    (s.data.getD 8 0 = 0xFF → dib.fileInformationBlocks =
      ((List.range' 1 4).filter
        (fun i => decide (s.data.getD (8 + 24 * i + 9) 0 ≠ 0))).map (slotEntry s.data)) ∧
    dib.next = linkAddr s.data := by
  have hd2 : s.data.length = 128 := hd
  have hsp : 1 ≤ s.spare.length := by
    by_contra hcon
    have hnil : s.spare = [] := List.length_eq_zero.mp (by omega)
    rw [parseDirectoryBlock_faults s hd2 hnil] at h
    simp at h
  rw [parseDirectoryBlock_eq s hd2 hsp hb] at h
  simp only [Run.ret.injEq] at h
  have hf : dib.fileInformationBlocks = dirEntries s.data := by rw [← h]
  have hn : dib.next = linkAddr s.data := by rw [← h]
  refine ⟨hf, ?_, ?_, ?_, hn⟩
  · intro e he
    rw [hf] at he
    unfold dirEntries at he
    obtain ⟨k, hk, rfl⟩ := List.mem_map.mp he
    have hk2 := (List.mem_filter.mp hk).2
    simpa [slotEntry] using hk2
  · rw [hf]
    exact dirEntries_length_le _
  · intro h8
    rw [hf]
    unfold dirEntries firstSlot
    simp only [h8, if_true]

end dos68

namespace dos68

theorem dirHead_length : dirHead.length = 128 := rfl

theorem dirNext_length : dirNext.length = 128 := rfl

set_option maxRecDepth 1000000 in
theorem dirHead_bytes : ∀ b ∈ dirHead, b < 256 := by decide

set_option maxRecDepth 1000000 in
theorem dirNext_bytes : ∀ b ∈ dirNext, b < 256 := by decide

theorem dirHead_entries : dirEntries dirHead = [entryAB, entryC] := by decide

theorem dirNext_entries : dirEntries dirNext = [entryD] := by decide

theorem parseDirectoryBlock_entries_witness :
    Slice.len ⟨dirHead, [0x00]⟩ = 128 ∧ (∀ b ∈ dirHead, b < 256) ∧
    parseDirectoryBlock ⟨dirHead, [0x00]⟩ = .ret ⟨[entryAB, entryC], ⟨0, 2⟩⟩ ∧
    [entryAB, entryC] =
      ((List.range' (if dirHead.getD 8 0 = 0xFF then 1 else 0)
          (5 - (if dirHead.getD 8 0 = 0xFF then 1 else 0))).filter
        (fun i => decide (dirHead.getD (8 + 24 * i + 9) 0 ≠ 0))).map (slotEntry dirHead) ∧
    dirHead.getD 8 0 = 0xFF ∧ dirHead.getD 17 0 = 0x02 := by
  have hp : parseDirectoryBlock ⟨dirHead, [0x00]⟩ = .ret ⟨[entryAB, entryC], ⟨0, 2⟩⟩ := by
    rw [parseDirectoryBlock_eq ⟨dirHead, [0x00]⟩ dirHead_length (by decide) dirHead_bytes]
    have hl : linkAddr dirHead = ⟨0, 2⟩ := by decide
    simp only [dirHead_entries, hl]
  have h := parseDirectoryBlock_entries ⟨dirHead, [0x00]⟩ ⟨[entryAB, entryC], ⟨0, 2⟩⟩
    dirHead_length dirHead_bytes hp
  exact ⟨dirHead_length, dirHead_bytes, hp, h.1, by decide, by decide⟩

end dos68

namespace dos68

theorem hasNext_of_ne (d : directoryBlock) (h : d.next ≠ ⟨0, 0⟩) : d.hasNext = true := by
  obtain ⟨fibs, a⟩ := d
  exact hasNext_eq_true fibs a h

theorem hasNext_of_eq (d : directoryBlock) (h : d.next = ⟨0, 0⟩) : d.hasNext = false := by
  obtain ⟨fibs, a⟩ := d
  have h2 : a = ⟨0, 0⟩ := h
  rw [h2]
  rfl

/-- The `GetFiles` loop along a parsed chain appends the entry lists of the
blocks in chain order. -/
theorem getFilesLoop_parsed (i : DiskImage) :
    ∀ (blocks : List (SectorAddress × Slice × directoryBlock)) (a : SectorAddress)
      (fuel : Nat) (fibs0 fibs : List fib) (reads : List SectorAddress),
      IsParsedChain i a blocks → blocks.length ≤ fuel →
      getFilesLoop i fuel ⟨fibs0, a⟩ fibs reads =
        .ret ⟨fibs ++ blocks.flatMap (fun b => b.2.2.fileInformationBlocks), none,
          reads ++ blocks.map (fun b => b.1)⟩ := by
  intro blocks
  induction blocks with
  | nil =>
    intro a fuel fibs0 fibs reads h _
    exact absurd h (by simp [IsParsedChain])
  | cons b rest ih =>
    intro a fuel fibs0 fibs reads h hfuel
    obtain ⟨k, hk⟩ : ∃ k, fuel = k + 1 :=
      ⟨fuel - 1, by simp only [List.length_cons] at hfuel; omega⟩
    cases rest with
    | nil =>
      obtain ⟨ha, hg, hp, hn⟩ := h
      rw [hk, getFilesLoop]
      simp only
      rw [hg, Run.ret_bind]
      simp only
      rw [hp, Run.ret_bind]
      simp only [hasNext_of_eq _ hn, Bool.not_false, if_true, List.flatMap_cons,
        List.flatMap_nil, List.append_nil, List.map_cons, List.map_nil, ha]
    | cons c rest =>
      obtain ⟨ha, hg, hp, hn, hch⟩ := h
      have hrec := ih b.2.2.next k b.2.2.fileInformationBlocks
        (fibs ++ b.2.2.fileInformationBlocks) (reads ++ [a]) hch
        (by simp only [List.length_cons] at hfuel ⊢; omega)
      have hd : (⟨b.2.2.fileInformationBlocks, b.2.2.next⟩ : directoryBlock) = b.2.2 := rfl
      rw [hd] at hrec
      rw [hk, getFilesLoop]
      simp only
      rw [hg, Run.ret_bind]
      simp only
      rw [hp, Run.ret_bind]
      simp only [hasNext_of_ne _ hn, Bool.not_true, Bool.false_eq_true, if_false]
      rw [hrec]
      simp only [List.flatMap_cons, List.map_cons, List.append_assoc, List.singleton_append, ha]

/-- `GetFiles` on a parsed chain that starts at {0,1}. -/
theorem GetFiles_parsed (i : DiskImage) (fuel : Nat)
    (blocks : List (SectorAddress × Slice × directoryBlock))
    (h : IsParsedChain i ⟨0, 1⟩ blocks) (hfuel : blocks.length ≤ fuel + 1) :
    i.GetFiles fuel =
      .ret ⟨blocks.flatMap (fun b => b.2.2.fileInformationBlocks), none,
        blocks.map (fun b => b.1)⟩ := by
  cases blocks with
  | nil => exact absurd h (by simp [IsParsedChain])
  | cons b rest =>
    cases rest with
    | nil =>
      obtain ⟨ha, hg, hp, hn⟩ := h
      unfold DiskImage.GetFiles
      rw [hg, Run.ret_bind]
      simp only
      rw [hp, Run.ret_bind]
      simp only [hasNext_of_eq _ hn, Bool.not_false, if_true, List.flatMap_cons,
        List.flatMap_nil, List.append_nil, List.map_cons, List.map_nil, ha, List.nil_append]
    | cons c rest =>
      obtain ⟨ha, hg, hp, hn, hch⟩ := h
      have hrec := getFilesLoop_parsed i (c :: rest) b.2.2.next fuel
        b.2.2.fileInformationBlocks ([] ++ b.2.2.fileInformationBlocks) [⟨0, 1⟩] hch
        (by simp only [List.length_cons] at hfuel ⊢; omega)
      have hd : (⟨b.2.2.fileInformationBlocks, b.2.2.next⟩ : directoryBlock) = b.2.2 := rfl
      rw [hd] at hrec
      unfold DiskImage.GetFiles
      rw [hg, Run.ret_bind]
      simp only
      rw [hp, Run.ret_bind]
      simp only [hasNext_of_ne _ hn, Bool.not_true, Bool.false_eq_true, if_false]
      rw [hrec]
      simp only [List.flatMap_cons, List.map_cons, List.nil_append, List.singleton_append, ha]

theorem sectorData_bytes (i : DiskImage) (a : SectorAddress) (hb : ∀ b ∈ i.data.data, b < 256) :
    ∀ b ∈ sectorData i a, b < 256 := by
  intro b h
  unfold sectorData at h
  exact hb b (List.mem_of_mem_drop (List.mem_of_mem_take h))

/-- A chain of directory blocks of a full-size image with spare capacity is a
parsed chain. -/
theorem IsDirChain.parsed (i : DiskImage) (hlen : 80640 ≤ i.data.len)
    (hcap : 80641 ≤ i.data.cap) (hb : ∀ b ∈ i.data.data, b < 256) :
    ∀ (rest : List SectorAddress) (a : SectorAddress), IsDirChain i (a :: rest) →
      linkAddr (sectorData i ((a :: rest).getLast (List.cons_ne_nil a rest))) = ⟨0, 0⟩ →
      IsParsedChain i a ((a :: rest).map (blockAt i)) := by
  intro rest
  induction rest with
  | nil =>
    intro a h hz
    have hv : ValidAddress a := h
    exact ⟨rfl, GetSector_eq_sectorSlice i a hlen hv,
      parseDirectoryBlock_eq (sectorSlice i a) (sectorData_length i a hlen hv)
        (sectorSlice_spare i a hcap hv) (sectorData_bytes i a hb), hz⟩
  | cons c rest ih =>
    intro a h hz
    obtain ⟨hv, hne, hnext, hch⟩ := h
    rw [List.getLast_cons_cons] at hz
    have hrec := ih c hch hz
    refine ⟨rfl, GetSector_eq_sectorSlice i a hlen hv,
      parseDirectoryBlock_eq (sectorSlice i a) (sectorData_length i a hlen hv)
        (sectorSlice_spare i a hcap hv) (sectorData_bytes i a hb), hne, ?_⟩
    show IsParsedChain i (linkAddr (sectorData i a)) ((c :: rest).map (blockAt i))
    rw [hnext]
    exact hrec

end dos68

namespace dos68

theorem IsDirChain.all_valid (i : DiskImage) :
    ∀ (rest : List SectorAddress) (a : SectorAddress), IsDirChain i (a :: rest) →
      ∀ x ∈ a :: rest, ValidAddress x := by
  intro rest
  induction rest with
  | nil =>
    intro a h x hx
    rw [List.mem_singleton] at hx
    rw [hx]
    exact h
  | cons c rest ih =>
    intro a h x hx
    obtain ⟨hv, _, _, hch⟩ := h
    rcases List.mem_cons.mp hx with hx1 | hx2
    · rw [hx1]
      exact hv
    · exact ih c hch x hx2

/-- The next pointer of a parsed block is the masked link of its sector. -/
theorem parseDirectoryBlock_next (s : Slice) (dib : directoryBlock) (hd : 2 ≤ s.data.length)
    (h : parseDirectoryBlock s = .ret dib) : dib.next = linkAddr s.data := by
  unfold parseDirectoryBlock at h
  cases h8 : s.index 8 with
  | fault => rw [h8] at h; simp at h
  | outOfFuel => rw [h8] at h; simp at h
  | ret b8 =>
    rw [h8, Run.ret_bind] at h
    simp only at h
    cases hs : parseSlots s (5 - if b8 = 0xFF then 1 else 0)
        ((if b8 = 0xFF then 1 else 0 : Nat) : Int) [] with
    | fault => rw [hs] at h; simp at h
    | outOfFuel => rw [hs] at h; simp at h
    | ret fibs =>
      rw [hs, Run.ret_bind, maskedLink_eq s hd, Run.ret_bind] at h
      have h2 : (Run.ret ⟨fibs, linkAddr s.data⟩ : Run directoryBlock) = Run.ret dib := h
      simp only [Run.ret.injEq] at h2
      rw [← h2]

theorem parse_eq_parsedEntries (i : DiskImage) (a : SectorAddress)
    (hlen : 80640 ≤ i.data.len) (hv : ValidAddress a)
    (hy : ∃ dib, parseDirectoryBlock (sectorSlice i a) = .ret dib) :
    parseDirectoryBlock (sectorSlice i a) =
      .ret ⟨parsedEntries (sectorSlice i a), linkAddr (sectorData i a)⟩ := by
  obtain ⟨dib, h⟩ := hy
  have hl : (sectorSlice i a).data.length = 128 := sectorData_length i a hlen hv
  have hn := parseDirectoryBlock_next (sectorSlice i a) dib (by omega) h
  have he : parsedEntries (sectorSlice i a) = dib.fileInformationBlocks := by
    unfold parsedEntries
    rw [h]
  have hn2 : linkAddr (sectorData i a) = dib.next := hn.symm
  rw [he, hn2, h]

/-- A chain of directory blocks of a full-size image, each of them parsed by
`parseDirectoryBlock`, is a parsed chain. -/
theorem IsDirChain.parsed_of_yields (i : DiskImage) (hlen : 80640 ≤ i.data.len) :
    ∀ (rest : List SectorAddress) (a : SectorAddress), IsDirChain i (a :: rest) →
      linkAddr (sectorData i ((a :: rest).getLast (List.cons_ne_nil a rest))) = ⟨0, 0⟩ →
      (∀ x ∈ a :: rest, ∃ dib, parseDirectoryBlock (sectorSlice i x) = .ret dib) →
      IsParsedChain i a ((a :: rest).map (parsedBlockAt i)) := by
  intro rest
  induction rest with
  | nil =>
    intro a h hz hy
    have hv : ValidAddress a := h
    exact ⟨rfl, GetSector_eq_sectorSlice i a hlen hv,
      parse_eq_parsedEntries i a hlen hv (hy a (List.mem_singleton.mpr rfl)), hz⟩
  | cons c rest ih =>
    intro a h hz hy
    obtain ⟨hv, hne, hnext, hch⟩ := h
    rw [List.getLast_cons_cons] at hz
    have hrec := ih c hch hz (fun x hx => hy x (List.mem_cons_of_mem a hx))
    refine ⟨rfl, GetSector_eq_sectorSlice i a hlen hv,
      parse_eq_parsedEntries i a hlen hv (hy a (List.mem_cons_self a _)), hne, ?_⟩
    show IsParsedChain i (linkAddr (sectorData i a)) ((c :: rest).map (parsedBlockAt i))
    rw [hnext]
    exact hrec

/-- Where GetFiles returns the concatenation, in chain order, of the entry
lists of the blocks of the directory chain from {0,1}, with no error: for an
image of at least 80640 bytes whose chain blocks are at valid addresses and are
parsed by parseDirectoryBlock; for any chain of blocks that are fetched and
parsed; and for a full-size image with spare capacity, where every block at a
valid address is fetched and parsed into `dirEntries` of its sector. -/
theorem GetFiles_concatenates (i : DiskImage) (fuel : Nat) :
    (∀ rest : List SectorAddress, 80640 ≤ i.data.len →
      IsDirChain i (⟨0, 1⟩ :: rest) →
      linkAddr (sectorData i ((⟨0, 1⟩ :: rest).getLast (List.cons_ne_nil _ rest))) = ⟨0, 0⟩ →
      (∀ a ∈ (⟨0, 1⟩ : SectorAddress) :: rest,
        ∃ dib, parseDirectoryBlock (sectorSlice i a) = .ret dib) →
      rest.length ≤ fuel →
      i.GetFiles fuel =
        .ret ⟨((⟨0, 1⟩ : SectorAddress) :: rest).flatMap
          (fun a => parsedEntries (sectorSlice i a)), none, ⟨0, 1⟩ :: rest⟩) ∧
    (∀ blocks : List (SectorAddress × Slice × directoryBlock),
      IsParsedChain i ⟨0, 1⟩ blocks → blocks.length ≤ fuel + 1 →
      i.GetFiles fuel =
        .ret ⟨blocks.flatMap (fun b => b.2.2.fileInformationBlocks), none,
          blocks.map (fun b => b.1)⟩) ∧
    (∀ rest : List SectorAddress,
      80640 ≤ i.data.len → 80641 ≤ i.data.cap → (∀ b ∈ i.data.data, b < 256) →
      IsDirChain i (⟨0, 1⟩ :: rest) →
      linkAddr (sectorData i ((⟨0, 1⟩ :: rest).getLast (List.cons_ne_nil _ rest))) = ⟨0, 0⟩ →
      rest.length ≤ fuel →
      (∀ a ∈ (⟨0, 1⟩ : SectorAddress) :: rest,
        i.GetSector a = .ret (sectorSlice i a, none) ∧
        parseDirectoryBlock (sectorSlice i a) =
          .ret ⟨dirEntries (sectorData i a), linkAddr (sectorData i a)⟩) ∧
      i.GetFiles fuel =
        .ret ⟨((⟨0, 1⟩ : SectorAddress) :: rest).flatMap (fun a => dirEntries (sectorData i a)),
          none, ⟨0, 1⟩ :: rest⟩) := by
  refine ⟨?_, ?_, ?_⟩
  · intro rest hlen hch hz hy hfuel
    have hp := IsDirChain.parsed_of_yields i hlen rest ⟨0, 1⟩ hch hz hy
    rw [GetFiles_parsed i fuel _ hp (by simp only [List.length_map, List.length_cons]; omega)]
    have hm : ((fun b : SectorAddress × Slice × directoryBlock => b.1) ∘ parsedBlockAt i) = id :=
      rfl
    simp only [List.flatMap_map, List.map_map, hm, List.map_id]
    rfl
  · intro blocks h hfuel
    exact GetFiles_parsed i fuel blocks h hfuel
  · intro rest hlen hcap hb hch hz hfuel
    constructor
    · intro a ha
      have hv := IsDirChain.all_valid i rest ⟨0, 1⟩ hch a ha
      exact ⟨GetSector_eq_sectorSlice i a hlen hv,
        parseDirectoryBlock_eq (sectorSlice i a) (sectorData_length i a hlen hv)
          (sectorSlice_spare i a hcap hv) (sectorData_bytes i a hb)⟩
    · have hp := IsDirChain.parsed i hlen hcap hb rest ⟨0, 1⟩ hch hz
      rw [GetFiles_parsed i fuel _ hp (by simp only [List.length_map, List.length_cons]; omega)]
      have hm : ((fun b : SectorAddress × Slice × directoryBlock => b.1) ∘ blockAt i) = id :=
        rfl
      simp only [List.flatMap_map, List.map_map, hm, List.map_id]
      rfl

theorem dirImage_length :
    (List.replicate 128 0x00 ++ (dirHead ++ (dirNext ++ List.replicate 80256 0x00))).length
      = 80640 := by
  rw [List.length_append, List.length_append, List.length_append, List.length_replicate,
    List.length_replicate, dirHead_length, dirNext_length]

theorem dirImage_len : 80640 ≤ dirImage.data.len :=
  le_of_eq dirImage_length.symm

theorem dirImage_cap : 80641 ≤ dirImage.data.cap :=
  le_of_eq (Slice.cap_eq dirImage.data 80640 1 dirImage_length rfl).symm

theorem dirImage_bytes : ∀ b ∈ dirImage.data.data, b < 256 := by
  intro b hb
  have hb2 : b ∈ List.replicate 128 0x00 ++
      (dirHead ++ (dirNext ++ List.replicate 80256 0x00)) := hb
  simp only [List.mem_append, List.mem_replicate] at hb2
  rcases hb2 with h | h | h | h
  · rw [h.2]
    decide
  · exact dirHead_bytes b h
  · exact dirNext_bytes b h
  · rw [h.2]
    decide

theorem dirImage_head : sectorData dirImage ⟨0, 1⟩ = dirHead :=
  sectorData_of_split dirImage ⟨0, 1⟩ (List.replicate 128 0x00) dirHead
    (dirNext ++ List.replicate 80256 0x00) rfl (by rw [List.length_replicate]; rfl)
    dirHead_length

theorem dirImage_next : sectorData dirImage ⟨0, 2⟩ = dirNext :=
  sectorData_of_split dirImage ⟨0, 2⟩ (List.replicate 128 0x00 ++ dirHead) dirNext
    (List.replicate 80256 0x00)
    (by simp only [dirImage, List.append_assoc])
    (by rw [List.length_append, List.length_replicate, dirHead_length]; rfl) dirNext_length

theorem dirImage_chain : IsDirChain dirImage [⟨0, 1⟩, ⟨0, 2⟩] := by
  refine ⟨by decide, ?_, ?_, ?_⟩
  · rw [dirImage_head]
    decide
  · rw [dirImage_head]
    decide
  · show ValidAddress ⟨0, 2⟩
    decide

theorem GetFiles_concatenates_witness :
    80640 ≤ dirImage.data.len ∧ 80641 ≤ dirImage.data.cap ∧
    IsDirChain dirImage [⟨0, 1⟩, ⟨0, 2⟩] ∧
    linkAddr (sectorData dirImage ⟨0, 2⟩) = ⟨0, 0⟩ ∧
    dirImage.GetFiles 1 = .ret ⟨[entryAB, entryC, entryD], none, [⟨0, 1⟩, ⟨0, 2⟩]⟩ := by
  have hz : linkAddr (sectorData dirImage ⟨0, 2⟩) = ⟨0, 0⟩ := by
    rw [dirImage_next]
    decide
  have h := ((GetFiles_concatenates dirImage 1).2.2 [⟨0, 2⟩] dirImage_len dirImage_cap
    dirImage_bytes dirImage_chain hz (by decide)).2
  refine ⟨dirImage_len, dirImage_cap, dirImage_chain, hz, ?_⟩
  rw [h]
  simp only [List.flatMap_cons, List.flatMap_nil, List.append_nil, dirImage_head,
    dirImage_next, dirHead_entries, dirNext_entries]
  rfl

end dos68

namespace flex2

/-- Parsing a record of 24 bytes yields the record decoded at the fixed
offsets. -/
theorem parseFcb_eq (index : Int) (r sp : List Byte) (hr : r.length = 24) :
    parseFcb index ⟨r, sp⟩ = .ret (decodeFcb index r) := by
  have e1 : List.take ((8 : Int) - 0).toNat (List.drop (0 : Int).toNat (r ++ sp)) = r.take 8 := by
    have t1 : ((8 : Int) - 0).toNat = 8 := rfl
    have t2 : (0 : Int).toNat = 0 := rfl
    rw [t1, t2, List.drop_zero, List.take_append_of_le_length (by omega)]
  have e2 : List.take ((11 : Int) - 8).toNat (List.drop (8 : Int).toNat (r ++ sp)) =
      (r.drop 8).take 3 := by
    have t1 : ((11 : Int) - 8).toNat = 3 := rfl
    have t2 : (8 : Int).toNat = 8 := rfl
    rw [t1, t2, List.drop_append_of_le_length (by omega),
      List.take_append_of_le_length (by simp only [List.length_drop]; omega)]
  unfold parseFcb
  rw [Slice.slice_of_le _ 0 8 (by decide) (by decide) (by unfold Slice.cap; simp only [hr]; omega),
    Run.ret_bind,
    Slice.slice_of_le _ 8 11 (by decide) (by decide) (by unfold Slice.cap; simp only [hr]; omega),
    Run.ret_bind,
    Slice.index_of_lt _ 11 (by decide) (by simp only [hr]; decide), Run.ret_bind,
    Slice.index_of_lt _ 13 (by decide) (by simp only [hr]; decide), Run.ret_bind,
    Slice.index_of_lt _ 14 (by decide) (by simp only [hr]; decide), Run.ret_bind,
    Slice.index_of_lt _ 15 (by decide) (by simp only [hr]; decide), Run.ret_bind,
    Slice.index_of_lt _ 16 (by decide) (by simp only [hr]; decide), Run.ret_bind,
    Slice.index_of_lt _ 17 (by decide) (by simp only [hr]; decide), Run.ret_bind,
    Slice.index_of_lt _ 18 (by decide) (by simp only [hr]; decide), Run.ret_bind,
    Slice.index_of_lt _ 19 (by decide) (by simp only [hr]; decide), Run.ret_bind,
    Slice.index_of_lt _ 23 (by decide) (by simp only [hr]; decide), Run.ret_bind,
    Slice.index_of_lt _ 21 (by decide) (by simp only [hr]; decide), Run.ret_bind,
    Slice.index_of_lt _ 22 (by decide) (by simp only [hr]; decide), Run.ret_bind,
    Slice.index_of_lt _ 0 (by decide) (by simp only [hr]; decide), Run.ret_bind]
  simp only [e1, e2, Run.ret_bind]
  have t0 : (0 : Int).toNat = 0 := rfl
  have t11 : (11 : Int).toNat = 11 := rfl
  have t13 : (13 : Int).toNat = 13 := rfl
  have t14 : (14 : Int).toNat = 14 := rfl
  have t15 : (15 : Int).toNat = 15 := rfl
  have t16 : (16 : Int).toNat = 16 := rfl
  have t17 : (17 : Int).toNat = 17 := rfl
  have t18 : (18 : Int).toNat = 18 := rfl
  have t19 : (19 : Int).toNat = 19 := rfl
  have t21 : (21 : Int).toNat = 21 := rfl
  have t22 : (22 : Int).toNat = 22 := rfl
  have t23 : (23 : Int).toNat = 23 := rfl
  rw [t0, t11, t13, t14, t15, t16, t17, t18, t19, t21, t22, t23]
  unfold decodeFcb
  by_cases h13 : r.getD 13 0 = 0x00
  · simp only [h13, ne_eq, not_true_eq_false, if_false, Run.ret_bind, Run.pure_eq,
      decide_False, Bool.false_or]
  · simp only [h13, ne_eq, not_false_eq_true, if_true, Run.ret_bind, Run.pure_eq,
      decide_True, Bool.true_or]

end flex2

namespace flex2

/-- The record loop from record `k` appends the decoded records `k`, ...,
`k + n - 1` of the assembled directory bytes. -/
theorem readDirectoryLoop_eq (D : List Byte) :
    ∀ (n k : Nat) (dir : List fcb), (k + n) * 24 ≤ D.length →
      readDirectoryLoop ⟨D, []⟩ n (k : Int) dir =
        .ret (dir ++ (List.range' k n).map
          (fun (j : Nat) => decodeFcb ((j : Nat) : Int) ((D.drop (24 * j)).take 24))) := by
  intro n
  induction n with
  | zero =>
    intro k dir _
    rw [readDirectoryLoop]
    simp
  | succ n ih =>
    intro k dir h
    have hlo : (0 : Int) ≤ (k : Int) * 24 := by omega
    have hhi : (k : Int) * 24 + 24 ≤ ((Slice.mk D []).cap : Int) := by
      unfold Slice.cap
      simp only [List.length_nil, Nat.add_zero]
      omega
    have tlo : ((k : Int) * 24).toNat = 24 * k := by omega
    have tw : ((k : Int) * 24 + 24 - (k : Int) * 24).toNat = 24 := by omega
    have hcast : (k : Int) + 1 = ((k + 1 : Nat) : Int) := by push_cast; rfl
    have hr : ((D.drop (24 * k)).take 24).length = 24 := by
      simp only [List.length_take, List.length_drop]
      omega
    rw [readDirectoryLoop, Slice.slice_of_le _ _ _ hlo (by omega) hhi, Run.ret_bind]
    simp only [List.append_nil]
    rw [tlo, tw, parseFcb_eq _ _ _ hr, Run.ret_bind, hcast, ih (k + 1) _ (by omega),
      List.range'_succ]
    simp only [List.map_cons, List.append_assoc, List.singleton_append]

set_option maxRecDepth 1000000 in
theorem high_bit_iff : ∀ b : Byte, b < 256 → (b &&& 0x80 = 0x80 ↔ 128 ≤ b) := by
  decide

/-- C13: readDirectory returns, for the bytes getSectors assembled from {0,5},
the records decoded from the consecutive 24 byte pieces; a record is marked
deleted if and only if the high bit 0x80 of its byte 0 is set, and allocated
if and only if its begin address (byte 13, byte 14) is not (0,0); the flags
depend on no other byte of the record. -/
theorem readDirectory_flags (image : DiskImage) (fuel : Nat) (c : Chained)
    (hc : image.getSectors fuel ⟨0, 5⟩ 16 = .ret c) :
    image.readDirectory fuel =
      .ret ((List.range (c.data.length / 24)).map
        (fun (k : Nat) => decodeFcb ((k : Nat) : Int) ((c.data.drop (24 * k)).take 24))) ∧
    (∀ (index : Int) (r sp : List Byte), r.length = 24 →
      parseFcb index ⟨r, sp⟩ = .ret (decodeFcb index r)) ∧
    (∀ (index : Int) (r : List Byte),
      (decodeFcb index r).deleted = true ↔ r.getD 0 0 &&& 0x80 = 0x80) ∧
    (∀ b : Byte, b < 256 → (b &&& 0x80 = 0x80 ↔ 128 ≤ b)) ∧
    (∀ (index : Int) (r : List Byte),
      (decodeFcb index r).allocated = true ↔ ¬ (r.getD 13 0 = 0 ∧ r.getD 14 0 = 0)) ∧
    (∀ (index index2 : Int) (r r2 : List Byte), r.getD 0 0 = r2.getD 0 0 →
      (decodeFcb index r).deleted = (decodeFcb index2 r2).deleted) ∧
    (∀ (index index2 : Int) (r r2 : List Byte), r.getD 13 0 = r2.getD 13 0 →
      r.getD 14 0 = r2.getD 14 0 →
      (decodeFcb index r).allocated = (decodeFcb index2 r2).allocated) := by
  refine ⟨?_, ?_, ?_, high_bit_iff, ?_, ?_, ?_⟩
  · unfold DiskImage.readDirectory
    rw [hc, Run.ret_bind]
    have h0 : ((0 : Nat) : Int) = 0 := rfl
    rw [← h0, readDirectoryLoop_eq c.data (c.data.length / 24) 0 []
      (by rw [Nat.zero_add]; exact Nat.div_mul_le_self _ _), List.range_eq_range']
    rfl
  · intro index r sp hr
    exact parseFcb_eq index r sp hr
  · intro index r
    simp [decodeFcb]
  · intro index r
    show (decide (r.getD 13 0 ≠ 0x00) || decide (r.getD 14 0 ≠ 0x00)) = true ↔ _
    simp only [Bool.or_eq_true, decide_eq_true_eq, not_and_or, ne_eq]
  · intro index index2 r r2 h
    simp only [decodeFcb, h]
  · intro index index2 r r2 h13 h14
    simp only [decodeFcb, h13, h14]

end flex2

namespace flex2

set_option maxRecDepth 1000000 in
theorem dirFileImage_sectors :
    dirFileImage.getSectors 1 ⟨0, 5⟩ 16 =
      .ret ⟨dirSector.drop 16 ++ dirSector.drop 16, [1024]⟩ := by
  decide!

set_option maxRecDepth 1000000 in
theorem readDirectory_flags_witness :
    dirFileImage.getSectors 1 ⟨0, 5⟩ 16 =
      .ret ⟨dirSector.drop 16 ++ dirSector.drop 16, [1024]⟩ ∧
    ∃ dir, dirFileImage.readDirectory 1 = .ret dir ∧ dir.length = 20 ∧
      (dir.map (fun f => (f.deleted, f.allocated))).take 3 =
        [(false, true), (true, true), (false, false)] := by
  have h := (readDirectory_flags dirFileImage 1 ⟨dirSector.drop 16 ++ dirSector.drop 16, [1024]⟩
    dirFileImage_sectors).1
  refine ⟨dirFileImage_sectors, _, h, ?_, ?_⟩
  · decide!
  · decide!

end flex2

namespace dos68

/-- The `GetFiles` loop faults when, after blocks that are fetched and parsed,
the next block cannot be fetched or cannot be parsed. -/
theorem getFilesLoop_faults_after (i : DiskImage) :
    ∀ (blocks : List (SectorAddress × Slice × directoryBlock)) (a b : SectorAddress)
      (fuel : Nat) (fibs0 fibs : List fib) (reads : List SectorAddress),
      IsParsedPrefix i a blocks b →
      (i.GetSector b = .fault ∨
        ∃ s, i.GetSector b = .ret (s, none) ∧ parseDirectoryBlock s = .fault) →
      blocks.length + 1 ≤ fuel →
      getFilesLoop i fuel ⟨fibs0, a⟩ fibs reads = .fault := by
  intro blocks
  induction blocks with
  | nil =>
    intro a b fuel fibs0 fibs reads h hf hfuel
    obtain ⟨k, hk⟩ : ∃ k, fuel = k + 1 := ⟨fuel - 1, by omega⟩
    have hab : a = b := h
    rw [hk, getFilesLoop]
    simp only
    rw [hab]
    rcases hf with hf | ⟨s, hg, hp⟩
    · rw [hf]
      rfl
    · rw [hg, Run.ret_bind]
      simp only
      rw [hp]
      rfl
  | cons x rest ih =>
    intro a b fuel fibs0 fibs reads h hf hfuel
    obtain ⟨k, hk⟩ : ∃ k, fuel = k + 1 := ⟨fuel - 1, by omega⟩
    obtain ⟨ha, hg, hp, hn, hch⟩ := h
    have hrec := ih x.2.2.next b k x.2.2.fileInformationBlocks
      (fibs ++ x.2.2.fileInformationBlocks) (reads ++ [a]) hch hf
      (by simp only [List.length_cons] at hfuel; omega)
    have hd : (⟨x.2.2.fileInformationBlocks, x.2.2.next⟩ : directoryBlock) = x.2.2 := rfl
    rw [hd] at hrec
    rw [hk, getFilesLoop]
    simp only
    rw [hg, Run.ret_bind]
    simp only
    rw [hp, Run.ret_bind]
    simp only [hasNext_of_ne _ hn, Bool.not_true, Bool.false_eq_true, if_false]
    exact hrec

/-- `GetFiles` faults when, after blocks that are fetched and parsed along the
links from {0,1}, the next block cannot be fetched or cannot be parsed. -/
theorem GetFiles_faults_after (i : DiskImage) (fuel : Nat)
    (blocks : List (SectorAddress × Slice × directoryBlock)) (b : SectorAddress)
    (h : IsParsedPrefix i ⟨0, 1⟩ blocks b)
    (hf : i.GetSector b = .fault ∨
      ∃ s, i.GetSector b = .ret (s, none) ∧ parseDirectoryBlock s = .fault)
    (hfuel : blocks.length ≤ fuel) :
    i.GetFiles fuel = .fault := by
  cases blocks with
  | nil =>
    have hab : (⟨0, 1⟩ : SectorAddress) = b := h
    unfold DiskImage.GetFiles
    rw [hab]
    rcases hf with hf | ⟨s, hg, hp⟩
    · rw [hf]
      rfl
    · rw [hg, Run.ret_bind]
      simp only
      rw [hp]
      rfl
  | cons x rest =>
    obtain ⟨ha, hg, hp, hn, hch⟩ := h
    have hrec := getFilesLoop_faults_after i rest x.2.2.next b fuel
      x.2.2.fileInformationBlocks ([] ++ x.2.2.fileInformationBlocks) [⟨0, 1⟩] hch hf
      (by simp only [List.length_cons] at hfuel; omega)
    have hd : (⟨x.2.2.fileInformationBlocks, x.2.2.next⟩ : directoryBlock) = x.2.2 := rfl
    rw [hd] at hrec
    unfold DiskImage.GetFiles
    rw [hg, Run.ret_bind]
    simp only
    rw [hp, Run.ret_bind]
    simp only [hasNext_of_ne _ hn, Bool.not_true, Bool.false_eq_true, if_false]
    exact hrec

set_option maxRecDepth 1000000 in
theorem shortDirImage_head :
    shortDirImage.GetSector ⟨0, 1⟩ = .ret (⟨secThird, List.replicate 256 0x00⟩, none) := by
  decide

set_option maxRecDepth 1000000 in
theorem shortDirImage_head_parse :
    parseDirectoryBlock ⟨secThird, List.replicate 256 0x00⟩ = .ret ⟨[], ⟨0, 3⟩⟩ := by
  decide

set_option maxRecDepth 1000000 in
theorem shortDirImage_third :
    shortDirImage.GetSector ⟨0, 3⟩ = .ret (⟨List.replicate 128 0x00, []⟩, none) := by
  decide

theorem shortDirImage_faults (fuel : Nat) : shortDirImage.GetFiles (fuel + 1) = .fault :=
  GetFiles_faults_after shortDirImage (fuel + 1)
    [(⟨0, 1⟩, ⟨secThird, List.replicate 256 0x00⟩, ⟨[], ⟨0, 3⟩⟩)] ⟨0, 3⟩
    ⟨rfl, shortDirImage_head, shortDirImage_head_parse, by decide, rfl⟩
    (Or.inr ⟨_, shortDirImage_third,
      parseDirectoryBlock_faults ⟨List.replicate 128 0x00, []⟩ rfl rfl⟩)
    (by simp only [List.length_cons, List.length_nil]; omega)

end dos68

namespace dos68

theorem sectorSlice_spare_of_lt (i : DiskImage) (a : SectorAddress)
    (h : (sectorOffset a).toNat + 129 ≤ i.data.cap) : 1 ≤ (sectorSlice i a).spare.length := by
  unfold Slice.cap at h
  simp only [sectorSlice, List.length_drop, List.length_append]
  omega

theorem sectorSlice_spare_nil (i : DiskImage) (a : SectorAddress)
    (h : i.data.cap ≤ (sectorOffset a).toNat + 128) : (sectorSlice i a).spare = [] := by
  unfold Slice.cap at h
  apply List.eq_nil_of_length_eq_zero
  simp only [sectorSlice, List.length_drop, List.length_append]
  omega

theorem secLast_length : secLast.length = 128 := rfl

theorem tightDirImage_length :
    (List.replicate 128 0x00 ++ (secLast ++ (List.replicate 80256 0x00 ++ dirNext))).length
      = 80640 := by
  rw [List.length_append, List.length_append, List.length_append, List.length_replicate,
    List.length_replicate, secLast_length, dirNext_length]

theorem tightDirImage_len : tightDirImage.data.len = 80640 :=
  tightDirImage_length

theorem tightDirImage_cap : tightDirImage.data.cap = 80640 :=
  Slice.cap_eq tightDirImage.data 80640 0 tightDirImage_length rfl

theorem tightDirImage_head : sectorData tightDirImage ⟨0, 1⟩ = secLast :=
  sectorData_of_split tightDirImage ⟨0, 1⟩ (List.replicate 128 0x00) secLast
    (List.replicate 80256 0x00 ++ dirNext) rfl (by rw [List.length_replicate]; rfl)
    secLast_length

theorem tightDirImage_last : sectorData tightDirImage ⟨34, 17⟩ = dirNext :=
  sectorData_of_split tightDirImage ⟨34, 17⟩
    (List.replicate 128 0x00 ++ (secLast ++ List.replicate 80256 0x00)) dirNext []
    (by simp only [tightDirImage, List.append_assoc, List.append_nil])
    (by rw [List.length_append, List.length_append, List.length_replicate,
      List.length_replicate, secLast_length]; rfl)
    dirNext_length

theorem tightDirImage_chain : IsDirChain tightDirImage [⟨0, 1⟩, ⟨34, 17⟩] := by
  refine ⟨by decide, ?_, ?_, ?_⟩
  · rw [tightDirImage_head]
    decide
  · rw [tightDirImage_head]
    decide
  · show ValidAddress ⟨34, 17⟩
    decide

/-- Fetching and parsing the block at a valid address whose 129 bytes from its
offset lie within the capacity. -/
theorem parse_sectorSlice_of_lt (i : DiskImage) (a : SectorAddress) (hlen : 80640 ≤ i.data.len)
    (hv : ValidAddress a) (h : (sectorOffset a).toNat + 129 ≤ i.data.cap) :
    ∃ fibs, parseDirectoryBlock (sectorSlice i a) = .ret ⟨fibs, linkAddr (sectorData i a)⟩ :=
  parseDirectoryBlock_returns (sectorSlice i a) (sectorData_length i a hlen hv)
    (sectorSlice_spare_of_lt i a h)

/-- Parsing the block at a valid address whose 128 bytes end where the
capacity ends faults. -/
theorem parse_sectorSlice_faults (i : DiskImage) (a : SectorAddress) (hlen : 80640 ≤ i.data.len)
    (hv : ValidAddress a) (h : i.data.cap ≤ (sectorOffset a).toNat + 128) :
    parseDirectoryBlock (sectorSlice i a) = .fault :=
  parseDirectoryBlock_faults (sectorSlice i a) (sectorData_length i a hlen hv)
    (sectorSlice_spare_nil i a h)

theorem tightDirImage_faults (fuel : Nat) : tightDirImage.GetFiles (fuel + 1) = .fault := by
  have hlen : 80640 ≤ tightDirImage.data.len := le_of_eq tightDirImage_len.symm
  have hv1 : ValidAddress ⟨0, 1⟩ := by decide
  have hv2 : ValidAddress ⟨34, 17⟩ := by decide
  have hc1 : (sectorOffset ⟨0, 1⟩).toNat + 129 ≤ tightDirImage.data.cap := by
    rw [tightDirImage_cap]
    decide
  have hc2 : tightDirImage.data.cap ≤ (sectorOffset ⟨34, 17⟩).toNat + 128 := by
    rw [tightDirImage_cap]
    decide
  obtain ⟨fibs, hp⟩ := parse_sectorSlice_of_lt tightDirImage ⟨0, 1⟩ hlen hv1 hc1
  have hl : linkAddr (sectorData tightDirImage ⟨0, 1⟩) = ⟨34, 17⟩ := by
    rw [tightDirImage_head]
    decide
  rw [hl] at hp
  have hne : (⟨34, 17⟩ : SectorAddress) ≠ ⟨0, 0⟩ := by decide
  have hpre : IsParsedPrefix tightDirImage ⟨0, 1⟩
      [(⟨0, 1⟩, sectorSlice tightDirImage ⟨0, 1⟩, ⟨fibs, ⟨34, 17⟩⟩)] ⟨34, 17⟩ :=
    ⟨rfl, GetSector_eq_sectorSlice tightDirImage ⟨0, 1⟩ hlen hv1, hp, hne, rfl⟩
  have hf2 := parse_sectorSlice_faults tightDirImage ⟨34, 17⟩ hlen hv2 hc2
  have hfuel : [((⟨0, 1⟩ : SectorAddress), sectorSlice tightDirImage ⟨0, 1⟩,
      (⟨fibs, ⟨34, 17⟩⟩ : directoryBlock))].length ≤ fuel + 1 := by
    simp only [List.length_cons, List.length_nil]
    omega
  exact GetFiles_faults_after tightDirImage (fuel + 1) _ ⟨34, 17⟩ hpre
    (Or.inr ⟨sectorSlice tightDirImage ⟨34, 17⟩,
      GetSector_eq_sectorSlice tightDirImage ⟨34, 17⟩ hlen hv2, hf2⟩) hfuel

set_option maxRecDepth 1000000 in
/-- C12: the code at failing inputs.  `shortDirImage` is a file of 400 bytes
in a buffer of capacity 512; its directory chain is {0,1}, {0,3}, both valid
addresses, and the block at {0,3} has the masked next pointer {0,0}.  GetSector
returns for {0,3} a slice of 128 elements with capacity 128, on which
parseDirectoryBlock faults at the slot 4 window [104,129), so GetFiles faults
for every fuel that reaches the block.  The same happens on `tightDirImage`,
an image of 80640 bytes with capacity 80640 whose chain is {0,1}, {34,17}.  In
general GetFiles faults whenever, after blocks that are fetched and parsed, the
next block cannot be fetched or parsed; it returns no error and the
concatenation of the entry lists in chain order on an image of at least 80640
bytes with spare capacity. -/
theorem GetFiles_faults_on_valid_chain :
    shortDirImage.data.len = 400 ∧ shortDirImage.data.cap = 512 ∧
    IsDirChain shortDirImage [⟨0, 1⟩, ⟨0, 3⟩] ∧
    shortDirImage.GetSector ⟨0, 1⟩ = .ret (⟨secThird, List.replicate 256 0x00⟩, none) ∧
    parseDirectoryBlock ⟨secThird, List.replicate 256 0x00⟩ = .ret ⟨[], ⟨0, 3⟩⟩ ∧
    shortDirImage.GetSector ⟨0, 3⟩ = .ret (⟨List.replicate 128 0x00, []⟩, none) ∧
    maskedLink ⟨List.replicate 128 0x00, []⟩ = .ret ⟨0, 0⟩ ∧
    parseDirectoryBlock ⟨List.replicate 128 0x00, []⟩ = .fault ∧
    (∀ fuel, shortDirImage.GetFiles (fuel + 1) = .fault) ∧
    tightDirImage.data.len = 80640 ∧ tightDirImage.data.cap = 80640 ∧
    IsDirChain tightDirImage [⟨0, 1⟩, ⟨34, 17⟩] ∧
    linkAddr (sectorData tightDirImage ⟨34, 17⟩) = ⟨0, 0⟩ ∧
    (∀ fuel, tightDirImage.GetFiles (fuel + 1) = .fault) ∧
    (∀ (i : DiskImage) (fuel : Nat) (blocks : List (SectorAddress × Slice × directoryBlock))
      (b : SectorAddress), IsParsedPrefix i ⟨0, 1⟩ blocks b →
      (i.GetSector b = .fault ∨
        ∃ s, i.GetSector b = .ret (s, none) ∧ parseDirectoryBlock s = .fault) →
      blocks.length ≤ fuel → i.GetFiles fuel = .fault) ∧
    (∀ (i : DiskImage) (fuel : Nat) (rest : List SectorAddress),
      80640 ≤ i.data.len → 80641 ≤ i.data.cap → (∀ b ∈ i.data.data, b < 256) →
      IsDirChain i (⟨0, 1⟩ :: rest) →
      linkAddr (sectorData i ((⟨0, 1⟩ :: rest).getLast (List.cons_ne_nil _ rest))) = ⟨0, 0⟩ →
      rest.length ≤ fuel →
      i.GetFiles fuel =
        .ret ⟨((⟨0, 1⟩ : SectorAddress) :: rest).flatMap (fun a => dirEntries (sectorData i a)),
          none, ⟨0, 1⟩ :: rest⟩) := by
  have hz : linkAddr (sectorData tightDirImage ⟨34, 17⟩) = ⟨0, 0⟩ := by
    rw [tightDirImage_last]
    decide
  have hc : IsDirChain shortDirImage [⟨0, 1⟩, ⟨0, 3⟩] := by
    refine ⟨by decide, by decide, by decide, ?_⟩
    show ValidAddress ⟨0, 3⟩
    decide
  refine ⟨by decide, by decide, hc, shortDirImage_head, shortDirImage_head_parse,
    shortDirImage_third, by decide,
    parseDirectoryBlock_faults ⟨List.replicate 128 0x00, []⟩ rfl rfl, shortDirImage_faults,
    tightDirImage_len, tightDirImage_cap, tightDirImage_chain, hz, tightDirImage_faults,
    ?_, ?_⟩
  · intro i fuel blocks b h hf hfuel
    exact GetFiles_faults_after i fuel blocks b h hf hfuel
  · intro i fuel rest hlen hcap hb hch hz2 hfuel
    exact ((GetFiles_concatenates i fuel).2.2 rest hlen hcap hb hch hz2 hfuel).2

end dos68

end Floppymount
